import Mathlib

/-!
# A shallow embedding of `src/sparInt.h`

The C library stores a three-dimensional array of `int` as a grid of cubic
blocks.  A block is either uniform (`blockData[n] == NULL`, the value is
`blockValue[n]`) or heterogeneous (`blockData[n]` points to `bs3` values).

Modelling conventions.

* Sizes and coordinates are natural numbers: every operation of the library
  is only defined on non-negative sizes and coordinates, where the C
  operators `/` and `%` agree with the ones on `ℕ`.  The arguments that the
  C code validates (`nx, ny, nz, bs` of `sparIntInit`, `sparIntResize`,
  `sparIntChangeBs`) are integers, and a call to `exit(1)` is the result
  `none`.
* A value of type `int` is an unbounded integer: the definitions agree with
  the C code as long as every `int` expression stays within `INT_MAX`.  On a
  matrix built by the library the expressions over its own fields do.  The
  expressions that depend on an argument of the caller are listed by
  `initFits` (`sparIntInit`, `sparIntChangeBs`, `sparIntMemoryBs`) and
  `resizeFits` (`sparIntResize`); a theorem that lets the caller choose such
  an argument carries that bound as a hypothesis.
* `blockValue` is a list of values, `blockData` a list of optional payloads:
  `none` is the `NULL` pointer, `some p` a pointer to the payload `p`.
  `calloc` returns zeros (`0`, `NULL`), and it never fails.
* A read outside a list gives `0` (or `NULL`), a write outside a list does
  nothing.  The theorems only use reads and writes inside the lists.
* A counting `for` loop is `forLoop`; its bounds are read before the loop,
  as no loop body of the library changes the fields its bounds are read from.
  A loop that only searches for a differing element is `List.all`.
* Values are immutable in this model, so two matrices never share storage.
  Where sharing is the question (`sparIntDuplicate`), a second, pointer-level
  model puts the payloads on a heap (section `Ptr`), and `deref` maps a
  pointer-level matrix to the matrix it stands for.
-/

namespace Spar

/-- The loop `for (i = lo; i < hi; i++) s = body s i`. -/
def forLoop {σ : Type} (lo hi : Nat) (s : σ) (body : σ → Nat → σ) : σ :=
  (List.range' lo (hi - lo)).foldl body s

/-- The struct `sparInt`. -/
structure sparInt where
  nx : Nat
  ny : Nat
  nz : Nat
  bs : Nat
  bs3 : Nat
  mx : Nat
  my : Nat
  mz : Nat
  blockValue : List Int
  blockData : List (Option (List Int))
  def_ : Int
deriving DecidableEq, Repr

/-- The pair of block arrays `(blockValue, blockData)`. -/
abbrev Blocks := List Int × List (Option (List Int))

/-- Read `blockValue[n]`. -/
def valueAt (bv : List Int) (n : Nat) : Int := bv.getD n 0

/-- Read `blockData[n]`. -/
def dataAt (bd : List (Option (List Int))) (n : Nat) : Option (List Int) := bd.getD n none

/-- Matrix constructor `sparIntInit`; `none` is `exit(1)`.  The `int`
expressions `bs * bs * bs`, `( n + bs - 1 ) / bs` and `mx * my * mz` are
computed exactly; they are those of the C code when `initFits` holds. -/
def sparIntInit (nx ny nz bs : Int) (d : Int) : Option sparInt :=
  if ¬ (nx > 0 ∧ ny > 0 ∧ nz > 0) then none
  else if ¬ (bs > 1) then none
  else
    let mx := ((nx + bs - 1) / bs).toNat
    let my := ((ny + bs - 1) / bs).toNat
    let mz := ((nz + bs - 1) / bs).toNat
    let blocks := mx * my * mz
    let b : Blocks := forLoop 0 blocks
      (List.replicate blocks 0, List.replicate blocks none)
      (fun s i => (s.1.set i d, s.2.set i none))
    some { nx := nx.toNat, ny := ny.toNat, nz := nz.toNat,
           bs := bs.toNat, bs3 := (bs * bs * bs).toNat,
           mx := mx, my := my, mz := mz,
           blockValue := b.1, blockData := b.2, def_ := d }

/-- Reset of all blocks to the default value, `sparIntReset`. -/
def sparIntReset (m : sparInt) : sparInt :=
  let blocks := m.mx * m.my * m.mz
  let b : Blocks := forLoop 0 blocks (m.blockValue, m.blockData)
    (fun s i => (s.1.set i m.def_, s.2.set i none))
  { m with blockValue := b.1, blockData := b.2 }

/-- The three `sizeof` values that `sparIntMemory` adds up. -/
structure Sizeof where
  szStruct : Nat
  szInt : Nat
  szPtr : Nat

/-- Memory usage in bytes, `sparIntMemory`.  The C result is a `double`
holding a sum of integers; it is modelled by that integer. -/
def sparIntMemory (sz : Sizeof) (m : sparInt) : Nat :=
  let blocks := m.mx * m.my * m.mz
  let size := sz.szStruct
  let size := size + blocks * sz.szInt
  let size := size + blocks * sz.szPtr
  forLoop 0 blocks size
    (fun size i => if dataAt m.blockData i ≠ none then size + sz.szInt * m.bs3 else size)

/-- Uniformity test of block `(x,y,z)`, `sparIntUniformBlock`.  Each C loop
leaves at the first differing element (`i = bs3`, resp. `i = j = k = bs`) with
`isUniform = 0`, so `isUniform` is the conjunction of the comparisons. -/
def sparIntUniformBlock (m : sparInt) (x y z : Nat) : Bool :=
  let bs := m.bs
  let bs3 := m.bs3
  let n := x + m.mx * (y + m.my * z)
  match dataAt m.blockData n with
  | none => true
  | some blockData =>
    if x < m.mx - 1 ∧ y < m.my - 1 ∧ z < m.mz - 1 then
      let value := blockData.getD (bs3 - 1) 0
      (List.range bs3).all (fun i => blockData.getD i 0 == value)
    else
      let value := blockData.getD 0 0
      (List.range bs).all (fun k =>
        if z * bs + k < m.nz then
          (List.range bs).all (fun j =>
            if y * bs + j < m.ny then
              (List.range bs).all (fun i =>
                if x * bs + i < m.nx then
                  blockData.getD (i + bs * (j + bs * k)) 0 == value
                else true)
            else true)
        else true)

/-- Write of one element, `sparIntSet`. -/
def sparIntSet (m : sparInt) (x y z : Nat) (value : Int) : sparInt :=
  let bs := m.bs
  let bs3 := m.bs3
  let i1 := x / bs
  let j1 := y / bs
  let k1 := z / bs
  let i2 := x % bs
  let j2 := y % bs
  let k2 := z % bs
  let n := i1 + m.mx * (j1 + m.my * k1)
  let blockValue := valueAt m.blockValue n
  match dataAt m.blockData n with
  | none =>
    if value ≠ blockValue then
      let blockData := List.replicate bs3 (0 : Int)
      let blockData := forLoop 0 bs3 blockData (fun b i => b.set i blockValue)
      let blockData := blockData.set (i2 + bs * (j2 + bs * k2)) value
      { m with blockData := m.blockData.set n (some blockData) }
    else m
  | some blockData =>
    let blockData := blockData.set (i2 + bs * (j2 + bs * k2)) value
    let m1 := { m with blockData := m.blockData.set n (some blockData) }
    if sparIntUniformBlock m1 i1 j1 k1 then
      { m1 with blockValue := m1.blockValue.set n value,
                blockData := m1.blockData.set n none }
    else m1

/-- Read of one element, `sparIntGet`. -/
def sparIntGet (m : sparInt) (x y z : Nat) : Int :=
  let bs := m.bs
  let i1 := x / bs
  let j1 := y / bs
  let k1 := z / bs
  let n := i1 + m.mx * (j1 + m.my * k1)
  match dataAt m.blockData n with
  | none => valueAt m.blockValue n
  | some blockData =>
    let i2 := x % bs
    let j2 := y % bs
    let k2 := z % bs
    blockData.getD (i2 + bs * (j2 + bs * k2)) 0

/-- Copy of a matrix, `sparIntDuplicate`.  A heterogeneous block gets a fresh
payload (`calloc`) that `memcpy` fills with the first `bs3` values of the
original payload; its `blockValue` entry keeps the value given by
`sparIntInit`. -/
def sparIntDuplicate (m : sparInt) : Option sparInt :=
  match sparIntInit m.nx m.ny m.nz m.bs m.def_ with
  | none => none
  | some m2 =>
    let blocks := m2.mx * m2.my * m2.mz
    let b : Blocks := forLoop 0 blocks (m2.blockValue, m2.blockData)
      (fun s i =>
        match dataAt m.blockData i with
        | some p =>
          let fresh := List.replicate m2.bs3 (0 : Int)
          let fresh := forLoop 0 m2.bs3 fresh (fun q t => q.set t (p.getD t 0))
          (s.1, s.2.set i (some fresh))
        | none => (s.1.set i (valueAt m.blockValue i), s.2.set i none))
    some { m2 with blockValue := b.1, blockData := b.2 }

/-- Memory usage under block size `bs`, `sparIntMemoryBs`.  The `int`
expressions `bs * bs * bs`, `( n + bs - 1 ) / bs` and `mx * my * mz` are
computed exactly; they are those of the C code when `initFits` holds for the
sizes of the matrix and `bs`. -/
def sparIntMemoryBs (sz : Sizeof) (m : sparInt) (bs : Nat) : Nat :=
  if bs = m.bs then sparIntMemory sz m
  else
    let nx := m.nx
    let ny := m.ny
    let nz := m.nz
    let bs3 := bs * bs * bs
    let mx := (nx + bs - 1) / bs
    let my := (ny + bs - 1) / bs
    let mz := (nz + bs - 1) / bs
    let blocks := mx * my * mz
    let size := sz.szStruct
    let size := size + blocks * sz.szInt
    let size := size + blocks * sz.szPtr
    forLoop 0 mz size (fun size k1 =>
      forLoop 0 my size (fun size j1 =>
        forLoop 0 mx size (fun size i1 =>
          let value := sparIntGet m (i1 * bs) (j1 * bs) (k1 * bs)
          let isUniform :=
            (List.range' (k1 * bs) bs).all (fun k =>
              if k < nz then
                (List.range' (j1 * bs) bs).all (fun j =>
                  if j < ny then
                    (List.range' (i1 * bs) bs).all (fun i =>
                      if i < nx then sparIntGet m i j k == value else true)
                  else true)
              else true)
          if isUniform = false then size + sz.szInt * bs3 else size)))

/-- The copy loop of `sparIntChangeBs`: every element of `matrix` is written
to `matrix2` and then set to the default value in `matrix`.  The state is
the pair `(matrix, matrix2)`. -/
def changeBsLoop (m m2 : sparInt) : sparInt × sparInt :=
  let nx := m.nx
  let ny := m.ny
  let nz := m.nz
  let d := m.def_
  forLoop 0 nz (m, m2) (fun s k =>
    forLoop 0 ny s (fun s j =>
      forLoop 0 nx s (fun s i =>
        let t := sparIntSet s.2 i j k (sparIntGet s.1 i j k)
        (sparIntSet s.1 i j k d, t))))

/-- Change of the block size, `sparIntChangeBs`; `none` is the `exit(1)` of
`sparIntInit`.  The block size is passed to `sparIntInit` as it
is, with the exact `int` expressions of that definition. -/
def sparIntChangeBs (m : sparInt) (bs : Int) : Option sparInt :=
  match sparIntInit m.nx m.ny m.nz bs m.def_ with
  | none => none
  | some m2 =>
    let s := changeBsLoop m m2
    some { s.1 with bs := s.2.bs, bs3 := s.2.bs3,
                    mx := s.2.mx, my := s.2.my, mz := s.2.mz,
                    blockValue := s.2.blockValue, blockData := s.2.blockData }

/-- Block-size optimisation, `sparIntOptimizeBs`: the array `bs[10]` has six
initialised candidates, the loop reads the first six. -/
def sparIntOptimizeBs (sz : Sizeof) (m : sparInt) : Option sparInt :=
  let bs : List Nat := [2, 3, 4, 6, 8, 10, 0, 0, 0, 0]
  let bestBs := bs.getD 0 0
  let bestMemory := sparIntMemoryBs sz m (bs.getD 0 0)
  let r : Nat × Nat := forLoop 1 6 (bestBs, bestMemory) (fun r i =>
    let memory := sparIntMemoryBs sz m (bs.getD i 0)
    if memory < r.2 then (bs.getD i 0, memory) else r)
  sparIntChangeBs m r.1

/-- The loops `Copy existing blocks` of `sparIntResize`: for `k < nk`,
`j < nj`, `i < ni` the entry `i + mx * (j + my * k)` of the new arrays gets
the entry `i + matrix->mx * (j + matrix->my * k)` of the old ones. -/
def copyBlocks (m : sparInt) (mx my : Nat) (ni nj nk : Nat) (b : Blocks) : Blocks :=
  forLoop 0 nk b (fun b k =>
    forLoop 0 nj b (fun b j =>
      forLoop 0 ni b (fun b i =>
        (b.1.set (i + mx * (j + my * k)) (valueAt m.blockValue (i + m.mx * (j + m.my * k))),
         b.2.set (i + mx * (j + my * k)) (dataAt m.blockData (i + m.mx * (j + m.my * k)))))))

/-- The loops `Create new blocks` of `sparIntResize`: for `k0 ≤ k < k1`,
`j0 ≤ j < j1`, `i0 ≤ i < i1` the entry `i + mx * (j + my * k)` of the new
arrays becomes a uniform block with the default value. -/
def createBlocks (d : Int) (mx my : Nat) (i0 i1 j0 j1 k0 k1 : Nat) (b : Blocks) : Blocks :=
  forLoop k0 k1 b (fun b k =>
    forLoop j0 j1 b (fun b j =>
      forLoop i0 i1 b (fun b i =>
        (b.1.set (i + mx * (j + my * k)) d,
         b.2.set (i + mx * (j + my * k)) none))))

/-- The x axis of `sparIntResize` (`Expand x`, `Shrink x`).  The loops
`Free excedent blocks` only release payloads of blocks that are not copied,
and have no counterpart here.  The `int` expressions
`( nx + bs - 1 ) / bs` and `mx * my * mz` are computed exactly; they are those
of the C code when `resizeFits` holds. -/
def resizeX (m : sparInt) (bs : Nat) (d : Int) (nx : Nat) : sparInt :=
  if nx > m.nx then
    let mx := (nx + bs - 1) / bs
    let my := m.my
    let mz := m.mz
    let blocks := mx * my * mz
    let b : Blocks := (List.replicate blocks 0, List.replicate blocks none)
    let b := copyBlocks m mx my m.mx my mz b
    let b := createBlocks d mx my m.mx mx 0 my 0 mz b
    let xi := m.nx
    let xf := m.bs * m.mx
    let xf := if xf ≥ nx then nx - 1 else xf
    let m1 := { m with nx := nx, mx := mx, blockData := b.2, blockValue := b.1 }
    forLoop 0 m1.nz m1 (fun s k =>
      forLoop 0 m1.ny s (fun s j =>
        forLoop xi xf s (fun s i => sparIntSet s i j k d)))
  else if nx < m.nx then
    let mx := (nx + bs - 1) / bs
    let my := m.my
    let mz := m.mz
    let blocks := mx * my * mz
    let b : Blocks := (List.replicate blocks 0, List.replicate blocks none)
    let b := copyBlocks m mx my mx my mz b
    { m with nx := nx, mx := mx, blockData := b.2, blockValue := b.1 }
  else m

/-- The y axis of `sparIntResize` (`Expand y`, `Shrink y`), with exact `int`
expressions as for the x axis. -/
def resizeY (m : sparInt) (bs : Nat) (d : Int) (ny : Nat) : sparInt :=
  if ny > m.ny then
    let mx := m.mx
    let my := (ny + bs - 1) / bs
    let mz := m.mz
    let blocks := mx * my * mz
    let b : Blocks := (List.replicate blocks 0, List.replicate blocks none)
    let b := copyBlocks m mx my mx m.my mz b
    let b := createBlocks d mx my 0 mx m.my my 0 mz b
    let yi := m.ny
    let yf := m.bs * m.my
    let yf := if yf ≥ ny then ny - 1 else yf
    let m1 := { m with ny := ny, my := my, blockData := b.2, blockValue := b.1 }
    forLoop 0 m1.nz m1 (fun s k =>
      forLoop yi yf s (fun s j =>
        forLoop 0 m1.nx s (fun s i => sparIntSet s i j k d)))
  else if ny < m.ny then
    let mx := m.mx
    let my := (ny + bs - 1) / bs
    let mz := m.mz
    let blocks := mx * my * mz
    let b : Blocks := (List.replicate blocks 0, List.replicate blocks none)
    let b := copyBlocks m mx my mx my mz b
    { m with ny := ny, my := my, blockData := b.2, blockValue := b.1 }
  else m

/-- The z axis of `sparIntResize` (`Expand z`, `Shrink z`), with exact `int`
expressions as for the x axis. -/
def resizeZ (m : sparInt) (bs : Nat) (d : Int) (nz : Nat) : sparInt :=
  if nz > m.nz then
    let mx := m.mx
    let my := m.my
    let mz := (nz + bs - 1) / bs
    let blocks := mx * my * mz
    let b : Blocks := (List.replicate blocks 0, List.replicate blocks none)
    let b := copyBlocks m mx my mx my m.mz b
    let b := createBlocks d mx my 0 mx 0 my m.mz mz b
    let zi := m.nz
    let zf := m.bs * m.mz
    let zf := if zf ≥ nz then nz - 1 else zf
    let m1 := { m with nz := nz, mz := mz, blockData := b.2, blockValue := b.1 }
    forLoop zi zf m1 (fun s k =>
      forLoop 0 m1.ny s (fun s j =>
        forLoop 0 m1.nx s (fun s i => sparIntSet s i j k d)))
  else if nz < m.nz then
    let mx := m.mx
    let my := m.my
    let mz := (nz + bs - 1) / bs
    let blocks := mx * my * mz
    let b : Blocks := (List.replicate blocks 0, List.replicate blocks none)
    let b := copyBlocks m mx my mx my mz b
    { m with nz := nz, mz := mz, blockData := b.2, blockValue := b.1 }
  else m

/-- Resize of the matrix, `sparIntResize`: the three axes in the order x, y,
z, with `bs` and `def` read once at the start; `none` is `exit(1)`. -/
def sparIntResize (m : sparInt) (nx ny nz : Int) : Option sparInt :=
  if ¬ (nx > 0 ∧ ny > 0 ∧ nz > 0) then none
  else
    let bs := m.bs
    let d := m.def_
    let m := resizeX m bs d nx.toNat
    let m := resizeY m bs d ny.toNat
    let m := resizeZ m bs d nz.toNat
    some m

/-- Well-formed matrix: positive sizes, block size above one, the grid is
the ceiling quotient of the sizes, the two block arrays have one entry per
block, and every payload has `bs3 = bs^3` values. -/
def WF (m : sparInt) : Prop :=
  0 < m.nx ∧ 0 < m.ny ∧ 0 < m.nz ∧ 1 < m.bs ∧
  m.bs3 = m.bs * m.bs * m.bs ∧
  m.mx = (m.nx + m.bs - 1) / m.bs ∧
  m.my = (m.ny + m.bs - 1) / m.bs ∧
  m.mz = (m.nz + m.bs - 1) / m.bs ∧
  m.blockValue.length = m.mx * m.my * m.mz ∧
  m.blockData.length = m.mx * m.my * m.mz ∧
  ∀ p ∈ m.blockData, ∀ q ∈ p, q.length = m.bs3

instance (m : sparInt) : Decidable (WF m) := by
  unfold WF; infer_instance

/-- Coordinate `(x,y,z)` lies inside the matrix. -/
def InRange (m : sparInt) (x y z : Nat) : Prop := x < m.nx ∧ y < m.ny ∧ z < m.nz

instance (m : sparInt) (x y z : Nat) : Decidable (InRange m x y z) := by
  unfold InRange; infer_instance

/-- Linear index of the block that holds `(x,y,z)`. -/
def blockIndex (m : sparInt) (x y z : Nat) : Nat :=
  x / m.bs + m.mx * (y / m.bs + m.my * (z / m.bs))

/-- Offset of `(x,y,z)` inside its block. -/
def blockOffset (m : sparInt) (x y z : Nat) : Nat :=
  x % m.bs + m.bs * (y % m.bs + m.bs * (z % m.bs))

/-- The matrix built by `sparIntInit` from valid arguments. -/
def initMatrix (nx ny nz bs : Nat) (d : Int) : sparInt :=
  { nx := nx, ny := ny, nz := nz, bs := bs, bs3 := bs * bs * bs,
    mx := (nx + bs - 1) / bs, my := (ny + bs - 1) / bs, mz := (nz + bs - 1) / bs,
    blockValue := List.replicate
      ((nx + bs - 1) / bs * ((ny + bs - 1) / bs) * ((nz + bs - 1) / bs)) d,
    blockData := List.replicate
      ((nx + bs - 1) / bs * ((ny + bs - 1) / bs) * ((nz + bs - 1) / bs)) none,
    def_ := d }

/-- Two matrices agree on every field other than the block arrays. -/
def SameShape (a b : sparInt) : Prop :=
  a.nx = b.nx ∧ a.ny = b.ny ∧ a.nz = b.nz ∧ a.bs = b.bs ∧ a.bs3 = b.bs3 ∧
  a.mx = b.mx ∧ a.my = b.my ∧ a.mz = b.mz ∧ a.def_ = b.def_

/-- The invariant of the copy loop of `sparIntChangeBs`, started on
`(m, m2)`: at the coordinates selected by `P` the second matrix already holds
the values of `m`, at the others the first matrix still holds them. -/
def ChangeInv (m m2 : sparInt) (P : Nat → Nat → Nat → Prop) (s : sparInt × sparInt) : Prop :=
  WF s.1 ∧ WF s.2 ∧ SameShape s.1 m ∧ SameShape s.2 m2 ∧
  ∀ x y z, InRange m x y z →
    (P x y z → sparIntGet s.2 x y z = sparIntGet m x y z) ∧
    (¬ P x y z → sparIntGet s.1 x y z = sparIntGet m x y z)

/-- Three nested loops that write `f i j k` at index `i + mx * (j + my * k)`
of one array, for `k0 ≤ k < k1`, `j0 ≤ j < j1`, `i0 ≤ i < i1`: the shape of
the block loops of `sparIntResize`, for one of the two block arrays. -/
def boxSet {α : Type} (mx my : Nat) (i0 i1 j0 j1 k0 k1 : Nat) (f : Nat → Nat → Nat → α)
    (l : List α) : List α :=
  forLoop k0 k1 l (fun l k =>
    forLoop j0 j1 l (fun l j =>
      forLoop i0 i1 l (fun l i => l.set (i + mx * (j + my * k)) (f i j k))))

/-- The invariant of `boxSet` started on `l`: the entries selected by `B` are
written, the others are those of `l`. -/
def BoxInv {α : Type} (mx my : Nat) (f : Nat → Nat → Nat → α) (l : List α)
    (B : Nat → Nat → Nat → Prop) (r : List α) : Prop :=
  r.length = l.length ∧
  ∀ i j k, i < mx → j < my →
    (B i j k → i + mx * (j + my * k) < l.length →
      r[i + mx * (j + my * k)]? = some (f i j k)) ∧
    (¬ B i j k → r[i + mx * (j + my * k)]? = l[i + mx * (j + my * k)]?)

/-- The invariant of a loop of `sparIntSet (…, d)` calls started on `m`: the
coordinates selected by `P` read `d`, the others read as in `m`. -/
def SetInv (m : sparInt) (d : Int) (P : Nat → Nat → Nat → Prop) (s : sparInt) : Prop :=
  WF s ∧ SameShape s m ∧
  ∀ x y z, InRange m x y z →
    (P x y z → sparIntGet s x y z = d) ∧
    (¬ P x y z → sparIntGet s x y z = sparIntGet m x y z)

/-- Position `(i,j,k)` of block `(i1,j1,k1)` lies inside the matrix. -/
def posInside (m : sparInt) (i1 j1 k1 i j k : Nat) : Prop :=
  i1 * m.bs + i < m.nx ∧ j1 * m.bs + j < m.ny ∧ k1 * m.bs + k < m.nz

instance (m : sparInt) (i1 j1 k1 i j k : Nat) : Decidable (posInside m i1 j1 k1 i j k) := by
  unfold posInside; infer_instance

/-- Payload `p` of block `(i1,j1,k1)` holds two positions inside the matrix
with different values. -/
def mixedBlock (m : sparInt) (i1 j1 k1 : Nat) (p : List Int) : Prop :=
  ∃ i < m.bs, ∃ j < m.bs, ∃ k < m.bs, ∃ i' < m.bs, ∃ j' < m.bs, ∃ k' < m.bs,
    posInside m i1 j1 k1 i j k ∧ posInside m i1 j1 k1 i' j' k' ∧
    p.getD (i + m.bs * (j + m.bs * k)) 0 ≠ p.getD (i' + m.bs * (j' + m.bs * k')) 0

instance (m : sparInt) (i1 j1 k1 : Nat) (p : List Int) : Decidable (mixedBlock m i1 j1 k1 p) := by
  unfold mixedBlock; infer_instance

/-- Invariant I2 of the specification: every heterogeneous block of the grid
holds two positions inside the matrix with different values. -/
def I2 (m : sparInt) : Prop :=
  ∀ i1 < m.mx, ∀ j1 < m.my, ∀ k1 < m.mz,
    ∀ p ∈ dataAt m.blockData (i1 + m.mx * (j1 + m.my * k1)), mixedBlock m i1 j1 k1 p

instance (m : sparInt) : Decidable (I2 m) := by
  unfold I2; infer_instance

/-- The matrix of the boundary scenario: `sparIntInit(3,3,3,2,1)`. -/
def corner0 : sparInt :=
  ⟨3, 3, 3, 2, 8, 2, 2, 2, [1, 1, 1, 1, 1, 1, 1, 1],
    [none, none, none, none, none, none, none, none], 1⟩

/-- A matrix with a stale value outside its range:
`sparIntInit(2,1,1,2,0)`, `sparIntSet(1,0,0,5)`, `sparIntResize(1,1,1)`. -/
def stale0 : sparInt :=
  ⟨1, 1, 1, 2, 8, 1, 1, 1, [0], [some [0, 5, 0, 0, 0, 0, 0, 0]], 0⟩

/-- A sequence of `sparIntSet` calls, each given as `(x, y, z, value)`. -/
def setAll (m : sparInt) (ops : List (Nat × Nat × Nat × Int)) : sparInt :=
  ops.foldl (fun s o => sparIntSet s o.1 o.2.1 o.2.2.1 o.2.2.2) m

/-! ## A pointer-level model of the payloads

`sparIntDuplicate` promises a clone that shares no payload with the original.
To state this, the payloads are put on a heap and `blockData` holds their
addresses.  `calloc` appends a zeroed payload to the heap, so a fresh address
differs from every address in use; `free` leaves the heap as it is (a freed
payload is never used again, and its address is never handed out again). -/

/-- The heap of payloads: address `a` holds the payload `h[a]`. -/
abbrev Heap := List (List Int)

/-- The payload at address `a`. -/
def payloadAt (h : Heap) (a : Nat) : List Int := h.getD a []

/-- The write `p[i] = v` through the pointer `p = a`. -/
def store (h : Heap) (a i : Nat) (v : Int) : Heap := h.set a ((payloadAt h a).set i v)

/-- The call `calloc(k, sizeof(int))`: the new heap and the new address. -/
def calloc (h : Heap) (k : Nat) : Heap × Nat := (h ++ [List.replicate k 0], h.length)

/-- The struct `sparInt` with `blockData` as an array of pointers: `none` is
`NULL`, `some a` the address of a payload on the heap. -/
structure sparIntP where
  nx : Nat
  ny : Nat
  nz : Nat
  bs : Nat
  bs3 : Nat
  mx : Nat
  my : Nat
  mz : Nat
  blockValue : List Int
  blockData : List (Option Nat)
  def_ : Int
deriving DecidableEq, Repr

/-- Read the pointer `blockData[n]`. -/
def ptrAt (bd : List (Option Nat)) (n : Nat) : Option Nat := bd.getD n none

/-- The matrix that a pointer-level matrix stands for on the heap `h`. -/
def deref (h : Heap) (m : sparIntP) : sparInt :=
  { nx := m.nx, ny := m.ny, nz := m.nz, bs := m.bs, bs3 := m.bs3,
    mx := m.mx, my := m.my, mz := m.mz,
    blockValue := m.blockValue,
    blockData := m.blockData.map (fun o => o.map (payloadAt h)),
    def_ := m.def_ }

namespace Ptr

/-- Pointer-level `sparIntInit`: no payload is allocated.  The `int`
expressions are computed exactly, as in the value-level `sparIntInit`. -/
def sparIntInit (nx ny nz bs : Int) (d : Int) : Option sparIntP :=
  if ¬ (nx > 0 ∧ ny > 0 ∧ nz > 0) then none
  else if ¬ (bs > 1) then none
  else
    let mx := ((nx + bs - 1) / bs).toNat
    let my := ((ny + bs - 1) / bs).toNat
    let mz := ((nz + bs - 1) / bs).toNat
    let blocks := mx * my * mz
    let b : List Int × List (Option Nat) := forLoop 0 blocks
      (List.replicate blocks 0, List.replicate blocks none)
      (fun s i => (s.1.set i d, s.2.set i none))
    some { nx := nx.toNat, ny := ny.toNat, nz := nz.toNat,
           bs := bs.toNat, bs3 := (bs * bs * bs).toNat,
           mx := mx, my := my, mz := mz,
           blockValue := b.1, blockData := b.2, def_ := d }

/-- Pointer-level `sparIntUniformBlock`. -/
def sparIntUniformBlock (h : Heap) (m : sparIntP) (x y z : Nat) : Bool :=
  let bs := m.bs
  let bs3 := m.bs3
  let n := x + m.mx * (y + m.my * z)
  match ptrAt m.blockData n with
  | none => true
  | some a =>
    if x < m.mx - 1 ∧ y < m.my - 1 ∧ z < m.mz - 1 then
      let value := (payloadAt h a).getD (bs3 - 1) 0
      (List.range bs3).all (fun i => (payloadAt h a).getD i 0 == value)
    else
      let value := (payloadAt h a).getD 0 0
      (List.range bs).all (fun k =>
        if z * bs + k < m.nz then
          (List.range bs).all (fun j =>
            if y * bs + j < m.ny then
              (List.range bs).all (fun i =>
                if x * bs + i < m.nx then
                  (payloadAt h a).getD (i + bs * (j + bs * k)) 0 == value
                else true)
            else true)
        else true)

/-- Pointer-level `sparIntSet`: the new heap and the new matrix. -/
def sparIntSet (h : Heap) (m : sparIntP) (x y z : Nat) (value : Int) : Heap × sparIntP :=
  let bs := m.bs
  let bs3 := m.bs3
  let i1 := x / bs
  let j1 := y / bs
  let k1 := z / bs
  let i2 := x % bs
  let j2 := y % bs
  let k2 := z % bs
  let n := i1 + m.mx * (j1 + m.my * k1)
  let blockValue := valueAt m.blockValue n
  match ptrAt m.blockData n with
  | none =>
    if value ≠ blockValue then
      let c := calloc h bs3
      let m1 := { m with blockData := m.blockData.set n (some c.2) }
      let h1 := forLoop 0 bs3 c.1 (fun g i => store g c.2 i blockValue)
      let h2 := store h1 c.2 (i2 + bs * (j2 + bs * k2)) value
      (h2, m1)
    else (h, m)
  | some a =>
    let h1 := store h a (i2 + bs * (j2 + bs * k2)) value
    if sparIntUniformBlock h1 m i1 j1 k1 then
      (h1, { m with blockValue := m.blockValue.set n value,
                    blockData := m.blockData.set n none })
    else (h1, m)

/-- Pointer-level `sparIntGet`. -/
def sparIntGet (h : Heap) (m : sparIntP) (x y z : Nat) : Int :=
  let bs := m.bs
  let i1 := x / bs
  let j1 := y / bs
  let k1 := z / bs
  let n := i1 + m.mx * (j1 + m.my * k1)
  match ptrAt m.blockData n with
  | none => valueAt m.blockValue n
  | some a =>
    let i2 := x % bs
    let j2 := y % bs
    let k2 := z % bs
    (payloadAt h a).getD (i2 + bs * (j2 + bs * k2)) 0

/-- Pointer-level `sparIntDuplicate`: for a heterogeneous block a payload is
allocated with `calloc` and filled by `memcpy` from the payload of the
original.  The loop state is `(heap, blockValue, blockData)` of the copy. -/
def sparIntDuplicate (h : Heap) (m : sparIntP) : Option (Heap × sparIntP) :=
  match sparIntInit m.nx m.ny m.nz m.bs m.def_ with
  | none => none
  | some m2 =>
    let blocks := m2.mx * m2.my * m2.mz
    let s : Heap × List Int × List (Option Nat) :=
      forLoop 0 blocks (h, m2.blockValue, m2.blockData) (fun s i =>
        match ptrAt m.blockData i with
        | some a =>
          let c := calloc s.1 m2.bs3
          let g := forLoop 0 m2.bs3 c.1
            (fun g t => store g c.2 t ((payloadAt g a).getD t 0))
          (g, s.2.1, s.2.2.set i (some c.2))
        | none => (s.1, s.2.1.set i (valueAt m.blockValue i), s.2.2.set i none))
    some (s.1, { m2 with blockValue := s.2.1, blockData := s.2.2 })

/-- A sequence of pointer-level `sparIntSet` calls, each given as
`(x, y, z, value)`. -/
def setAll (h : Heap) (m : sparIntP) (ops : List (Nat × Nat × Nat × Int)) : Heap × sparIntP :=
  ops.foldl (fun s o => sparIntSet s.1 s.2 o.1 o.2.1 o.2.2.1 o.2.2.2) (h, m)

end Ptr

/-- The pointer-level matrix built by `sparIntInit` from valid arguments. -/
def initMatrixP (nx ny nz bs : Nat) (d : Int) : sparIntP :=
  { nx := nx, ny := ny, nz := nz, bs := bs, bs3 := bs * bs * bs,
    mx := (nx + bs - 1) / bs, my := (ny + bs - 1) / bs, mz := (nz + bs - 1) / bs,
    blockValue := List.replicate
      ((nx + bs - 1) / bs * ((ny + bs - 1) / bs) * ((nz + bs - 1) / bs)) d,
    blockData := List.replicate
      ((nx + bs - 1) / bs * ((ny + bs - 1) / bs) * ((nz + bs - 1) / bs)) none,
    def_ := d }

/-- The invariant of the block loop of the pointer-level `sparIntDuplicate`
on heap `h` and matrix `m`, before iteration `n`; the state is
`(heap, blockValue, blockData)` of the copy. -/
def DupInv (h : Heap) (m : sparIntP) (n : Nat) (s : Heap × List Int × List (Option Nat)) :
    Prop :=
  h.length ≤ s.1.length ∧
  (∀ a, a < h.length → payloadAt s.1 a = payloadAt h a) ∧
  s.2.1.length = m.mx * m.my * m.mz ∧ s.2.2.length = m.mx * m.my * m.mz ∧
  (∀ a, some a ∈ s.2.2 → h.length ≤ a ∧ a < s.1.length) ∧
  ∀ t, t < m.mx * m.my * m.mz →
    (t < n →
      (ptrAt m.blockData t = none →
        ptrAt s.2.2 t = none ∧ valueAt s.2.1 t = valueAt m.blockValue t) ∧
      (∀ a, ptrAt m.blockData t = some a →
        ∃ b, ptrAt s.2.2 t = some b ∧ payloadAt s.1 b = payloadAt h a ∧
          valueAt s.2.1 t = m.def_)) ∧
    (n ≤ t → ptrAt s.2.2 t = none ∧ valueAt s.2.1 t = m.def_)

/-- Every pointer of the matrix is an address of the heap. -/
def ValidPtrs (h : Heap) (m : sparIntP) : Prop :=
  ∀ o ∈ m.blockData, ∀ a ∈ o, a < h.length

instance (h : Heap) (m : sparIntP) : Decidable (ValidPtrs h m) := by
  unfold ValidPtrs; infer_instance

/-- The heap and the pointer-level matrix of the boundary scenario after
`sparIntSet(1,1,1,9)`: block 0 is heterogeneous, its payload is at
address 0. -/
def cornerHeap : Heap := [[1, 1, 1, 1, 1, 1, 1, 9]]

/-- The pointer-level matrix on `cornerHeap`. -/
def cornerP : sparIntP :=
  ⟨3, 3, 3, 2, 8, 2, 2, 2, [1, 1, 1, 1, 1, 1, 1, 1],
    [some 0, none, none, none, none, none, none, none], 1⟩

/-- The uniformity test of the virtual block `(i1,j1,k1)` in
`sparIntMemoryBs`, with the reads `sparIntGet(matrix, ·, ·, ·)` as the
parameter `g`. -/
def virtualUniform (g : Nat → Nat → Nat → Int) (nx ny nz bs i1 j1 k1 : Nat) : Bool :=
  (List.range' (k1 * bs) bs).all (fun k =>
    if k < nz then
      (List.range' (j1 * bs) bs).all (fun j =>
        if j < ny then
          (List.range' (i1 * bs) bs).all (fun i =>
            if i < nx then g i j k == g (i1 * bs) (j1 * bs) (k1 * bs) else true)
        else true)
    else true)

/-- The part of `sparIntMemoryBs` for a block size other than the one of the
matrix, with the sizes of the matrix and its reads `g` as parameters. -/
def costBs (sz : Sizeof) (nx ny nz bs : Nat) (g : Nat → Nat → Nat → Int) : Nat :=
  forLoop 0 ((nz + bs - 1) / bs)
    (sz.szStruct + (nx + bs - 1) / bs * ((ny + bs - 1) / bs) * ((nz + bs - 1) / bs) * sz.szInt
      + (nx + bs - 1) / bs * ((ny + bs - 1) / bs) * ((nz + bs - 1) / bs) * sz.szPtr)
    (fun size k1 =>
      forLoop 0 ((ny + bs - 1) / bs) size (fun size j1 =>
        forLoop 0 ((nx + bs - 1) / bs) size (fun size i1 =>
          if virtualUniform g nx ny nz bs i1 j1 k1 = false then
            size + sz.szInt * (bs * bs * bs)
          else size)))

/-- The reads of the scenario `OptimizeBs reduces`: 1 at `(5,5,5)`, 0
elsewhere. -/
def onePoint (x y z : Nat) : Int := if x = 5 ∧ y = 5 ∧ z = 5 then 1 else 0

/-- The matrix of the scenario `OptimizeBs reduces`:
`sparIntInit(12,12,12,8,0)`, `sparIntSet(5,5,5,1)`. -/
def optScene : sparInt := sparIntSet (initMatrix 12 12 12 8 0) 5 5 5 1

/-- The matrix of `sparIntInit(3,3,3,3,0)`, `sparIntSet(2,2,2,7)`: one
heterogeneous block of 27 values. -/
def recl0 : sparInt := ⟨3, 3, 3, 3, 27, 1, 1, 1, [0],
    [some [0, 0, 0, 0, 0, 0, 0, 0, 0, 0, 0, 0, 0, 0, 0, 0, 0, 0, 0, 0, 0, 0, 0, 0, 0, 0, 7]], 0⟩

/-- The branch `Inner block` of `sparIntUniformBlock`: all `bs3` values of the
payload are compared with the last one. -/
def uniformInner (bs3 : Nat) (p : List Int) : Bool :=
  (List.range bs3).all (fun i => p.getD i 0 == p.getD (bs3 - 1) 0)

/-- The branch `Boundary block` of `sparIntUniformBlock`: the values at the
positions inside the matrix are compared with the first one. -/
def uniformBoundary (m : sparInt) (x y z : Nat) (p : List Int) : Bool :=
  (List.range m.bs).all (fun k =>
    if z * m.bs + k < m.nz then
      (List.range m.bs).all (fun j =>
        if y * m.bs + j < m.ny then
          (List.range m.bs).all (fun i =>
            if x * m.bs + i < m.nx then
              p.getD (i + m.bs * (j + m.bs * k)) 0 == p.getD 0 0
            else true)
        else true)
    else true)

/-- All positions of block `(i1,j1,k1)` inside the matrix hold one value in
the payload `p`. -/
def AllEq (m : sparInt) (i1 j1 k1 : Nat) (p : List Int) : Prop :=
  ∀ i j k i' j' k', i < m.bs → j < m.bs → k < m.bs → i' < m.bs → j' < m.bs → k' < m.bs →
    posInside m i1 j1 k1 i j k → posInside m i1 j1 k1 i' j' k' →
    p.getD (i + m.bs * (j + m.bs * k)) 0 = p.getD (i' + m.bs * (j' + m.bs * k')) 0

/-- The matrix `stale0` with another value at the position outside its
range: the payload holds 6 at offset 1, which belongs to `(1,0,0)`. -/
def stale1 : sparInt :=
  ⟨1, 1, 1, 2, 8, 1, 1, 1, [0], [some [0, 6, 0, 0, 0, 0, 0, 0]], 0⟩

/-- The function `sparIntResize` with the matrix as it stands at the
`exit(1)` as the error value. -/
def sparIntResizeTraced (m : sparInt) (nx ny nz : Int) : Except sparInt sparInt :=
  if ¬ (nx > 0 ∧ ny > 0 ∧ nz > 0) then Except.error m
  else
    let bs := m.bs
    let d := m.def_
    let m := resizeX m bs d nx.toNat
    let m := resizeY m bs d ny.toNat
    let m := resizeZ m bs d nz.toNat
    Except.ok m

/-- The function `sparIntChangeBs` with the matrix as it stands at the
`exit(1)` of `sparIntInit` as the error value. -/
def sparIntChangeBsTraced (m : sparInt) (bs : Int) : Except sparInt sparInt :=
  match sparIntInit m.nx m.ny m.nz bs m.def_ with
  | none => Except.error m
  | some m2 =>
    let s := changeBsLoop m m2
    Except.ok { s.1 with bs := s.2.bs, bs3 := s.2.bs3,
                         mx := s.2.mx, my := s.2.my, mz := s.2.mz,
                         blockValue := s.2.blockValue, blockData := s.2.blockData }

/-- The matrix of `sparIntInit(3,3,3,2,0)`, `sparIntSet(2,2,2,7)`,
`sparIntSet(2,2,2,7)`: the corner block is uniform with value 7. -/
def drain0 : sparInt :=
  ⟨3, 3, 3, 2, 8, 2, 2, 2, [0, 0, 0, 0, 0, 0, 0, 7],
    [none, none, none, none, none, none, none, none], 0⟩

/-- The virtual block `(i1,j1,k1)` of the grid of block size `bs` holds two
coordinates inside the matrix at which `sparIntGet` returns different
values. -/
def virtualMixed (m : sparInt) (bs i1 j1 k1 : Nat) : Prop :=
  ∃ x < m.nx, ∃ y < m.ny, ∃ z < m.nz, ∃ x' < m.nx, ∃ y' < m.ny, ∃ z' < m.nz,
    (x / bs = i1 ∧ y / bs = j1 ∧ z / bs = k1) ∧
    (x' / bs = i1 ∧ y' / bs = j1 ∧ z' / bs = k1) ∧
    sparIntGet m x y z ≠ sparIntGet m x' y' z'

instance (m : sparInt) (bs i1 j1 k1 : Nat) : Decidable (virtualMixed m bs i1 j1 k1) := by
  unfold virtualMixed; infer_instance

/-- The number `H` of the reference definition of `sparIntMemoryBs`: the
virtual blocks of the grid of block size `bs` that hold two coordinates inside
the matrix with different values. -/
def heteroCount (m : sparInt) (bs : Nat) : Nat :=
  ((Finset.range ((m.nx + bs - 1) / bs) ×ˢ Finset.range ((m.ny + bs - 1) / bs) ×ˢ
      Finset.range ((m.nz + bs - 1) / bs)).filter
    (fun t => virtualMixed m bs t.1 t.2.1 t.2.2)).card

/-- The block of `(x,y,z)` holds a position inside the matrix other than the
one of `(x,y,z)`. -/
def hasSecond (m : sparInt) (x y z : Nat) : Prop :=
  ∃ i < m.bs, ∃ j < m.bs, ∃ k < m.bs,
    posInside m (x / m.bs) (y / m.bs) (z / m.bs) i j k ∧
    ¬ (i = x % m.bs ∧ j = y % m.bs ∧ k = z % m.bs)

instance (m : sparInt) (x y z : Nat) : Decidable (hasSecond m x y z) := by
  unfold hasSecond; infer_instance

/-- The largest value of the C type `int` (32 bits). -/
def INT_MAX : Int := 2147483647

/-- The `int` expressions that `sparIntInit(nx,ny,nz,bs,·)` evaluates stay
within `INT_MAX`: `bs * bs * bs`, the sum `n + bs` of `( n + bs - 1 ) / bs`
for each axis, and `mx * my * mz`.  For arguments that pass the two checks of
`sparIntInit` all these values are positive, and the intermediate values
`bs * bs`, `n + bs - 1`, `mx * my` are not larger than the listed ones.
`sparIntMemoryBs` evaluates the same expressions on `matrix->nx`,
`matrix->ny`, `matrix->nz` and its argument `bs`. -/
def initFits (nx ny nz bs : Int) : Prop :=
  bs * bs * bs ≤ INT_MAX ∧ nx + bs ≤ INT_MAX ∧ ny + bs ≤ INT_MAX ∧ nz + bs ≤ INT_MAX ∧
  (nx + bs - 1) / bs * ((ny + bs - 1) / bs) * ((nz + bs - 1) / bs) ≤ INT_MAX

instance (nx ny nz bs : Int) : Decidable (initFits nx ny nz bs) := by
  unfold initFits; infer_instance

/-- The `int` expressions that `sparIntResize(matrix,nx,ny,nz)` evaluates on
its arguments stay within `INT_MAX`: the sum `n + bs` of `( n + bs - 1 ) / bs`
for each axis, and the number of blocks `mx * my * mz` of each of the three
steps (new grid in x; new grid in x and y; new grid in x, y and z). -/
def resizeFits (m : sparInt) (nx ny nz : Int) : Prop :=
  nx + m.bs ≤ INT_MAX ∧ ny + m.bs ≤ INT_MAX ∧ nz + m.bs ≤ INT_MAX ∧
  (nx + m.bs - 1) / m.bs * m.my * m.mz ≤ INT_MAX ∧
  (nx + m.bs - 1) / m.bs * ((ny + m.bs - 1) / m.bs) * m.mz ≤ INT_MAX ∧
  (nx + m.bs - 1) / m.bs * ((ny + m.bs - 1) / m.bs) * ((nz + m.bs - 1) / m.bs) ≤ INT_MAX

instance (m : sparInt) (nx ny nz : Int) : Decidable (resizeFits m nx ny nz) := by
  unfold resizeFits; infer_instance

/-! ## Loops -/

theorem forLoop_empty {σ : Type} (lo hi : Nat) (s : σ) (body : σ → Nat → σ) (h : hi ≤ lo) :
    forLoop lo hi s body = s := by
  unfold forLoop
  have : hi - lo = 0 := by omega
  rw [this]; rfl

theorem forLoop_succ {σ : Type} (lo hi : Nat) (s : σ) (body : σ → Nat → σ) (h : lo ≤ hi) :
    forLoop lo (hi + 1) s body = body (forLoop lo hi s body) hi := by
  unfold forLoop
  have : hi + 1 - lo = (hi - lo) + 1 := by omega
  rw [this, List.range'_concat, List.foldl_append]
  simp
  congr 1
  omega

/-- Loop invariant rule: an invariant indexed by the loop counter. -/
theorem forLoop_inv {σ : Type} (P : Nat → σ → Prop) (lo hi : Nat) (s : σ) (body : σ → Nat → σ)
    (hle : lo ≤ hi) (h0 : P lo s)
    (hstep : ∀ i t, lo ≤ i → i < hi → P i t → P (i + 1) (body t i)) :
    P hi (forLoop lo hi s body) := by
  induction hi with
  | zero =>
    have : lo = 0 := by omega
    subst this
    rw [forLoop_empty _ _ _ _ (le_refl _)]; exact h0
  | succ n ih =>
    by_cases hn : lo = n + 1
    · subst hn
      rw [forLoop_empty _ _ _ _ (le_refl _)]; exact h0
    · have hle2 : lo ≤ n := by omega
      rw [forLoop_succ _ _ _ _ hle2]
      apply hstep n _ hle2 (by omega)
      exact ih hle2 (fun i t h1 h2 h3 => hstep i t h1 (by omega) h3)

/-- Loop invariant rule: a property kept by every iteration. -/
theorem forLoop_keep {σ : Type} (P : σ → Prop) (lo hi : Nat) (s : σ) (body : σ → Nat → σ)
    (h0 : P s) (hstep : ∀ i t, lo ≤ i → i < hi → P t → P (body t i)) :
    P (forLoop lo hi s body) := by
  by_cases hle : lo ≤ hi
  · exact forLoop_inv (fun _ t => P t) lo hi s body hle h0 hstep
  · rw [forLoop_empty _ _ _ _ (by omega)]; exact h0

theorem forLoop_pair {α β : Type} (lo hi : Nat) (s : α × β) (f : α → Nat → α) (g : β → Nat → β) :
    forLoop lo hi s (fun t i => (f t.1 i, g t.2 i)) = (forLoop lo hi s.1 f, forLoop lo hi s.2 g) := by
  by_cases hle : lo ≤ hi
  · exact forLoop_inv (fun n t => t = (forLoop lo n s.1 f, forLoop lo n s.2 g)) lo hi s _ hle
      (by simp [forLoop_empty]) (by
        intro i t h1 h2 h3
        subst h3
        simp [forLoop_succ _ _ _ _ h1])
  · simp [forLoop_empty _ _ _ _ (show hi ≤ lo by omega)]

/-! ## Index arithmetic -/

theorem div_lt_ceil {bs x n : Nat} (hbs : 0 < bs) (h : x < n) : x / bs < (n + bs - 1) / bs := by
  rw [Nat.div_lt_iff_lt_mul hbs]
  have h1 := Nat.div_add_mod (n + bs - 1) bs
  have h2 := Nat.mod_lt (n + bs - 1) hbs
  rw [Nat.mul_comm]
  omega

theorem lin2_lt {a n b k : Nat} (ha : a < n) (hb : b < k) : a + n * b < n * k := by
  have : n * (b + 1) ≤ n * k := Nat.mul_le_mul_left n hb
  rw [Nat.mul_add] at this
  omega

theorem lin3_lt {i j k mx my mz : Nat} (hi : i < mx) (hj : j < my) (hk : k < mz) :
    i + mx * (j + my * k) < mx * my * mz := by
  rw [Nat.mul_assoc]
  exact lin2_lt hi (lin2_lt hj hk)

theorem lin2_inj {a a' n b b' : Nat} (ha : a < n) (ha' : a' < n)
    (h : a + n * b = a' + n * b') : a = a' ∧ b = b' := by
  have h1 : (a + n * b) % n = a := by
    rw [Nat.add_mul_mod_self_left]; exact Nat.mod_eq_of_lt ha
  have h2 : (a' + n * b') % n = a' := by
    rw [Nat.add_mul_mod_self_left]; exact Nat.mod_eq_of_lt ha'
  have e : a = a' := by rw [← h1, ← h2, h]
  subst e
  refine ⟨rfl, ?_⟩
  have hn : 0 < n := by omega
  have : n * b = n * b' := by omega
  exact Nat.eq_of_mul_eq_mul_left hn this

theorem lin3_inj {i j k i' j' k' mx my : Nat} (hi : i < mx) (hi' : i' < mx)
    (hj : j < my) (hj' : j' < my)
    (h : i + mx * (j + my * k) = i' + mx * (j' + my * k')) : i = i' ∧ j = j' ∧ k = k' := by
  obtain ⟨h1, h2⟩ := lin2_inj hi hi' h
  obtain ⟨h3, h4⟩ := lin2_inj hj hj' h2
  exact ⟨h1, h3, h4⟩

theorem divmod_inj {bs x x' : Nat} (h1 : x / bs = x' / bs) (h2 : x % bs = x' % bs) : x = x' := by
  rw [← Nat.div_add_mod x bs, ← Nat.div_add_mod x' bs, h1, h2]

/-! ## Reads and writes of the block arrays -/

theorem dataAt_set (bd : List (Option (List Int))) (n t : Nat) (a : Option (List Int)) :
    dataAt (bd.set n a) t = if n = t ∧ t < bd.length then a else dataAt bd t := by
  unfold dataAt
  simp only [List.getD_eq_getElem?_getD, List.getElem?_set]
  by_cases h : n = t
  · subst h
    by_cases h2 : n < bd.length
    · simp [h2]
    · simp [h2, List.getElem?_eq_none (Nat.le_of_not_lt h2)]
  · simp [h]

theorem valueAt_set (bv : List Int) (n t : Nat) (a : Int) :
    valueAt (bv.set n a) t = if n = t ∧ t < bv.length then a else valueAt bv t := by
  unfold valueAt
  simp only [List.getD_eq_getElem?_getD, List.getElem?_set]
  by_cases h : n = t
  · subst h
    by_cases h2 : n < bv.length
    · simp [h2]
    · simp [h2, List.getElem?_eq_none (Nat.le_of_not_lt h2)]
  · simp [h]

theorem getD_set (l : List Int) (n t : Nat) (a : Int) :
    (l.set n a).getD t 0 = if n = t ∧ t < l.length then a else l.getD t 0 :=
  valueAt_set l n t a

theorem dataAt_mem {bd : List (Option (List Int))} {n : Nat} {p : List Int}
    (h : dataAt bd n = some p) : some p ∈ bd := by
  unfold dataAt at h
  rw [List.getD_eq_getElem?_getD] at h
  cases hq : bd[n]? with
  | none => simp [hq] at h
  | some q =>
    simp [hq] at h
    subst h
    exact List.getElem?_mem hq

/-- A loop that writes `f i` at index `i` for `lo ≤ i < hi`. -/
theorem setLoop_spec {α : Type} (f : Nat → α) (lo hi : Nat) (l : List α) :
    (forLoop lo hi l (fun b i => b.set i (f i))).length = l.length ∧
    ∀ t, (forLoop lo hi l (fun b i => b.set i (f i)))[t]? =
      if lo ≤ t ∧ t < hi ∧ t < l.length then some (f t) else l[t]? := by
  by_cases hle : lo ≤ hi
  · refine forLoop_inv (fun n r => r.length = l.length ∧
      ∀ t, r[t]? = if lo ≤ t ∧ t < n ∧ t < l.length then some (f t) else l[t]?)
      lo hi l _ hle ?_ ?_
    · refine ⟨rfl, fun t => ?_⟩
      have : ¬ (lo ≤ t ∧ t < lo ∧ t < l.length) := by omega
      simp [this]
    · intro i r h1 h2 ⟨hl, hr⟩
      refine ⟨by simp [hl], fun t => ?_⟩
      rw [List.getElem?_set, hr t, hl]
      by_cases e : i = t
      · subst e
        by_cases h3 : i < l.length
        · simp [h1, h3]
        · have : l[i]? = none := List.getElem?_eq_none (Nat.le_of_not_lt h3)
          simp [h3, this]
      · have : (t < i + 1) = (t < i) := by
          apply propext; constructor <;> intro h <;> omega
        simp [e, this]
  · rw [forLoop_empty _ _ _ _ (by omega)]
    refine ⟨rfl, fun t => ?_⟩
    have : ¬ (lo ≤ t ∧ t < hi ∧ t < l.length) := by omega
    simp [this]

/-- The fill loop of `sparIntSet` gives a payload of `k` copies of `c`. -/
theorem fill_eq (k : Nat) (c : Int) :
    forLoop 0 k (List.replicate k (0 : Int)) (fun b i => b.set i c) = List.replicate k c := by
  obtain ⟨hl, hg⟩ := setLoop_spec (fun _ => c) 0 k (List.replicate k (0 : Int))
  apply List.ext_getElem?
  intro t
  rw [hg t, List.getElem?_replicate, List.getElem?_replicate]
  by_cases h : t < k <;> simp [h]

/-- The `memcpy` of `sparIntDuplicate` copies a payload of `k` values. -/
theorem copy_eq (k : Nat) (p : List Int) (hp : p.length = k) :
    forLoop 0 k (List.replicate k (0 : Int)) (fun q t => q.set t (p.getD t 0)) = p := by
  obtain ⟨hl, hg⟩ := setLoop_spec (fun t => p.getD t 0) 0 k (List.replicate k (0 : Int))
  apply List.ext_getElem?
  intro t
  rw [hg t, List.getElem?_replicate]
  by_cases h : t < k
  · have h2 : t < p.length := by omega
    simp [h, List.getD_eq_getElem?_getD, List.getElem?_eq_getElem h2]
  · have : p[t]? = none := List.getElem?_eq_none (by omega)
    simp [h, this]

/-! ## Indices of a well-formed matrix -/

theorem WF.bs_pos {m : sparInt} (h : WF m) : 0 < m.bs := by
  unfold WF at h; omega

theorem WF.payload {m : sparInt} (h : WF m) {n : Nat} {p : List Int}
    (hd : dataAt m.blockData n = some p) : p.length = m.bs3 := by
  unfold WF at h
  exact h.2.2.2.2.2.2.2.2.2.2 _ (dataAt_mem hd) p rfl

theorem WF.block_lt {m : sparInt} (h : WF m) {x y z : Nat} (hr : InRange m x y z) :
    x / m.bs < m.mx ∧ y / m.bs < m.my ∧ z / m.bs < m.mz := by
  have hb := h.bs_pos
  unfold WF at h
  unfold InRange at hr
  obtain ⟨_, _, _, _, _, hx, hy, hz, _⟩ := h
  rw [hx, hy, hz]
  exact ⟨div_lt_ceil hb hr.1, div_lt_ceil hb hr.2.1, div_lt_ceil hb hr.2.2⟩

theorem blockIndex_lt {m : sparInt} (h : WF m) {x y z : Nat} (hr : InRange m x y z) :
    blockIndex m x y z < m.mx * m.my * m.mz := by
  obtain ⟨h1, h2, h3⟩ := h.block_lt hr
  exact lin3_lt h1 h2 h3

theorem blockOffset_lt {m : sparInt} (h : WF m) (x y z : Nat) :
    blockOffset m x y z < m.bs3 := by
  have hb := h.bs_pos
  unfold WF at h
  rw [h.2.2.2.2.1]
  exact lin3_lt (Nat.mod_lt _ hb) (Nat.mod_lt _ hb) (Nat.mod_lt _ hb)

theorem index_inj {m : sparInt} (h : WF m) {x y z x' y' z' : Nat}
    (hr : InRange m x y z) (hr' : InRange m x' y' z')
    (hn : blockIndex m x y z = blockIndex m x' y' z')
    (ho : blockOffset m x y z = blockOffset m x' y' z') : x = x' ∧ y = y' ∧ z = z' := by
  have hb := h.bs_pos
  obtain ⟨h1, h2, _⟩ := h.block_lt hr
  obtain ⟨h1', h2', _⟩ := h.block_lt hr'
  obtain ⟨e1, e2, e3⟩ := lin3_inj h1 h1' h2 h2' hn
  obtain ⟨f1, f2, f3⟩ := lin3_inj (Nat.mod_lt x hb) (Nat.mod_lt x' hb)
    (Nat.mod_lt y hb) (Nat.mod_lt y' hb) ho
  exact ⟨divmod_inj e1 f1, divmod_inj e2 f2, divmod_inj e3 f3⟩

/-! ## The uniformity test -/

/-- When `sparIntUniformBlock` answers 1 on a heterogeneous block, all
positions of the block that lie inside the matrix hold one value. -/
theorem uniformBlock_sound (m : sparInt) (i1 j1 k1 : Nat) (p : List Int)
    (hbs3 : m.bs3 = m.bs * m.bs * m.bs)
    (hd : dataAt m.blockData (i1 + m.mx * (j1 + m.my * k1)) = some p)
    (hu : sparIntUniformBlock m i1 j1 k1 = true) :
    ∃ c, ∀ i j k, i < m.bs → j < m.bs → k < m.bs →
      i1 * m.bs + i < m.nx → j1 * m.bs + j < m.ny → k1 * m.bs + k < m.nz →
      p.getD (i + m.bs * (j + m.bs * k)) 0 = c := by
  unfold sparIntUniformBlock at hu
  simp only [hd] at hu
  split at hu
  · refine ⟨p.getD (m.bs3 - 1) 0, fun i j k hi hj hk _ _ _ => ?_⟩
    have ho : i + m.bs * (j + m.bs * k) < m.bs3 := by
      rw [hbs3]; exact lin3_lt hi hj hk
    rw [List.all_eq_true] at hu
    have := hu _ (List.mem_range.mpr ho)
    simpa using this
  · refine ⟨p.getD 0 0, fun i j k hi hj hk hx hy hz => ?_⟩
    rw [List.all_eq_true] at hu
    have h1 := hu k (List.mem_range.mpr hk)
    rw [if_pos hz, List.all_eq_true] at h1
    have h2 := h1 j (List.mem_range.mpr hj)
    rw [if_pos hy, List.all_eq_true] at h2
    have h3 := h2 i (List.mem_range.mpr hi)
    rw [if_pos hx] at h3
    simpa using h3

/-! ## Reading after writing -/

theorem sparIntGet_eq (m : sparInt) (x y z : Nat) :
    sparIntGet m x y z =
      match dataAt m.blockData (blockIndex m x y z) with
      | none => valueAt m.blockValue (blockIndex m x y z)
      | some p => p.getD (blockOffset m x y z) 0 := rfl

theorem sparIntSet_uniform (m : sparInt) (x y z : Nat) (v : Int)
    (hd : dataAt m.blockData (blockIndex m x y z) = none) :
    sparIntSet m x y z v =
      if v ≠ valueAt m.blockValue (blockIndex m x y z) then
        { m with
          blockData := m.blockData.set (blockIndex m x y z)
            (some ((List.replicate m.bs3 (valueAt m.blockValue (blockIndex m x y z))).set
              (blockOffset m x y z) v)) }
      else m := by
  unfold blockIndex at hd
  unfold sparIntSet
  simp only [hd, fill_eq]
  rfl

theorem sparIntSet_dense (m : sparInt) (x y z : Nat) (v : Int) (p : List Int)
    (hd : dataAt m.blockData (blockIndex m x y z) = some p) :
    sparIntSet m x y z v =
      if sparIntUniformBlock
          { m with
            blockData := m.blockData.set (blockIndex m x y z)
              (some (p.set (blockOffset m x y z) v)) } (x / m.bs) (y / m.bs) (z / m.bs) then
        { m with
          blockValue := m.blockValue.set (blockIndex m x y z) v,
          blockData := (m.blockData.set (blockIndex m x y z)
              (some (p.set (blockOffset m x y z) v))).set (blockIndex m x y z) none }
      else
        { m with
          blockData := m.blockData.set (blockIndex m x y z)
            (some (p.set (blockOffset m x y z) v)) } := by
  unfold blockIndex at hd
  unfold sparIntSet
  simp only [hd]
  rfl

/-- The fields other than the block arrays are not changed by `sparIntSet`. -/
theorem sparIntSet_fields (m : sparInt) (x y z : Nat) (v : Int) :
    (sparIntSet m x y z v).nx = m.nx ∧ (sparIntSet m x y z v).ny = m.ny ∧
    (sparIntSet m x y z v).nz = m.nz ∧ (sparIntSet m x y z v).bs = m.bs ∧
    (sparIntSet m x y z v).bs3 = m.bs3 ∧ (sparIntSet m x y z v).mx = m.mx ∧
    (sparIntSet m x y z v).my = m.my ∧ (sparIntSet m x y z v).mz = m.mz ∧
    (sparIntSet m x y z v).def_ = m.def_ := by
  cases hd : dataAt m.blockData (blockIndex m x y z) with
  | none =>
    rw [sparIntSet_uniform m x y z v hd]
    split <;> simp
  | some p =>
    rw [sparIntSet_dense m x y z v p hd]
    split <;> simp

theorem payload_set {bd : List (Option (List Int))} {k n : Nat} {a : Option (List Int)}
    (h : ∀ p ∈ bd, ∀ q ∈ p, q.length = k) (ha : ∀ q ∈ a, q.length = k) :
    ∀ p ∈ bd.set n a, ∀ q ∈ p, q.length = k := by
  intro p hp
  rcases List.mem_or_eq_of_mem_set hp with h1 | h1
  · exact h p h1
  · subst h1; exact ha

/-- Replacing the block arrays by arrays of the same lengths whose payloads
have `bs3` values keeps a matrix well formed. -/
theorem WF.update {m : sparInt} (h : WF m) (bv : List Int) (bd : List (Option (List Int)))
    (h1 : bv.length = m.blockValue.length) (h2 : bd.length = m.blockData.length)
    (h3 : ∀ p ∈ bd, ∀ q ∈ p, q.length = m.bs3) :
    WF { m with blockValue := bv, blockData := bd } := by
  unfold WF at h ⊢
  obtain ⟨a1, a2, a3, a4, a5, a6, a7, a8, a9, a10, _⟩ := h
  exact ⟨a1, a2, a3, a4, a5, a6, a7, a8, h1.trans a9, h2.trans a10, h3⟩

theorem WF.payloads {m : sparInt} (h : WF m) :
    ∀ p ∈ m.blockData, ∀ q ∈ p, q.length = m.bs3 := by
  unfold WF at h
  exact h.2.2.2.2.2.2.2.2.2.2

theorem WF.lengths {m : sparInt} (h : WF m) :
    m.blockValue.length = m.mx * m.my * m.mz ∧ m.blockData.length = m.mx * m.my * m.mz := by
  unfold WF at h
  exact ⟨h.2.2.2.2.2.2.2.2.1, h.2.2.2.2.2.2.2.2.2.1⟩

/-- Writing an element keeps a matrix well formed. -/
theorem sparIntSet_WF {m : sparInt} (h : WF m) (x y z : Nat) (v : Int) :
    WF (sparIntSet m x y z v) := by
  cases hd : dataAt m.blockData (blockIndex m x y z) with
  | none =>
    rw [sparIntSet_uniform m x y z v hd]
    split
    · refine h.update m.blockValue _ rfl (by simp) (payload_set h.payloads ?_)
      intro q hq
      simp only [Option.mem_def, Option.some.injEq] at hq
      subst hq
      simp
    · exact h
  | some p =>
    have hp := h.payload hd
    rw [sparIntSet_dense m x y z v p hd]
    split
    · refine h.update _ _ (by simp) (by simp)
        (payload_set (payload_set h.payloads ?_) (by simp))
      intro q hq
      simp only [Option.mem_def, Option.some.injEq] at hq
      subst hq
      simpa using hp
    · refine h.update m.blockValue _ rfl (by simp) (payload_set h.payloads ?_)
      intro q hq
      simp only [Option.mem_def, Option.some.injEq] at hq
      subst hq
      simpa using hp

theorem InRange_set {m : sparInt} {x y z : Nat} (a b c : Nat) (v : Int) :
    InRange (sparIntSet m a b c v) x y z ↔ InRange m x y z := by
  obtain ⟨h1, h2, h3, _⟩ := sparIntSet_fields m a b c v
  unfold InRange
  rw [h1, h2, h3]

theorem get_arrays (m : sparInt) (bv : List Int) (bd : List (Option (List Int)))
    (x y z : Nat) :
    sparIntGet { m with blockValue := bv, blockData := bd } x y z =
      match dataAt bd (blockIndex m x y z) with
      | none => valueAt bv (blockIndex m x y z)
      | some p => p.getD (blockOffset m x y z) 0 := rfl

/-- Reading after writing: the written element holds the new value, every
other element inside the matrix keeps its value. -/
theorem get_set {m : sparInt} (h : WF m) {x y z x' y' z' : Nat} (v : Int)
    (hr : InRange m x y z) (hr' : InRange m x' y' z') :
    sparIntGet (sparIntSet m x y z v) x' y' z' =
      if x' = x ∧ y' = y ∧ z' = z then v else sparIntGet m x' y' z' := by
  have hn := blockIndex_lt h hr
  have ho := blockOffset_lt h x y z
  have hinj := index_inj h hr' hr
  obtain ⟨hlv, hld⟩ := h.lengths
  have hb := h.bs_pos
  cases hd : dataAt m.blockData (blockIndex m x y z) with
  | none =>
    rw [sparIntSet_uniform m x y z v hd]
    split
    · rw [get_arrays m m.blockValue, sparIntGet_eq, dataAt_set]
      by_cases e : blockIndex m x y z = blockIndex m x' y' z'
      · rw [if_pos ⟨e, by rw [← e, hld]; exact hn⟩]
        simp only
        rw [getD_set, ← e, hd]
        simp only [List.length_replicate]
        by_cases e2 : blockOffset m x y z = blockOffset m x' y' z'
        · have := hinj e.symm e2.symm
          rw [if_pos ⟨e2, by rw [← e2]; exact ho⟩, if_pos this]
        · have hne : ¬ (x' = x ∧ y' = y ∧ z' = z) := by
            rintro ⟨rfl, rfl, rfl⟩; exact e2 rfl
          rw [if_neg (fun c => e2 c.1), if_neg hne]
          have ho' := blockOffset_lt h x' y' z'
          simp [List.getD_eq_getElem?_getD, List.getElem?_replicate, ho']
      · have hne : ¬ (x' = x ∧ y' = y ∧ z' = z) := by
          rintro ⟨rfl, rfl, rfl⟩; exact e rfl
        rw [if_neg (fun c => e c.1), if_neg hne]
    · rename_i hv
      have hv : v = valueAt m.blockValue (blockIndex m x y z) := by
        by_contra c; exact hv c
      by_cases e : x' = x ∧ y' = y ∧ z' = z
      · obtain ⟨rfl, rfl, rfl⟩ := e
        simp [sparIntGet_eq, hd, hv]
      · rw [if_neg e]
  | some p =>
    have hp := h.payload hd
    rw [sparIntSet_dense m x y z v p hd]
    split
    · rename_i hu
      obtain ⟨c, hc⟩ := uniformBlock_sound _ _ _ _ (p.set (blockOffset m x y z) v)
        (by unfold WF at h; exact h.2.2.2.2.1)
        (by
          show dataAt (m.blockData.set (blockIndex m x y z) _) (blockIndex m x y z) = _
          rw [dataAt_set, if_pos ⟨rfl, by rw [hld]; exact hn⟩]) hu
      simp only at hc
      have hc' : ∀ a b d, InRange m a b d → blockIndex m a b d = blockIndex m x y z →
          (p.set (blockOffset m x y z) v).getD (blockOffset m a b d) 0 = c := by
        intro a b d hr2 e2
        obtain ⟨b1, b2, _⟩ := h.block_lt hr
        obtain ⟨b1', b2', _⟩ := h.block_lt hr2
        obtain ⟨e3, e4, e5⟩ := lin3_inj b1' b1 b2' b2 e2
        unfold InRange at hr2
        have := hc (a % m.bs) (b % m.bs) (d % m.bs) (Nat.mod_lt _ hb) (Nat.mod_lt _ hb)
          (Nat.mod_lt _ hb)
          (by rw [← e3, Nat.mul_comm, Nat.div_add_mod]; exact hr2.1)
          (by rw [← e4, Nat.mul_comm, Nat.div_add_mod]; exact hr2.2.1)
          (by rw [← e5, Nat.mul_comm, Nat.div_add_mod]; exact hr2.2.2)
        exact this
      have hcv : c = v := by
        rw [← hc' x y z hr rfl, getD_set, if_pos ⟨rfl, by rw [hp]; exact ho⟩]
      rw [get_arrays, dataAt_set]
      by_cases e : blockIndex m x y z = blockIndex m x' y' z'
      · rw [if_pos ⟨e, by simp only [List.length_set]; rw [← e, hld]; exact hn⟩]
        simp only
        rw [valueAt_set, if_pos ⟨e, by rw [← e, hlv]; exact hn⟩]
        by_cases e3 : x' = x ∧ y' = y ∧ z' = z
        · rw [if_pos e3]
        · rw [if_neg e3]
          have h4 := hc' x' y' z' hr' e.symm
          rw [hcv, getD_set] at h4
          have e2 : blockOffset m x y z ≠ blockOffset m x' y' z' :=
            fun c2 => e3 (hinj e.symm c2.symm)
          rw [if_neg (fun c2 => e2 c2.1)] at h4
          rw [sparIntGet_eq, ← e, hd]
          exact h4.symm
      · have hne : ¬ (x' = x ∧ y' = y ∧ z' = z) := by
          rintro ⟨rfl, rfl, rfl⟩; exact e rfl
        rw [if_neg (fun c => e c.1), if_neg hne, dataAt_set, if_neg (fun c => e c.1),
          valueAt_set, if_neg (fun c => e c.1)]
        rfl
    · rw [get_arrays m m.blockValue, sparIntGet_eq, dataAt_set]
      by_cases e : blockIndex m x y z = blockIndex m x' y' z'
      · rw [if_pos ⟨e, by rw [← e, hld]; exact hn⟩]
        simp only
        rw [getD_set, ← e, hd]
        simp only
        by_cases e2 : blockOffset m x y z = blockOffset m x' y' z'
        · have := hinj e.symm e2.symm
          rw [if_pos ⟨e2, by rw [← e2, hp]; exact ho⟩, if_pos this]
        · have hne : ¬ (x' = x ∧ y' = y ∧ z' = z) := by
            rintro ⟨rfl, rfl, rfl⟩; exact e2 rfl
          rw [if_neg (fun c => e2 c.1), if_neg hne]
      · have hne : ¬ (x' = x ∧ y' = y ∧ z' = z) := by
          rintro ⟨rfl, rfl, rfl⟩; exact e rfl
        rw [if_neg (fun c => e c.1), if_neg hne]

/-! ## Construction and reset -/

/-- A loop that overwrites every entry of a list of `k` entries with `c`. -/
theorem fillAll_eq {α : Type} (k : Nat) (c : α) (l : List α) (hl : l.length = k) :
    forLoop 0 k l (fun b i => b.set i c) = List.replicate k c := by
  obtain ⟨_, hg⟩ := setLoop_spec (fun _ => c) 0 k l
  apply List.ext_getElem?
  intro t
  rw [hg t, List.getElem?_replicate, hl]
  by_cases h : t < k
  · simp [h]
  · have : l[t]? = none := List.getElem?_eq_none (by omega)
    simp [h, this]

/-- The loop of `sparIntInit` and `sparIntReset` makes every block uniform
with value `d`. -/
theorem resetLoop_eq (k : Nat) (d : Int) (b : Blocks) (h1 : b.1.length = k)
    (h2 : b.2.length = k) :
    forLoop 0 k b (fun s i => (s.1.set i d, s.2.set i none)) =
      (List.replicate k d, List.replicate k none) := by
  rw [forLoop_pair 0 k b (fun l i => l.set i d) (fun l i => l.set i none),
    fillAll_eq k d b.1 h1, fillAll_eq k none b.2 h2]

theorem ceil_toNat (n b : Nat) (hn : 0 < n) :
    (((n : Int) + (b : Int) - 1) / (b : Int)).toNat = (n + b - 1) / b := by
  have : (n : Int) + (b : Int) - 1 = ((n + b - 1 : Nat) : Int) := by omega
  rw [this, ← Int.natCast_div, Int.toNat_natCast]

theorem sparIntInit_eq (nx ny nz bs : Nat) (d : Int)
    (hx : 0 < nx) (hy : 0 < ny) (hz : 0 < nz) (hb : 1 < bs) :
    sparIntInit nx ny nz bs d = some (initMatrix nx ny nz bs d) := by
  unfold sparIntInit
  have h1 : ((nx : Int) > 0 ∧ (ny : Int) > 0 ∧ (nz : Int) > 0) := by omega
  have h2 : (bs : Int) > 1 := by omega
  rw [if_neg (not_not.mpr h1), if_neg (not_not.mpr h2)]
  simp only [ceil_toNat _ _ hx, ceil_toNat _ _ hy, ceil_toNat _ _ hz]
  rw [resetLoop_eq _ d _ (by simp) (by simp)]
  have h3 : ((bs : Int) * bs * bs).toNat = bs * bs * bs := by
    rw [← Int.natCast_mul, ← Int.natCast_mul, Int.toNat_natCast]
  simp only [Int.toNat_natCast, h3]
  rfl

theorem initMatrix_WF (nx ny nz bs : Nat) (d : Int)
    (hx : 0 < nx) (hy : 0 < ny) (hz : 0 < nz) (hb : 1 < bs) :
    WF (initMatrix nx ny nz bs d) := by
  unfold WF initMatrix
  refine ⟨hx, hy, hz, hb, rfl, rfl, rfl, rfl, by simp, by simp, ?_⟩
  intro p hp q hq
  simp only [List.mem_replicate] at hp
  rw [hp.2] at hq
  simp at hq

theorem dataAt_replicate_none (k n : Nat) : dataAt (List.replicate k none) n = none := by
  unfold dataAt
  rw [List.getD_eq_getElem?_getD, List.getElem?_replicate]
  split <;> rfl

theorem valueAt_replicate (k n : Nat) (d : Int) (h : n < k) :
    valueAt (List.replicate k d) n = d := by
  unfold valueAt
  rw [List.getD_eq_getElem?_getD, List.getElem?_replicate, if_pos h]
  rfl

/-- A matrix whose blocks are all uniform with value `d` reads `d`. -/
theorem get_all_uniform {m : sparInt} (h : WF m) (d : Int)
    (hv : m.blockValue = List.replicate (m.mx * m.my * m.mz) d)
    (hd : m.blockData = List.replicate (m.mx * m.my * m.mz) none)
    {x y z : Nat} (hr : InRange m x y z) : sparIntGet m x y z = d := by
  rw [sparIntGet_eq, hd, dataAt_replicate_none, hv]
  exact valueAt_replicate _ _ d (blockIndex_lt h hr)

theorem sparIntReset_eq {m : sparInt} (h : WF m) :
    sparIntReset m =
      { m with blockValue := List.replicate (m.mx * m.my * m.mz) m.def_,
               blockData := List.replicate (m.mx * m.my * m.mz) none } := by
  unfold sparIntReset
  simp only
  rw [resetLoop_eq _ m.def_ _ h.lengths.1 h.lengths.2]

/-! ## Change of the block size -/

theorem SameShape.refl (a : sparInt) : SameShape a a :=
  ⟨rfl, rfl, rfl, rfl, rfl, rfl, rfl, rfl, rfl⟩

theorem SameShape.trans {a b c : sparInt} (h1 : SameShape a b) (h2 : SameShape b c) :
    SameShape a c := by
  unfold SameShape at *
  obtain ⟨a1, a2, a3, a4, a5, a6, a7, a8, a9⟩ := h1
  obtain ⟨b1, b2, b3, b4, b5, b6, b7, b8, b9⟩ := h2
  exact ⟨a1.trans b1, a2.trans b2, a3.trans b3, a4.trans b4, a5.trans b5, a6.trans b6,
    a7.trans b7, a8.trans b8, a9.trans b9⟩

theorem sparIntSet_shape (m : sparInt) (x y z : Nat) (v : Int) :
    SameShape (sparIntSet m x y z v) m := sparIntSet_fields m x y z v

theorem SameShape.inRange {a b : sparInt} (h : SameShape a b) (x y z : Nat) :
    InRange a x y z ↔ InRange b x y z := by
  unfold InRange
  rw [h.1, h.2.1, h.2.2.1]

theorem ChangeInv.congrChange {m m2 : sparInt} {P Q : Nat → Nat → Nat → Prop} {s : sparInt × sparInt}
    (h : ChangeInv m m2 P s) (hPQ : ∀ x y z, InRange m x y z → (P x y z ↔ Q x y z)) :
    ChangeInv m m2 Q s := by
  obtain ⟨a1, a2, a3, a4, a5⟩ := h
  refine ⟨a1, a2, a3, a4, fun x y z hr => ?_⟩
  rw [← hPQ x y z hr]
  exact a5 x y z hr

/-- One iteration of the copy loop of `sparIntChangeBs`. -/
theorem ChangeInv.stepChange {m m2 : sparInt} (hs : m2.nx = m.nx ∧ m2.ny = m.ny ∧ m2.nz = m.nz)
    {P : Nat → Nat → Nat → Prop} {s : sparInt × sparInt}
    (h : ChangeInv m m2 P s) (d : Int) {i j k : Nat} (hr : InRange m i j k) (hn : ¬ P i j k) :
    ChangeInv m m2 (fun x y z => P x y z ∨ (x = i ∧ y = j ∧ z = k))
      (sparIntSet s.1 i j k d, sparIntSet s.2 i j k (sparIntGet s.1 i j k)) := by
  obtain ⟨a1, a2, a3, a4, a5⟩ := h
  have r1 : ∀ x y z, InRange s.1 x y z ↔ InRange m x y z := a3.inRange
  have r2 : ∀ x y z, InRange s.2 x y z ↔ InRange m x y z := by
    intro x y z
    rw [a4.inRange]
    unfold InRange
    rw [hs.1, hs.2.1, hs.2.2]
  refine ⟨sparIntSet_WF a1 _ _ _ _, sparIntSet_WF a2 _ _ _ _,
    (sparIntSet_shape _ _ _ _ _).trans a3, (sparIntSet_shape _ _ _ _ _).trans a4, ?_⟩
  intro x y z hxyz
  simp only
  rw [get_set a2 _ ((r2 _ _ _).mpr hr) ((r2 _ _ _).mpr hxyz),
    get_set a1 _ ((r1 _ _ _).mpr hr) ((r1 _ _ _).mpr hxyz)]
  by_cases e : x = i ∧ y = j ∧ z = k
  · obtain ⟨rfl, rfl, rfl⟩ := e
    simp only [and_self, if_true, or_true, not_true_eq_false, false_implies, and_true,
      true_implies]
    exact (a5 x y z hxyz).2 hn
  · rw [if_neg e, if_neg e]
    simp only [e, or_false]
    exact a5 x y z hxyz

/-- The copy loop of `sparIntChangeBs` moves every element to the second
matrix. -/
theorem changeBsLoop_inv {m m2 : sparInt} (hm : WF m) (hm2 : WF m2)
    (hs : m2.nx = m.nx ∧ m2.ny = m.ny ∧ m2.nz = m.nz) :
    ChangeInv m m2 (fun _ _ _ => True) (changeBsLoop m m2) := by
  unfold changeBsLoop
  have h0 : ChangeInv m m2 (fun _ _ z => z < 0) (m, m2) :=
    ⟨hm, hm2, SameShape.refl _, SameShape.refl _, fun x y z _ =>
      ⟨fun c => absurd c (Nat.not_lt_zero _), fun _ => rfl⟩⟩
  simp only
  refine (forLoop_inv (fun n s => ChangeInv m m2 (fun _ _ z => z < n) s) 0 m.nz (m, m2)
    _ (Nat.zero_le _) h0 ?_).congrChange
    (fun x y z hr => by unfold InRange at hr; simp [hr.2.2])
  intro k s _ hk hinv
  refine (forLoop_inv
    (fun n s => ChangeInv m m2 (fun _ y z => z < k ∨ (z = k ∧ y < n)) s) 0 m.ny s
    _ (Nat.zero_le _) (hinv.congrChange (fun x y z _ => by simp)) ?_).congrChange
    (fun x y z hr => by unfold InRange at hr; have := hr.2.1; omega)
  intro j s _ hj hinv
  refine (forLoop_inv
    (fun n s => ChangeInv m m2
      (fun x y z => z < k ∨ (z = k ∧ (y < j ∨ (y = j ∧ x < n)))) s) 0 m.nx s
    _ (Nat.zero_le _) (hinv.congrChange (fun x y z _ => by simp)) ?_).congrChange
    (fun x y z hr => by unfold InRange at hr; have := hr.1; omega)
  intro i s _ hi hinv
  have h4 := hinv.stepChange hs m.def_ (i := i) (j := j) (k := k) ⟨hi, hj, hk⟩ (by omega)
  exact h4.congrChange (fun x y z _ => by omega)

/-- The matrix returned by `sparIntChangeBs` for a valid block size: it is
well formed, has the new block size, the old sizes and default value, and
reads like the old matrix. -/
theorem sparIntChangeBs_spec {m : sparInt} (hm : WF m) (bs : Nat) (hb : 1 < bs) :
    ∃ r, sparIntChangeBs m bs = some r ∧ WF r ∧
      r.nx = m.nx ∧ r.ny = m.ny ∧ r.nz = m.nz ∧ r.def_ = m.def_ ∧ r.bs = bs ∧
      ∀ x y z, InRange m x y z → sparIntGet r x y z = sparIntGet m x y z := by
  have hx : 0 < m.nx := by unfold WF at hm; exact hm.1
  have hy : 0 < m.ny := by unfold WF at hm; exact hm.2.1
  have hz : 0 < m.nz := by unfold WF at hm; exact hm.2.2.1
  have hinv := changeBsLoop_inv hm (initMatrix_WF m.nx m.ny m.nz bs m.def_ hx hy hz hb)
    ⟨rfl, rfl, rfl⟩
  obtain ⟨a1, a2, a3, a4, a5⟩ := hinv
  unfold sparIntChangeBs
  rw [sparIntInit_eq m.nx m.ny m.nz bs m.def_ hx hy hz hb]
  simp only
  generalize changeBsLoop m (initMatrix m.nx m.ny m.nz bs m.def_) = s at a1 a2 a3 a4 a5
  obtain ⟨s1, s2⟩ := s
  simp only at a1 a2 a3 a4 a5 ⊢
  unfold SameShape at a3 a4
  simp only [initMatrix] at a4
  have e : ({ s1 with bs := s2.bs, bs3 := s2.bs3, mx := s2.mx, my := s2.my, mz := s2.mz,
                      blockValue := s2.blockValue, blockData := s2.blockData } : sparInt)
      = s2 := by
    cases s2
    simp only [sparInt.mk.injEq, and_true, true_and] at a4 ⊢
    exact ⟨a3.1.trans a4.1.symm, a3.2.1.trans a4.2.1.symm, a3.2.2.1.trans a4.2.2.1.symm,
      a3.2.2.2.2.2.2.2.2.trans a4.2.2.2.2.2.2.2.2.symm⟩
  refine ⟨s2, by rw [e], a2, a4.1, a4.2.1, a4.2.2.1, a4.2.2.2.2.2.2.2.2, a4.2.2.2.1, ?_⟩
  intro x y z hr
  exact (a5 x y z hr).1 trivial

/-! ## The block loops of `sparIntResize` -/

theorem forLoop_inv_max {σ : Type} (P : Nat → σ → Prop) (lo hi : Nat) (s : σ)
    (body : σ → Nat → σ) (h0 : P lo s)
    (hstep : ∀ i t, lo ≤ i → i < hi → P i t → P (i + 1) (body t i)) :
    P (max lo hi) (forLoop lo hi s body) := by
  by_cases hle : lo ≤ hi
  · rw [Nat.max_eq_right hle]
    exact forLoop_inv P lo hi s body hle h0 hstep
  · rw [Nat.max_eq_left (by omega), forLoop_empty _ _ _ _ (by omega)]
    exact h0

theorem BoxInv.congrBox {α : Type} {mx my : Nat} {f : Nat → Nat → Nat → α} {l r : List α}
    {B C : Nat → Nat → Nat → Prop} (h : BoxInv mx my f l B r)
    (hBC : ∀ i j k, B i j k ↔ C i j k) : BoxInv mx my f l C r := by
  refine ⟨h.1, fun i j k hi hj => ?_⟩
  rw [← hBC i j k]
  exact h.2 i j k hi hj

theorem BoxInv.stepBox {α : Type} {mx my : Nat} {f : Nat → Nat → Nat → α} {l r : List α}
    {B : Nat → Nat → Nat → Prop} (h : BoxInv mx my f l B r) {i j k : Nat}
    (hi : i < mx) (hj : j < my) :
    BoxInv mx my f l (fun a b c => B a b c ∨ (a = i ∧ b = j ∧ c = k))
      (r.set (i + mx * (j + my * k)) (f i j k)) := by
  refine ⟨by rw [List.length_set]; exact h.1, fun a b c ha hb => ?_⟩
  rw [List.getElem?_set]
  by_cases e : a = i ∧ b = j ∧ c = k
  · obtain ⟨rfl, rfl, rfl⟩ := e
    refine ⟨fun _ hlt => ?_, fun hn => absurd (Or.inr ⟨rfl, rfl, rfl⟩) hn⟩
    rw [if_pos rfl, if_pos (by rw [h.1]; exact hlt)]
  · have hne : ¬ (i + mx * (j + my * k) = a + mx * (b + my * c)) := by
      intro c2
      obtain ⟨e1, e2, e3⟩ := lin3_inj hi ha hj hb c2
      exact e ⟨e1.symm, e2.symm, e3.symm⟩
    rw [if_neg hne]
    simp only [e, or_false]
    exact h.2 a b c ha hb

/-- What the three nested loops of `boxSet` leave in the array. -/
theorem boxSet_spec {α : Type} (mx my i0 i1 j0 j1 k0 k1 : Nat) (f : Nat → Nat → Nat → α)
    (l : List α) (hi : i1 ≤ mx) (hj : j1 ≤ my) :
    BoxInv mx my f l
      (fun i j k => i0 ≤ i ∧ i < i1 ∧ j0 ≤ j ∧ j < j1 ∧ k0 ≤ k ∧ k < k1)
      (boxSet mx my i0 i1 j0 j1 k0 k1 f l) := by
  unfold boxSet
  have h0 : BoxInv mx my f l
      (fun i j k => i0 ≤ i ∧ i < i1 ∧ j0 ≤ j ∧ j < j1 ∧ k0 ≤ k ∧ k < k0) l :=
    ⟨rfl, fun i j k _ _ => ⟨fun c => by omega, fun _ => rfl⟩⟩
  refine (forLoop_inv_max
    (fun n r => BoxInv mx my f l
      (fun i j k => i0 ≤ i ∧ i < i1 ∧ j0 ≤ j ∧ j < j1 ∧ k0 ≤ k ∧ k < n) r)
    k0 k1 l _ h0 ?_).congrBox (fun i j k => by omega)
  intro k r _ hk hinv
  refine (forLoop_inv_max
    (fun n r => BoxInv mx my f l
      (fun a b c => (i0 ≤ a ∧ a < i1 ∧ j0 ≤ b ∧ b < j1 ∧ k0 ≤ c ∧ c < k) ∨
        (i0 ≤ a ∧ a < i1 ∧ j0 ≤ b ∧ b < n ∧ c = k)) r)
    j0 j1 r _ (hinv.congrBox (fun a b c => by omega)) ?_).congrBox (fun a b c => by omega)
  intro j r _ hj2 hinv
  refine (forLoop_inv_max
    (fun n r => BoxInv mx my f l
      (fun a b c => (i0 ≤ a ∧ a < i1 ∧ j0 ≤ b ∧ b < j1 ∧ k0 ≤ c ∧ c < k) ∨
        (i0 ≤ a ∧ a < i1 ∧ j0 ≤ b ∧ b < j ∧ c = k) ∨
        (i0 ≤ a ∧ a < n ∧ b = j ∧ c = k)) r)
    i0 i1 r _ (hinv.congrBox (fun a b c => by omega)) ?_).congrBox (fun a b c => by omega)
  intro i r _ hi2 hinv
  exact (hinv.stepBox (i := i) (j := j) (k := k) (by omega) (by omega)).congrBox
    (fun a b c => by omega)

/-- A property of the entries that the writes of `boxSet` keep. -/
theorem boxSet_keep {α : Type} (P : α → Prop) (mx my i0 i1 j0 j1 k0 k1 : Nat)
    (f : Nat → Nat → Nat → α) (l : List α) (hl : ∀ a ∈ l, P a) (hf : ∀ i j k, P (f i j k)) :
    ∀ a ∈ boxSet mx my i0 i1 j0 j1 k0 k1 f l, P a := by
  unfold boxSet
  refine forLoop_keep (fun r => ∀ a ∈ r, P a) _ _ _ _ hl ?_
  intro k r _ _ hr
  refine forLoop_keep (fun r => ∀ a ∈ r, P a) _ _ _ _ hr ?_
  intro j r _ _ hr
  refine forLoop_keep (fun r => ∀ a ∈ r, P a) _ _ _ _ hr ?_
  intro i r _ _ hr a ha
  rcases List.mem_or_eq_of_mem_set ha with h1 | h1
  · exact hr a h1
  · rw [h1]; exact hf i j k

theorem forLoop_pair_var {α β : Type} (lo hi : Nat) (s : α × β) (f : α → Nat → α)
    (g : β → Nat → β) (body : α × β → Nat → α × β)
    (hb : ∀ t i, body t i = (f t.1 i, g t.2 i)) :
    forLoop lo hi s body = (forLoop lo hi s.1 f, forLoop lo hi s.2 g) := by
  have : body = fun t i => (f t.1 i, g t.2 i) := by
    funext t i; exact hb t i
  rw [this, forLoop_pair]

theorem copyBlocks_eq (m : sparInt) (mx my ni nj nk : Nat) (b : Blocks) :
    copyBlocks m mx my ni nj nk b =
      (boxSet mx my 0 ni 0 nj 0 nk
        (fun i j k => valueAt m.blockValue (i + m.mx * (j + m.my * k))) b.1,
       boxSet mx my 0 ni 0 nj 0 nk
        (fun i j k => dataAt m.blockData (i + m.mx * (j + m.my * k))) b.2) := by
  unfold copyBlocks boxSet
  refine forLoop_pair_var _ _ _ _ _ _ (fun t k => ?_)
  refine forLoop_pair_var _ _ _ _ _ _ (fun t j => ?_)
  exact forLoop_pair_var _ _ _ _ _ _ (fun t i => rfl)

theorem createBlocks_eq (d : Int) (mx my i0 i1 j0 j1 k0 k1 : Nat) (b : Blocks) :
    createBlocks d mx my i0 i1 j0 j1 k0 k1 b =
      (boxSet mx my i0 i1 j0 j1 k0 k1 (fun _ _ _ => d) b.1,
       boxSet mx my i0 i1 j0 j1 k0 k1 (fun _ _ _ => none) b.2) := by
  unfold createBlocks boxSet
  refine forLoop_pair_var _ _ _ _ _ _ (fun t k => ?_)
  refine forLoop_pair_var _ _ _ _ _ _ (fun t j => ?_)
  exact forLoop_pair_var _ _ _ _ _ _ (fun t i => rfl)

theorem valueAt_of_getElem? {l : List Int} {n : Nat} {a : Int} (h : l[n]? = some a) :
    valueAt l n = a := by
  unfold valueAt
  rw [List.getD_eq_getElem?_getD, h]; rfl

theorem dataAt_of_getElem? {l : List (Option (List Int))} {n : Nat} {a : Option (List Int)}
    (h : l[n]? = some a) : dataAt l n = a := by
  unfold dataAt
  rw [List.getD_eq_getElem?_getD, h]; rfl

/-- The block arrays built by one axis of `sparIntResize`: zeroed arrays,
then the loops `Copy existing blocks`, then the loops `Create new blocks`. -/
theorem rebuilt_spec (m : sparInt) (d : Int) (mx my mz ni nj nk i0 i1 j0 j1 k0 k1 : Nat)
    (hni : ni ≤ mx) (hnj : nj ≤ my) (hi1 : i1 ≤ mx) (hj1 : j1 ≤ my)
    (b : Blocks)
    (hb : b = createBlocks d mx my i0 i1 j0 j1 k0 k1
      (copyBlocks m mx my ni nj nk
        (List.replicate (mx * my * mz) 0, List.replicate (mx * my * mz) none))) :
    b.1.length = mx * my * mz ∧ b.2.length = mx * my * mz ∧
    ((∀ p ∈ m.blockData, ∀ q ∈ p, q.length = m.bs3) →
      ∀ p ∈ b.2, ∀ q ∈ p, q.length = m.bs3) ∧
    ∀ i j k, i < mx → j < my → k < mz →
      ((i0 ≤ i ∧ i < i1 ∧ j0 ≤ j ∧ j < j1 ∧ k0 ≤ k ∧ k < k1) →
        valueAt b.1 (i + mx * (j + my * k)) = d ∧
        dataAt b.2 (i + mx * (j + my * k)) = none) ∧
      (¬ (i0 ≤ i ∧ i < i1 ∧ j0 ≤ j ∧ j < j1 ∧ k0 ≤ k ∧ k < k1) →
        i < ni → j < nj → k < nk →
        valueAt b.1 (i + mx * (j + my * k)) =
          valueAt m.blockValue (i + m.mx * (j + m.my * k)) ∧
        dataAt b.2 (i + mx * (j + my * k)) =
          dataAt m.blockData (i + m.mx * (j + m.my * k))) := by
  subst hb
  rw [createBlocks_eq, copyBlocks_eq]
  simp only
  have c1 := boxSet_spec mx my 0 ni 0 nj 0 nk
    (fun i j k => valueAt m.blockValue (i + m.mx * (j + m.my * k)))
    (List.replicate (mx * my * mz) 0) hni hnj
  have c2 := boxSet_spec mx my 0 ni 0 nj 0 nk
    (fun i j k => dataAt m.blockData (i + m.mx * (j + m.my * k)))
    (List.replicate (mx * my * mz) none) hni hnj
  have e1 := boxSet_spec mx my i0 i1 j0 j1 k0 k1 (fun _ _ _ => d)
    (boxSet mx my 0 ni 0 nj 0 nk
      (fun i j k => valueAt m.blockValue (i + m.mx * (j + m.my * k)))
      (List.replicate (mx * my * mz) 0)) hi1 hj1
  have e2 := boxSet_spec mx my i0 i1 j0 j1 k0 k1 (fun _ _ _ => (none : Option (List Int)))
    (boxSet mx my 0 ni 0 nj 0 nk
      (fun i j k => dataAt m.blockData (i + m.mx * (j + m.my * k)))
      (List.replicate (mx * my * mz) none)) hi1 hj1
  have l1 : (boxSet mx my 0 ni 0 nj 0 nk
      (fun i j k => valueAt m.blockValue (i + m.mx * (j + m.my * k)))
      (List.replicate (mx * my * mz) 0)).length = mx * my * mz := by
    rw [c1.1, List.length_replicate]
  have l2 : (boxSet mx my 0 ni 0 nj 0 nk
      (fun i j k => dataAt m.blockData (i + m.mx * (j + m.my * k)))
      (List.replicate (mx * my * mz) none)).length = mx * my * mz := by
    rw [c2.1, List.length_replicate]
  refine ⟨by rw [e1.1, l1], by rw [e2.1, l2], ?_, ?_⟩
  · intro hm
    apply boxSet_keep (fun (p : Option (List Int)) => ∀ q ∈ p, q.length = m.bs3)
    · apply boxSet_keep (fun (p : Option (List Int)) => ∀ q ∈ p, q.length = m.bs3)
      · intro a ha q hq
        rw [(List.mem_replicate.mp ha).2] at hq
        simp at hq
      · intro i j k q hq
        exact hm _ (dataAt_mem (Option.mem_def.mp hq)) q rfl
    · intro i j k q hq
      simp at hq
  · intro i j k hi hj hk
    have hlt := lin3_lt hi hj hk
    constructor
    · intro hB
      exact ⟨valueAt_of_getElem? ((e1.2 i j k hi hj).1 hB (by rw [l1]; exact hlt)),
        dataAt_of_getElem? ((e2.2 i j k hi hj).1 hB (by rw [l2]; exact hlt))⟩
    · intro hB h1 h2 h3
      have hC : 0 ≤ i ∧ i < ni ∧ 0 ≤ j ∧ j < nj ∧ 0 ≤ k ∧ k < nk := by omega
      constructor
      · apply valueAt_of_getElem?
        rw [(e1.2 i j k hi hj).2 hB]
        exact (c1.2 i j k hi hj).1 hC (by rw [List.length_replicate]; exact hlt)
      · apply dataAt_of_getElem?
        rw [(e2.2 i j k hi hj).2 hB]
        exact (c2.2 i j k hi hj).1 hC (by rw [List.length_replicate]; exact hlt)

theorem createBlocks_empty (d : Int) (mx my : Nat) (b : Blocks) :
    createBlocks d mx my 0 0 0 0 0 0 b = b := by
  unfold createBlocks
  exact forLoop_empty _ _ _ _ (le_refl _)

/-! ## The fill loops of `sparIntResize` -/

theorem SetInv.congrSet {m : sparInt} {d : Int} {P Q : Nat → Nat → Nat → Prop} {s : sparInt}
    (h : SetInv m d P s) (hPQ : ∀ x y z, P x y z ↔ Q x y z) : SetInv m d Q s := by
  refine ⟨h.1, h.2.1, fun x y z hr => ?_⟩
  rw [← hPQ x y z]
  exact h.2.2 x y z hr

theorem SetInv.stepSet {m : sparInt} {d : Int} {P : Nat → Nat → Nat → Prop} {s : sparInt}
    (h : SetInv m d P s) {i j k : Nat} (hr : InRange m i j k) :
    SetInv m d (fun x y z => P x y z ∨ (x = i ∧ y = j ∧ z = k)) (sparIntSet s i j k d) := by
  obtain ⟨a1, a2, a3⟩ := h
  refine ⟨sparIntSet_WF a1 _ _ _ _, (sparIntSet_shape _ _ _ _ _).trans a2, ?_⟩
  intro x y z hxyz
  rw [get_set a1 _ ((a2.inRange _ _ _).mpr hr) ((a2.inRange _ _ _).mpr hxyz)]
  by_cases e : x = i ∧ y = j ∧ z = k
  · rw [if_pos e]
    exact ⟨fun _ => rfl, fun c => absurd (Or.inr e) c⟩
  · rw [if_neg e]
    simp only [e, or_false]
    exact a3 x y z hxyz

/-- Three nested loops that set every element of a box of coordinates to
`d`: the elements of the box read `d`, the others are not changed. -/
theorem setBox_spec {m : sparInt} (hm : WF m) (d : Int) (i0 i1 j0 j1 k0 k1 : Nat)
    (hi : i1 ≤ m.nx) (hj : j1 ≤ m.ny) (hk : k1 ≤ m.nz) :
    SetInv m d (fun x y z => i0 ≤ x ∧ x < i1 ∧ j0 ≤ y ∧ y < j1 ∧ k0 ≤ z ∧ z < k1)
      (forLoop k0 k1 m (fun s k =>
        forLoop j0 j1 s (fun s j =>
          forLoop i0 i1 s (fun s i => sparIntSet s i j k d)))) := by
  have h0 : SetInv m d
      (fun x y z => i0 ≤ x ∧ x < i1 ∧ j0 ≤ y ∧ y < j1 ∧ k0 ≤ z ∧ z < k0) m :=
    ⟨hm, SameShape.refl m, fun x y z _ => ⟨fun c => by omega, fun _ => rfl⟩⟩
  refine (forLoop_inv_max
    (fun n s => SetInv m d
      (fun x y z => i0 ≤ x ∧ x < i1 ∧ j0 ≤ y ∧ y < j1 ∧ k0 ≤ z ∧ z < n) s)
    k0 k1 m _ h0 ?_).congrSet (fun x y z => by omega)
  intro k s _ hk2 hinv
  refine (forLoop_inv_max
    (fun n s => SetInv m d
      (fun x y z => (i0 ≤ x ∧ x < i1 ∧ j0 ≤ y ∧ y < j1 ∧ k0 ≤ z ∧ z < k) ∨
        (i0 ≤ x ∧ x < i1 ∧ j0 ≤ y ∧ y < n ∧ z = k)) s)
    j0 j1 s _ (hinv.congrSet (fun x y z => by omega)) ?_).congrSet (fun x y z => by omega)
  intro j s _ hj2 hinv
  refine (forLoop_inv_max
    (fun n s => SetInv m d
      (fun x y z => (i0 ≤ x ∧ x < i1 ∧ j0 ≤ y ∧ y < j1 ∧ k0 ≤ z ∧ z < k) ∨
        (i0 ≤ x ∧ x < i1 ∧ j0 ≤ y ∧ y < j ∧ z = k) ∨
        (i0 ≤ x ∧ x < n ∧ y = j ∧ z = k)) s)
    i0 i1 s _ (hinv.congrSet (fun x y z => by omega)) ?_).congrSet (fun x y z => by omega)
  intro i s _ hi2 hinv
  have hr : InRange m i j k := by unfold InRange; omega
  exact (hinv.stepSet hr).congrSet (fun x y z => by omega)

/-! ## One axis of `sparIntResize` -/

/-- New block arrays that hold the old blocks at the grid positions common
to the old and the new grid give a well-formed matrix that reads like the
old one on the coordinates common to both. -/
theorem regrid {m : sparInt} (hm : WF m) (nx ny nz mx my mz : Nat)
    (bv : List Int) (bd : List (Option (List Int)))
    (hx : 0 < nx) (hy : 0 < ny) (hz : 0 < nz)
    (hmx : mx = (nx + m.bs - 1) / m.bs) (hmy : my = (ny + m.bs - 1) / m.bs)
    (hmz : mz = (nz + m.bs - 1) / m.bs)
    (hl1 : bv.length = mx * my * mz) (hl2 : bd.length = mx * my * mz)
    (hp : ∀ p ∈ bd, ∀ q ∈ p, q.length = m.bs3)
    (hc : ∀ i j k, i < mx → j < my → k < mz → i < m.mx → j < m.my → k < m.mz →
      valueAt bv (i + mx * (j + my * k)) = valueAt m.blockValue (i + m.mx * (j + m.my * k)) ∧
      dataAt bd (i + mx * (j + my * k)) = dataAt m.blockData (i + m.mx * (j + m.my * k))) :
    WF { m with nx := nx, ny := ny, nz := nz, mx := mx, my := my, mz := mz,
                blockValue := bv, blockData := bd } ∧
    ∀ x y z, InRange m x y z → x < nx → y < ny → z < nz →
      sparIntGet { m with nx := nx, ny := ny, nz := nz, mx := mx, my := my, mz := mz,
                          blockValue := bv, blockData := bd } x y z = sparIntGet m x y z := by
  have hb := hm.bs_pos
  constructor
  · unfold WF at hm ⊢
    exact ⟨hx, hy, hz, hm.2.2.2.1, hm.2.2.2.2.1, hmx, hmy, hmz, hl1, hl2, hp⟩
  · intro x y z hr h1 h2 h3
    obtain ⟨b1, b2, b3⟩ := hm.block_lt hr
    have c1 : x / m.bs < mx := by rw [hmx]; exact div_lt_ceil hb h1
    have c2 : y / m.bs < my := by rw [hmy]; exact div_lt_ceil hb h2
    have c3 : z / m.bs < mz := by rw [hmz]; exact div_lt_ceil hb h3
    obtain ⟨e1, e2⟩ := hc _ _ _ c1 c2 c3 b1 b2 b3
    show (match dataAt bd (x / m.bs + mx * (y / m.bs + my * (z / m.bs))) with
      | none => valueAt bv (x / m.bs + mx * (y / m.bs + my * (z / m.bs)))
      | some p => p.getD (blockOffset m x y z) 0) = _
    rw [e1, e2]
    rfl

theorem ceil_mono {a b bs : Nat} (h : a ≤ b) : (a + bs - 1) / bs ≤ (b + bs - 1) / bs :=
  Nat.div_le_div_right (by omega)

/-- The x axis of `sparIntResize`: the result is well formed, has the new
size in x, and reads like the old matrix where both are defined. -/
theorem resizeX_spec {m : sparInt} (hm : WF m) (d : Int) (nx : Nat) (hnx : 0 < nx) :
    WF (resizeX m m.bs d nx) ∧
    (resizeX m m.bs d nx).nx = nx ∧ (resizeX m m.bs d nx).ny = m.ny ∧
    (resizeX m m.bs d nx).nz = m.nz ∧ (resizeX m m.bs d nx).bs = m.bs ∧
    (resizeX m m.bs d nx).def_ = m.def_ ∧
    ∀ x y z, InRange m x y z → x < nx →
      sparIntGet (resizeX m m.bs d nx) x y z = sparIntGet m x y z := by
  have hwf := hm
  unfold WF at hwf
  obtain ⟨w1, w2, w3, w4, w5, w6, w7, w8, w9, w10, w11⟩ := hwf
  unfold resizeX
  by_cases h1 : nx > m.nx
  · rw [if_pos h1]
    have hmono : m.mx ≤ (nx + m.bs - 1) / m.bs := by
      rw [w6]; exact ceil_mono (le_of_lt h1)
    obtain ⟨r1, r2, r3, r4⟩ := rebuilt_spec m d ((nx + m.bs - 1) / m.bs) m.my m.mz
      m.mx m.my m.mz m.mx ((nx + m.bs - 1) / m.bs) 0 m.my 0 m.mz
      hmono (le_refl _) (le_refl _) (le_refl _) _ rfl
    obtain ⟨g1, g2⟩ := regrid hm nx m.ny m.nz ((nx + m.bs - 1) / m.bs) m.my m.mz _ _
      hnx w2 w3 rfl w7 w8 r1 r2 (r3 w11)
      (fun i j k a1 a2 a3 a4 a5 a6 => (r4 i j k a1 a2 a3).2 (by omega) a4 a5 a6)
    have hxf : (if m.bs * m.mx ≥ nx then nx - 1 else m.bs * m.mx) ≤ nx := by
      split <;> omega
    obtain ⟨s1, s2, s3⟩ := setBox_spec g1 d m.nx
      (if m.bs * m.mx ≥ nx then nx - 1 else m.bs * m.mx) 0 m.ny 0 m.nz
      hxf (le_refl _) (le_refl _)
    refine ⟨s1, s2.1, s2.2.1, s2.2.2.1, s2.2.2.2.1, s2.2.2.2.2.2.2.2.2, ?_⟩
    intro x y z hr hx
    have hr2 := hr
    unfold InRange at hr2
    rw [← g2 x y z hr hx hr2.2.1 hr2.2.2]
    exact (s3 x y z ⟨hx, hr2.2.1, hr2.2.2⟩).2 (by omega)
  · rw [if_neg h1]
    by_cases h2 : nx < m.nx
    · rw [if_pos h2]
      have hmono : (nx + m.bs - 1) / m.bs ≤ m.mx := by
        rw [w6]; exact ceil_mono (le_of_lt h2)
      obtain ⟨r1, r2, r3, r4⟩ := rebuilt_spec m d ((nx + m.bs - 1) / m.bs) m.my m.mz
        ((nx + m.bs - 1) / m.bs) m.my m.mz 0 0 0 0 0 0
        (le_refl _) (le_refl _) (Nat.zero_le _) (Nat.zero_le _) _ rfl
      rw [createBlocks_empty] at r1 r2 r3 r4
      obtain ⟨g1, g2⟩ := regrid hm nx m.ny m.nz ((nx + m.bs - 1) / m.bs) m.my m.mz _ _
        hnx w2 w3 rfl w7 w8 r1 r2 (r3 w11)
        (fun i j k a1 a2 a3 a4 a5 a6 => (r4 i j k a1 a2 a3).2 (by omega) a1 a2 a3)
      refine ⟨g1, rfl, rfl, rfl, rfl, rfl, ?_⟩
      intro x y z hr hx
      have hr2 := hr
      unfold InRange at hr2
      exact g2 x y z hr hx hr2.2.1 hr2.2.2
    · rw [if_neg h2]
      exact ⟨hm, by omega, rfl, rfl, rfl, rfl, fun _ _ _ _ _ => rfl⟩

/-- The y axis of `sparIntResize`: the result is well formed, has the new
size in y, and reads like the old matrix where both are defined. -/
theorem resizeY_spec {m : sparInt} (hm : WF m) (d : Int) (ny : Nat) (hny : 0 < ny) :
    WF (resizeY m m.bs d ny) ∧
    (resizeY m m.bs d ny).nx = m.nx ∧ (resizeY m m.bs d ny).ny = ny ∧
    (resizeY m m.bs d ny).nz = m.nz ∧ (resizeY m m.bs d ny).bs = m.bs ∧
    (resizeY m m.bs d ny).def_ = m.def_ ∧
    ∀ x y z, InRange m x y z → y < ny →
      sparIntGet (resizeY m m.bs d ny) x y z = sparIntGet m x y z := by
  have hwf := hm
  unfold WF at hwf
  obtain ⟨w1, w2, w3, w4, w5, w6, w7, w8, w9, w10, w11⟩ := hwf
  unfold resizeY
  by_cases h1 : ny > m.ny
  · rw [if_pos h1]
    have hmono : m.my ≤ (ny + m.bs - 1) / m.bs := by
      rw [w7]; exact ceil_mono (le_of_lt h1)
    obtain ⟨r1, r2, r3, r4⟩ := rebuilt_spec m d m.mx ((ny + m.bs - 1) / m.bs) m.mz
      m.mx m.my m.mz 0 m.mx m.my ((ny + m.bs - 1) / m.bs) 0 m.mz
      (le_refl _) hmono (le_refl _) (le_refl _) _ rfl
    obtain ⟨g1, g2⟩ := regrid hm m.nx ny m.nz m.mx ((ny + m.bs - 1) / m.bs) m.mz _ _
      w1 hny w3 w6 rfl w8 r1 r2 (r3 w11)
      (fun i j k a1 a2 a3 a4 a5 a6 => (r4 i j k a1 a2 a3).2 (by omega) a4 a5 a6)
    have hyf : (if m.bs * m.my ≥ ny then ny - 1 else m.bs * m.my) ≤ ny := by
      split <;> omega
    obtain ⟨s1, s2, s3⟩ := setBox_spec g1 d 0 m.nx m.ny
      (if m.bs * m.my ≥ ny then ny - 1 else m.bs * m.my) 0 m.nz
      (le_refl _) hyf (le_refl _)
    refine ⟨s1, s2.1, s2.2.1, s2.2.2.1, s2.2.2.2.1, s2.2.2.2.2.2.2.2.2, ?_⟩
    intro x y z hr hy
    have hr2 := hr
    unfold InRange at hr2
    rw [← g2 x y z hr hr2.1 hy hr2.2.2]
    exact (s3 x y z ⟨hr2.1, hy, hr2.2.2⟩).2 (by omega)
  · rw [if_neg h1]
    by_cases h2 : ny < m.ny
    · rw [if_pos h2]
      have hmono : (ny + m.bs - 1) / m.bs ≤ m.my := by
        rw [w7]; exact ceil_mono (le_of_lt h2)
      obtain ⟨r1, r2, r3, r4⟩ := rebuilt_spec m d m.mx ((ny + m.bs - 1) / m.bs) m.mz
        m.mx ((ny + m.bs - 1) / m.bs) m.mz 0 0 0 0 0 0
        (le_refl _) (le_refl _) (Nat.zero_le _) (Nat.zero_le _) _ rfl
      rw [createBlocks_empty] at r1 r2 r3 r4
      obtain ⟨g1, g2⟩ := regrid hm m.nx ny m.nz m.mx ((ny + m.bs - 1) / m.bs) m.mz _ _
        w1 hny w3 w6 rfl w8 r1 r2 (r3 w11)
        (fun i j k a1 a2 a3 a4 a5 a6 => (r4 i j k a1 a2 a3).2 (by omega) a1 a2 a3)
      refine ⟨g1, rfl, rfl, rfl, rfl, rfl, ?_⟩
      intro x y z hr hy
      have hr2 := hr
      unfold InRange at hr2
      exact g2 x y z hr hr2.1 hy hr2.2.2
    · rw [if_neg h2]
      exact ⟨hm, rfl, by omega, rfl, rfl, rfl, fun _ _ _ _ _ => rfl⟩

/-- The z axis of `sparIntResize`: the result is well formed, has the new
size in z, and reads like the old matrix where both are defined. -/
theorem resizeZ_spec {m : sparInt} (hm : WF m) (d : Int) (nz : Nat) (hnz : 0 < nz) :
    WF (resizeZ m m.bs d nz) ∧
    (resizeZ m m.bs d nz).nx = m.nx ∧ (resizeZ m m.bs d nz).ny = m.ny ∧
    (resizeZ m m.bs d nz).nz = nz ∧ (resizeZ m m.bs d nz).bs = m.bs ∧
    (resizeZ m m.bs d nz).def_ = m.def_ ∧
    ∀ x y z, InRange m x y z → z < nz →
      sparIntGet (resizeZ m m.bs d nz) x y z = sparIntGet m x y z := by
  have hwf := hm
  unfold WF at hwf
  obtain ⟨w1, w2, w3, w4, w5, w6, w7, w8, w9, w10, w11⟩ := hwf
  unfold resizeZ
  by_cases h1 : nz > m.nz
  · rw [if_pos h1]
    have hmono : m.mz ≤ (nz + m.bs - 1) / m.bs := by
      rw [w8]; exact ceil_mono (le_of_lt h1)
    obtain ⟨r1, r2, r3, r4⟩ := rebuilt_spec m d m.mx m.my ((nz + m.bs - 1) / m.bs)
      m.mx m.my m.mz 0 m.mx 0 m.my m.mz ((nz + m.bs - 1) / m.bs)
      (le_refl _) (le_refl _) (le_refl _) (le_refl _) _ rfl
    obtain ⟨g1, g2⟩ := regrid hm m.nx m.ny nz m.mx m.my ((nz + m.bs - 1) / m.bs) _ _
      w1 w2 hnz w6 w7 rfl r1 r2 (r3 w11)
      (fun i j k a1 a2 a3 a4 a5 a6 => (r4 i j k a1 a2 a3).2 (by omega) a4 a5 a6)
    have hzf : (if m.bs * m.mz ≥ nz then nz - 1 else m.bs * m.mz) ≤ nz := by
      split <;> omega
    obtain ⟨s1, s2, s3⟩ := setBox_spec g1 d 0 m.nx 0 m.ny m.nz
      (if m.bs * m.mz ≥ nz then nz - 1 else m.bs * m.mz)
      (le_refl _) (le_refl _) hzf
    refine ⟨s1, s2.1, s2.2.1, s2.2.2.1, s2.2.2.2.1, s2.2.2.2.2.2.2.2.2, ?_⟩
    intro x y z hr hz
    have hr2 := hr
    unfold InRange at hr2
    rw [← g2 x y z hr hr2.1 hr2.2.1 hz]
    exact (s3 x y z ⟨hr2.1, hr2.2.1, hz⟩).2 (by omega)
  · rw [if_neg h1]
    by_cases h2 : nz < m.nz
    · rw [if_pos h2]
      have hmono : (nz + m.bs - 1) / m.bs ≤ m.mz := by
        rw [w8]; exact ceil_mono (le_of_lt h2)
      obtain ⟨r1, r2, r3, r4⟩ := rebuilt_spec m d m.mx m.my ((nz + m.bs - 1) / m.bs)
        m.mx m.my ((nz + m.bs - 1) / m.bs) 0 0 0 0 0 0
        (le_refl _) (le_refl _) (Nat.zero_le _) (Nat.zero_le _) _ rfl
      rw [createBlocks_empty] at r1 r2 r3 r4
      obtain ⟨g1, g2⟩ := regrid hm m.nx m.ny nz m.mx m.my ((nz + m.bs - 1) / m.bs) _ _
        w1 w2 hnz w6 w7 rfl r1 r2 (r3 w11)
        (fun i j k a1 a2 a3 a4 a5 a6 => (r4 i j k a1 a2 a3).2 (by omega) a1 a2 a3)
      refine ⟨g1, rfl, rfl, rfl, rfl, rfl, ?_⟩
      intro x y z hr hz
      have hr2 := hr
      unfold InRange at hr2
      exact g2 x y z hr hr2.1 hr2.2.1 hz
    · rw [if_neg h2]
      exact ⟨hm, rfl, rfl, by omega, rfl, rfl, fun _ _ _ _ _ => rfl⟩

/-- The matrix returned by `sparIntResize` for positive sizes: it is well
formed, has the new sizes, the old block size and default value, and reads
like the old matrix on the coordinates inside both. -/
theorem sparIntResize_spec {m : sparInt} (hm : WF m) (nx ny nz : Nat)
    (hx : 0 < nx) (hy : 0 < ny) (hz : 0 < nz) :
    ∃ r, sparIntResize m nx ny nz = some r ∧ WF r ∧
      r.nx = nx ∧ r.ny = ny ∧ r.nz = nz ∧ r.bs = m.bs ∧ r.def_ = m.def_ ∧
      ∀ x y z, InRange m x y z → x < nx → y < ny → z < nz →
        sparIntGet r x y z = sparIntGet m x y z := by
  unfold sparIntResize
  have hpos : ((nx : Int) > 0 ∧ (ny : Int) > 0 ∧ (nz : Int) > 0) := by omega
  rw [if_neg (not_not.mpr hpos)]
  simp only [Int.toNat_natCast]
  obtain ⟨a1, a2, a3, a4, a5, a6, a7⟩ := resizeX_spec hm m.def_ nx hx
  generalize resizeX m m.bs m.def_ nx = mX at a1 a2 a3 a4 a5 a6 a7
  obtain ⟨b1, b2, b3, b4, b5, b6, b7⟩ := resizeY_spec a1 m.def_ ny hy
  rw [a5] at b1 b2 b3 b4 b5 b6 b7
  generalize resizeY mX m.bs m.def_ ny = mY at b1 b2 b3 b4 b5 b6 b7
  obtain ⟨c1, c2, c3, c4, c5, c6, c7⟩ := resizeZ_spec b1 m.def_ nz hz
  rw [b5] at c1 c2 c3 c4 c5 c6 c7
  generalize resizeZ mY m.bs m.def_ nz = mZ at c1 c2 c3 c4 c5 c6 c7
  refine ⟨mZ, rfl, c1, by rw [c2, b2, a2], by rw [c3, b3], c4, c5,
    by rw [c6, b6, a6], ?_⟩
  intro x y z hr h1 h2 h3
  unfold InRange at hr
  have rX : InRange mX x y z := by unfold InRange; rw [a2, a3, a4]; exact ⟨h1, hr.2.1, hr.2.2⟩
  have rY : InRange mY x y z := by unfold InRange; rw [b2, b3, b4, a2, a4]; exact ⟨h1, h2, hr.2.2⟩
  rw [c7 x y z rY h3, b7 x y z rX h2, a7 x y z hr h1]

/-! ## Duplication -/

/-- The matrix returned by `sparIntDuplicate`: the same fields and payloads,
and the same value in every uniform block. -/
theorem sparIntDuplicate_spec {m : sparInt} (hm : WF m) :
    ∃ r, sparIntDuplicate m = some r ∧ WF r ∧ SameShape r m ∧
      r.blockData = m.blockData ∧
      (∀ t, t < m.mx * m.my * m.mz → dataAt m.blockData t = none →
        valueAt r.blockValue t = valueAt m.blockValue t) ∧
      (∀ t, t < m.mx * m.my * m.mz → dataAt m.blockData t ≠ none →
        valueAt r.blockValue t = m.def_) := by
  have hwf := hm
  unfold WF at hwf
  obtain ⟨w1, w2, w3, w4, w5, w6, w7, w8, w9, w10, w11⟩ := hwf
  unfold sparIntDuplicate
  rw [sparIntInit_eq m.nx m.ny m.nz m.bs m.def_ w1 w2 w3 w4]
  simp only
  have hB : (initMatrix m.nx m.ny m.nz m.bs m.def_).mx *
      (initMatrix m.nx m.ny m.nz m.bs m.def_).my *
      (initMatrix m.nx m.ny m.nz m.bs m.def_).mz = m.mx * m.my * m.mz := by
    simp only [initMatrix]; rw [← w6, ← w7, ← w8]
  have hbs3 : (initMatrix m.nx m.ny m.nz m.bs m.def_).bs3 = m.bs3 := by
    simp only [initMatrix]; rw [w5]
  rw [hB, hbs3]
  have hinv := forLoop_inv
    (fun n (r : Blocks) => r.1.length = m.mx * m.my * m.mz ∧
      r.2.length = m.mx * m.my * m.mz ∧
      (∀ t, t < m.mx * m.my * m.mz → dataAt m.blockData t ≠ none →
        valueAt r.1 t = m.def_) ∧
      ∀ t, t < m.mx * m.my * m.mz →
        (t < n → r.2[t]? = m.blockData[t]? ∧
          (dataAt m.blockData t = none → valueAt r.1 t = valueAt m.blockValue t)))
    0 (m.mx * m.my * m.mz)
    ((initMatrix m.nx m.ny m.nz m.bs m.def_).blockValue,
      (initMatrix m.nx m.ny m.nz m.bs m.def_).blockData)
    (fun s i =>
        match dataAt m.blockData i with
        | some p =>
          (s.1, s.2.set i (some (forLoop 0 m.bs3 (List.replicate m.bs3 (0 : Int))
            (fun q t => q.set t (p.getD t 0)))))
        | none => (s.1.set i (valueAt m.blockValue i), s.2.set i none))
    (Nat.zero_le _)
    (by
      simp only [initMatrix, List.length_replicate]
      rw [← w6, ← w7, ← w8]
      exact ⟨rfl, rfl, fun t ht _ => valueAt_replicate _ _ _ ht,
        fun t _ c => absurd c (Nat.not_lt_zero _)⟩)
    (by
      intro i r _ hi ⟨l1, l2, hdef, hr⟩
      cases hd : dataAt m.blockData i with
      | none =>
        simp only [hd, List.length_set]
        refine ⟨l1, l2, fun t ht hne => ?_, fun t ht hlt => ?_⟩
        · have hit : i ≠ t := fun c => hne (c ▸ hd)
          rw [valueAt_set, if_neg (fun c => hit c.1)]
          exact hdef t ht hne
        rw [List.getElem?_set, valueAt_set]
        by_cases e : i = t
        · subst e
          rw [if_pos rfl, if_pos (by rw [l2]; exact hi), if_pos ⟨rfl, by rw [l1]; exact hi⟩]
          refine ⟨?_, fun _ => rfl⟩
          unfold dataAt at hd
          rw [List.getD_eq_getElem?_getD, List.getElem?_eq_getElem (by rw [w10]; exact hi)] at hd
          rw [List.getElem?_eq_getElem (by rw [w10]; exact hi)]
          simp only [Option.getD_some] at hd
          rw [hd]
        · rw [if_neg e, if_neg (fun c => e c.1)]
          exact hr t ht (by omega)
      | some p =>
        simp only [hd, List.length_set]
        refine ⟨l1, l2, hdef, fun t ht hlt => ?_⟩
        rw [List.getElem?_set]
        by_cases e : i = t
        · subst e
          rw [if_pos rfl, if_pos (by rw [l2]; exact hi), copy_eq _ p (hm.payload hd)]
          refine ⟨?_, fun c => by rw [hd] at c; exact absurd c (by simp)⟩
          unfold dataAt at hd
          rw [List.getD_eq_getElem?_getD, List.getElem?_eq_getElem (by rw [w10]; exact hi)] at hd
          rw [List.getElem?_eq_getElem (by rw [w10]; exact hi)]
          simp only [Option.getD_some] at hd
          rw [hd]
        · rw [if_neg e]
          exact hr t ht (by omega))
  generalize forLoop 0 (m.mx * m.my * m.mz)
    ((initMatrix m.nx m.ny m.nz m.bs m.def_).blockValue,
      (initMatrix m.nx m.ny m.nz m.bs m.def_).blockData)
    (fun s i =>
        match dataAt m.blockData i with
        | some p =>
          (s.1, s.2.set i (some (forLoop 0 m.bs3 (List.replicate m.bs3 (0 : Int))
            (fun q t => q.set t (p.getD t 0)))))
        | none => (s.1.set i (valueAt m.blockValue i), s.2.set i none)) = b at hinv
  obtain ⟨l1, l2, hdef, hr⟩ := hinv
  have hbd : b.2 = m.blockData := by
    apply List.ext_getElem?
    intro t
    by_cases ht : t < m.mx * m.my * m.mz
    · exact (hr t ht ht).1
    · rw [List.getElem?_eq_none (by omega), List.getElem?_eq_none (by omega)]
  refine ⟨_, rfl, ?_, ?_, hbd, ?_, hdef⟩
  · unfold WF
    exact ⟨w1, w2, w3, w4, w5, rfl, rfl, rfl, by rw [l1, w6, w7, w8]; rfl,
      by rw [l2, w6, w7, w8]; rfl, by rw [hbd]; exact w11⟩
  · exact ⟨rfl, rfl, rfl, rfl, rfl, w6.symm, w7.symm, w8.symm, rfl⟩
  · intro t ht hd
    exact (hr t ht ht).2 hd

/-! ## Payload ownership on the heap -/

theorem store_length (h : Heap) (a i : Nat) (v : Int) : (store h a i v).length = h.length := by
  unfold store; rw [List.length_set]

theorem payloadAt_store_ne (h : Heap) {a b : Nat} (i : Nat) (v : Int) (hne : a ≠ b) :
    payloadAt (store h a i v) b = payloadAt h b := by
  unfold store payloadAt
  simp only [List.getD_eq_getElem?_getD]
  rw [List.getElem?_set_ne hne]

theorem payloadAt_store_eq (h : Heap) {a : Nat} (i : Nat) (v : Int) (ha : a < h.length) :
    payloadAt (store h a i v) a = (payloadAt h a).set i v := by
  unfold store
  generalize (payloadAt h a).set i v = q
  unfold payloadAt
  rw [List.getD_eq_getElem?_getD, List.getElem?_set_self ha]
  rfl

theorem payloadAt_append_lt (h : Heap) (p : List Int) {a : Nat} (ha : a < h.length) :
    payloadAt (h ++ [p]) a = payloadAt h a := by
  unfold payloadAt
  simp only [List.getD_eq_getElem?_getD]
  rw [List.getElem?_append_left ha]

theorem payloadAt_append_new (h : Heap) (p : List Int) :
    payloadAt (h ++ [p]) h.length = p := by
  unfold payloadAt
  rw [List.getD_eq_getElem?_getD, List.getElem?_append_right (le_refl _)]
  simp

theorem ptrAt_mem {bd : List (Option Nat)} {n a : Nat} (h : ptrAt bd n = some a) :
    some a ∈ bd := by
  unfold ptrAt at h
  rw [List.getD_eq_getElem?_getD] at h
  cases hq : bd[n]? with
  | none => simp [hq] at h
  | some q =>
    simp [hq] at h
    subst h
    exact List.getElem?_mem hq

/-- A loop of writes through one pointer keeps the heap size and every other
payload. -/
theorem storeLoop_frame (a lo hi : Nat) (f : Heap → Nat → Int) (g0 : Heap) :
    (forLoop lo hi g0 (fun g t => store g a t (f g t))).length = g0.length ∧
    ∀ b, b ≠ a →
      payloadAt (forLoop lo hi g0 (fun g t => store g a t (f g t))) b = payloadAt g0 b := by
  refine forLoop_keep
    (fun g => g.length = g0.length ∧ ∀ b, b ≠ a → payloadAt g b = payloadAt g0 b)
    lo hi g0 _ ⟨rfl, fun _ _ => rfl⟩ ?_
  intro t g _ _ ⟨h1, h2⟩
  refine ⟨by rw [store_length, h1], fun b hb => ?_⟩
  rw [payloadAt_store_ne g t _ (Ne.symm hb), h2 b hb]

/-- The heap effects of a pointer-level `sparIntSet`: the heap does not
shrink, a payload that the matrix does not point to is not changed, and the
matrix afterwards points to payloads it pointed to before or to a fresh one. -/
theorem Ptr.sparIntSet_frame (h : Heap) (m : sparIntP) (x y z : Nat) (v : Int) :
    h.length ≤ (Ptr.sparIntSet h m x y z v).1.length ∧
    (∀ a, a < h.length → some a ∉ m.blockData →
      payloadAt (Ptr.sparIntSet h m x y z v).1 a = payloadAt h a) ∧
    (∀ a, some a ∈ (Ptr.sparIntSet h m x y z v).2.blockData →
      some a ∈ m.blockData ∨ h.length ≤ a) := by
  unfold Ptr.sparIntSet
  simp only
  cases hd : ptrAt m.blockData
      (x / m.bs + m.mx * (y / m.bs + m.my * (z / m.bs))) with
  | none =>
    simp only
    split
    · obtain ⟨l1, l2⟩ := storeLoop_frame (calloc h m.bs3).2 0 m.bs3
        (fun _ _ => valueAt m.blockValue (x / m.bs + m.mx * (y / m.bs + m.my * (z / m.bs))))
        (calloc h m.bs3).1
      simp only [calloc] at l1 l2 ⊢
      refine ⟨?_, ?_, ?_⟩
      · rw [store_length, l1, List.length_append]; omega
      · intro a ha _
        rw [payloadAt_store_ne _ _ _ (by omega), l2 a (by omega), payloadAt_append_lt _ _ ha]
      · intro a ha
        rcases List.mem_or_eq_of_mem_set ha with h1 | h1
        · exact Or.inl h1
        · right
          simp only [Option.some.injEq] at h1
          omega
    · exact ⟨le_refl _, fun _ _ _ => rfl, fun _ ha => Or.inl ha⟩
  | some a0 =>
    simp only
    have hmem := ptrAt_mem hd
    split
    · refine ⟨by rw [store_length], ?_, ?_⟩
      · intro a _ hn
        exact payloadAt_store_ne _ _ _ (fun c => hn (c ▸ hmem))
      · intro a ha
        rcases List.mem_or_eq_of_mem_set ha with h1 | h1
        · exact Or.inl h1
        · simp at h1
    · refine ⟨by rw [store_length], ?_, fun _ ha => Or.inl ha⟩
      intro a _ hn
      exact payloadAt_store_ne _ _ _ (fun c => hn (c ▸ hmem))

theorem ptrAt_set (bd : List (Option Nat)) (n t : Nat) (a : Option Nat) :
    ptrAt (bd.set n a) t = if n = t ∧ t < bd.length then a else ptrAt bd t := by
  unfold ptrAt
  simp only [List.getD_eq_getElem?_getD, List.getElem?_set]
  by_cases h : n = t
  · subst h
    by_cases h2 : n < bd.length
    · simp [h2]
    · simp [h2, List.getElem?_eq_none (Nat.le_of_not_lt h2)]
  · simp [h]

theorem ptrAt_replicate_none (k n : Nat) : ptrAt (List.replicate k none) n = none := by
  unfold ptrAt
  rw [List.getD_eq_getElem?_getD, List.getElem?_replicate]
  split <;> rfl

theorem ptrInit_eq (nx ny nz bs : Nat) (d : Int)
    (hx : 0 < nx) (hy : 0 < ny) (hz : 0 < nz) (hb : 1 < bs) :
    Ptr.sparIntInit nx ny nz bs d = some (initMatrixP nx ny nz bs d) := by
  unfold Ptr.sparIntInit
  have h1 : ((nx : Int) > 0 ∧ (ny : Int) > 0 ∧ (nz : Int) > 0) := by omega
  have h2 : (bs : Int) > 1 := by omega
  rw [if_neg (not_not.mpr h1), if_neg (not_not.mpr h2)]
  simp only [ceil_toNat _ _ hx, ceil_toNat _ _ hy, ceil_toNat _ _ hz]
  have e := forLoop_pair 0 ((nx + bs - 1) / bs * ((ny + bs - 1) / bs) * ((nz + bs - 1) / bs))
    ((List.replicate ((nx + bs - 1) / bs * ((ny + bs - 1) / bs) * ((nz + bs - 1) / bs)) 0,
      List.replicate ((nx + bs - 1) / bs * ((ny + bs - 1) / bs) * ((nz + bs - 1) / bs)) none) :
      List Int × List (Option Nat))
    (fun l i => l.set i d) (fun l i => l.set i none)
  simp only at e
  rw [e, fillAll_eq _ d _ (by simp), fillAll_eq _ none _ (by simp)]
  have h3 : ((bs : Int) * bs * bs).toNat = bs * bs * bs := by
    rw [← Int.natCast_mul, ← Int.natCast_mul, Int.toNat_natCast]
  simp only [Int.toNat_natCast, h3]
  rfl

/-- The `memcpy` of the pointer-level `sparIntDuplicate`: the payload at the
fresh address `b` becomes a copy of the payload at `a`, nothing else
changes. -/
theorem memcpy_spec (g0 : Heap) (a b k : Nat) (hb : b < g0.length) (hne : a ≠ b)
    (hz : payloadAt g0 b = List.replicate k 0) (hlen : (payloadAt g0 a).length = k) :
    (forLoop 0 k g0 (fun g t => store g b t ((payloadAt g a).getD t 0))).length = g0.length ∧
    (∀ c, c ≠ b →
      payloadAt (forLoop 0 k g0 (fun g t => store g b t ((payloadAt g a).getD t 0))) c =
        payloadAt g0 c) ∧
    payloadAt (forLoop 0 k g0 (fun g t => store g b t ((payloadAt g a).getD t 0))) b =
      payloadAt g0 a := by
  obtain ⟨f1, f2⟩ := storeLoop_frame b 0 k (fun g t => (payloadAt g a).getD t 0) g0
  refine ⟨f1, f2, ?_⟩
  have hinv := forLoop_inv
    (fun n g => g.length = g0.length ∧ payloadAt g a = payloadAt g0 a ∧
      payloadAt g b = forLoop 0 n (List.replicate k (0 : Int))
        (fun q t => q.set t ((payloadAt g0 a).getD t 0)))
    0 k g0 (fun g t => store g b t ((payloadAt g a).getD t 0)) (Nat.zero_le _)
    ⟨rfl, rfl, by rw [forLoop_empty _ _ _ _ (le_refl _)]; exact hz⟩
    (by
      intro i g _ _ ⟨h1, h2, h3⟩
      refine ⟨by rw [store_length, h1], ?_, ?_⟩
      · rw [payloadAt_store_ne _ _ _ (Ne.symm hne), h2]
      · rw [payloadAt_store_eq _ _ _ (by rw [h1]; exact hb), h3, h2,
          forLoop_succ _ _ _ _ (Nat.zero_le _)])
  rw [hinv.2.2, copy_eq k _ hlen]

/-- One iteration of the block loop of the pointer-level `sparIntDuplicate`,
with `k` values per payload. -/
theorem DupInv_step (h : Heap) (m : sparIntP) (k : Nat)
    (hv : ∀ a, some a ∈ m.blockData → a < h.length ∧ (payloadAt h a).length = k)
    (i : Nat) (hi : i < m.mx * m.my * m.mz) (s : Heap × List Int × List (Option Nat))
    (hinv : DupInv h m i s) :
    DupInv h m (i + 1)
      (match ptrAt m.blockData i with
        | some a =>
          ((forLoop 0 k (calloc s.1 k).1
              (fun g t => store g (calloc s.1 k).2 t ((payloadAt g a).getD t 0))),
            s.2.1, s.2.2.set i (some (calloc s.1 k).2))
        | none => (s.1, s.2.1.set i (valueAt m.blockValue i), s.2.2.set i none)) := by
  obtain ⟨a1, a2, a3, a4, a5, a6⟩ := hinv
  cases hd : ptrAt m.blockData i with
  | none =>
    simp only
    refine ⟨a1, a2, by rw [List.length_set]; exact a3, by rw [List.length_set]; exact a4,
      ?_, ?_⟩
    · intro a ha
      rcases List.mem_or_eq_of_mem_set ha with h1 | h1
      · exact a5 a h1
      · simp at h1
    · intro t ht
      rw [ptrAt_set, valueAt_set, a3, a4]
      by_cases e : i = t
      · subst e
        rw [if_pos ⟨rfl, hi⟩, if_pos ⟨rfl, hi⟩]
        refine ⟨fun _ => ⟨fun _ => ⟨rfl, rfl⟩, fun a ha => ?_⟩, fun c => by omega⟩
        rw [hd] at ha
        simp at ha
      · rw [if_neg (fun c => e c.1), if_neg (fun c => e c.1)]
        exact ⟨fun c => (a6 t ht).1 (by omega), fun c => (a6 t ht).2 (by omega)⟩
  | some a =>
    simp only
    obtain ⟨v1, v2⟩ := hv a (ptrAt_mem hd)
    have hsrc : payloadAt (s.1 ++ [List.replicate k 0]) a = payloadAt h a := by
      rw [payloadAt_append_lt _ _ (by omega), a2 a v1]
    obtain ⟨c1, c2, c3⟩ := memcpy_spec (calloc s.1 k).1 a (calloc s.1 k).2 k
      (by simp [calloc]) (by simp only [calloc]; omega)
      (by simp only [calloc]; exact payloadAt_append_new _ _)
      (by simp only [calloc]; rw [hsrc]; exact v2)
    simp only [calloc] at c1 c2 c3 ⊢
    have hlen : (s.1 ++ [List.replicate k (0 : Int)]).length = s.1.length + 1 := by
      rw [List.length_append]; rfl
    refine ⟨by rw [c1, hlen]; omega, ?_, a3, by rw [List.length_set]; exact a4, ?_, ?_⟩
    · intro b hb
      rw [c2 b (by omega), payloadAt_append_lt _ _ (by omega), a2 b hb]
    · intro b hb
      rw [c1, hlen]
      rcases List.mem_or_eq_of_mem_set hb with h1 | h1
      · have := a5 b h1
        omega
      · simp only [Option.some.injEq] at h1
        omega
    · intro t ht
      rw [ptrAt_set, a4]
      by_cases e : i = t
      · subst e
        rw [if_pos ⟨rfl, hi⟩]
        refine ⟨fun _ => ⟨fun c => ?_, fun a' ha' => ?_⟩, fun c => by omega⟩
        · rw [hd] at c; simp at c
        · rw [hd] at ha'
          simp only [Option.some.injEq] at ha'
          subst ha'
          exact ⟨_, rfl, by rw [c3, hsrc], ((a6 i hi).2 (le_refl _)).2⟩
      · rw [if_neg (fun c => e c.1)]
        refine ⟨fun c => ?_, fun c => (a6 t ht).2 (by omega)⟩
        obtain ⟨p1, p2⟩ := (a6 t ht).1 (by omega)
        refine ⟨p1, fun a' ha' => ?_⟩
        obtain ⟨b, q1, q2, q3⟩ := p2 a' ha'
        have hb := a5 b (ptrAt_mem q1)
        exact ⟨b, q1, by rw [c2 b (by omega), payloadAt_append_lt _ _ hb.2, q2], q3⟩

theorem dataAt_deref (h : Heap) (bd : List (Option Nat)) (t : Nat) :
    dataAt (bd.map (fun o => o.map (payloadAt h))) t = (ptrAt bd t).map (payloadAt h) := by
  unfold dataAt ptrAt
  simp only [List.getD_eq_getElem?_getD, List.getElem?_map]
  cases bd[t]? <;> rfl

theorem ext_dataAt {l1 l2 : List (Option (List Int))} (hl : l1.length = l2.length)
    (h : ∀ t, t < l1.length → dataAt l1 t = dataAt l2 t) : l1 = l2 := by
  apply List.ext_getElem hl
  intro t h1 h2
  have := h t h1
  unfold dataAt at this
  simpa [List.getD_eq_getElem?_getD, List.getElem?_eq_getElem h1,
    List.getElem?_eq_getElem h2] using this

theorem ext_valueAt {l1 l2 : List Int} (hl : l1.length = l2.length)
    (h : ∀ t, t < l1.length → valueAt l1 t = valueAt l2 t) : l1 = l2 := by
  apply List.ext_getElem hl
  intro t h1 h2
  have := h t h1
  unfold valueAt at this
  simpa [List.getD_eq_getElem?_getD, List.getElem?_eq_getElem h1,
    List.getElem?_eq_getElem h2] using this

/-- The pointer-level `sparIntGet` reads what `sparIntGet` reads in the
matrix that the pointers stand for. -/
theorem ptrGet_deref (h : Heap) (m : sparIntP) (x y z : Nat) :
    Ptr.sparIntGet h m x y z = sparIntGet (deref h m) x y z := by
  unfold Ptr.sparIntGet sparIntGet deref
  simp only [dataAt_deref]
  cases ptrAt m.blockData (x / m.bs + m.mx * (y / m.bs + m.my * (z / m.bs))) <;> rfl

/-- Payloads that agree on the addresses held by a matrix give the same
matrix. -/
theorem deref_congr (g h : Heap) (m : sparIntP)
    (hc : ∀ a, some a ∈ m.blockData → payloadAt g a = payloadAt h a) :
    deref g m = deref h m := by
  unfold deref
  congr 1
  apply List.map_congr_left
  intro o ho
  cases o with
  | none => rfl
  | some a => simp only [Option.map_some']; rw [hc a ho]

theorem deref_valid {h : Heap} {m : sparIntP} (hwf : WF (deref h m)) :
    ∀ a, some a ∈ m.blockData → (payloadAt h a).length = m.bs3 := by
  intro a ha
  refine hwf.payloads (some (payloadAt h a)) ?_ _ rfl
  simp only [deref, List.mem_map]
  exact ⟨some a, ha, rfl⟩

/-- The pointer-level `sparIntDuplicate` returns a heap and a matrix that
satisfy the invariant of its block loop after the last block. -/
theorem ptrDuplicate_spec (h : Heap) (m : sparIntP) (hwf : WF (deref h m))
    (hv : ∀ a, some a ∈ m.blockData → a < h.length) :
    ∃ g B, Ptr.sparIntDuplicate h m = some (g, B) ∧
      DupInv h m (m.mx * m.my * m.mz) (g, B.blockValue, B.blockData) ∧
      B.nx = m.nx ∧ B.ny = m.ny ∧ B.nz = m.nz ∧ B.bs = m.bs ∧ B.bs3 = m.bs3 ∧
      B.mx = m.mx ∧ B.my = m.my ∧ B.mz = m.mz ∧ B.def_ = m.def_ := by
  have hw := hwf
  unfold WF at hw
  obtain ⟨w1, w2, w3, w4, w5, w6, w7, w8, w9, w10, _⟩ := hw
  simp only [deref, List.length_map] at w1 w2 w3 w4 w5 w6 w7 w8 w9 w10
  have hpay := deref_valid hwf
  unfold Ptr.sparIntDuplicate
  rw [ptrInit_eq m.nx m.ny m.nz m.bs m.def_ w1 w2 w3 w4]
  simp only
  have hB : (initMatrixP m.nx m.ny m.nz m.bs m.def_).mx *
      (initMatrixP m.nx m.ny m.nz m.bs m.def_).my *
      (initMatrixP m.nx m.ny m.nz m.bs m.def_).mz = m.mx * m.my * m.mz := by
    simp only [initMatrixP]; rw [← w6, ← w7, ← w8]
  rw [hB]
  have h0 : DupInv h m 0 (h, (initMatrixP m.nx m.ny m.nz m.bs m.def_).blockValue,
      (initMatrixP m.nx m.ny m.nz m.bs m.def_).blockData) := by
    refine ⟨le_refl _, fun _ _ => rfl, ?_, ?_, ?_, ?_⟩
    · simp only [initMatrixP, List.length_replicate]; rw [← w6, ← w7, ← w8]
    · simp only [initMatrixP, List.length_replicate]; rw [← w6, ← w7, ← w8]
    · intro a ha
      simp only [initMatrixP] at ha
      have := (List.mem_replicate.mp ha).2
      simp at this
    · intro t ht
      refine ⟨fun c => absurd c (Nat.not_lt_zero _), fun _ => ?_⟩
      simp only [initMatrixP]
      rw [← w6, ← w7, ← w8]
      exact ⟨ptrAt_replicate_none _ _, valueAt_replicate _ _ _ ht⟩
  have hinv := forLoop_inv (fun n s => DupInv h m n s) 0 (m.mx * m.my * m.mz) _ _
    (Nat.zero_le _) h0
    (fun i s _ hi hs => DupInv_step h m (initMatrixP m.nx m.ny m.nz m.bs m.def_).bs3
      (fun a ha => ⟨hv a ha, by rw [hpay a ha, w5]; rfl⟩) i hi s hs)
  exact ⟨_, _, rfl, hinv, rfl, rfl, rfl, rfl, w5.symm, w6.symm, w7.symm, w8.symm, rfl⟩

/-- The original matrix stands for the same matrix after the pointer-level
`sparIntDuplicate`. -/
theorem DupInv.original {h g : Heap} {m : sparIntP} {n : Nat} {bv : List Int}
    {bd : List (Option Nat)} (hinv : DupInv h m n (g, bv, bd))
    (hv : ∀ a, some a ∈ m.blockData → a < h.length) : deref g m = deref h m :=
  deref_congr g h m (fun a ha => hinv.2.1 a (hv a ha))

/-- The heap effects of a sequence of pointer-level `sparIntSet` calls on a
matrix whose payloads lie below `lo` or from `hi` on: the payloads at the
addresses from `lo` to `hi` are not changed. -/
theorem setAll_frame (lo hi : Nat) (ops : List (Nat × Nat × Nat × Int)) :
    ∀ (g : Heap) (A : sparIntP), hi ≤ g.length →
      (∀ a, some a ∈ A.blockData → a < lo ∨ hi ≤ a) →
      ∀ a, lo ≤ a → a < hi → payloadAt (Ptr.setAll g A ops).1 a = payloadAt g a := by
  induction ops with
  | nil => intro g A _ _ a _ _; rfl
  | cons o ops ih =>
    intro g A hg hA a h1 h2
    obtain ⟨f1, f2, f3⟩ := Ptr.sparIntSet_frame g A o.1 o.2.1 o.2.2.1 o.2.2.2
    have e : Ptr.setAll g A (o :: ops) =
        Ptr.setAll (Ptr.sparIntSet g A o.1 o.2.1 o.2.2.1 o.2.2.2).1
          (Ptr.sparIntSet g A o.1 o.2.1 o.2.2.1 o.2.2.2).2 ops := rfl
    rw [e, ih _ _ (le_trans hg f1) (fun b hb => by
      rcases f3 b hb with c | c
      · exact hA b c
      · right; omega) a h1 h2]
    exact f2 a (by omega) (fun c => by
      rcases hA a c with c2 | c2 <;> omega)

/-- Two matrices with the same fields, the same payloads and the same values
in the uniform blocks read the same. -/
theorem get_congr_blocks {r m : sparInt} (hm : WF m) (hs : SameShape r m)
    (hbd : r.blockData = m.blockData)
    (hv : ∀ t, t < m.mx * m.my * m.mz → dataAt m.blockData t = none →
      valueAt r.blockValue t = valueAt m.blockValue t)
    {x y z : Nat} (hr : InRange m x y z) : sparIntGet r x y z = sparIntGet m x y z := by
  have e1 : blockIndex r x y z = blockIndex m x y z := by
    unfold blockIndex; rw [hs.2.2.2.1, hs.2.2.2.2.2.1, hs.2.2.2.2.2.2.1]
  have e2 : blockOffset r x y z = blockOffset m x y z := by
    unfold blockOffset; rw [hs.2.2.2.1]
  rw [sparIntGet_eq, sparIntGet_eq, e1, e2, hbd]
  cases hd : dataAt m.blockData (blockIndex m x y z) with
  | none => exact hv _ (blockIndex_lt hm hr) hd
  | some p => rfl

theorem memory_congr_blocks (sz : Sizeof) {r m : sparInt} (hs : SameShape r m)
    (hbd : r.blockData = m.blockData) : sparIntMemory sz r = sparIntMemory sz m := by
  unfold sparIntMemory
  rw [hs.2.2.2.2.1, hs.2.2.2.2.2.1, hs.2.2.2.2.2.2.1, hs.2.2.2.2.2.2.2.1, hbd]

/-- The pointer-level `sparIntDuplicate` computes the copy that
`sparIntDuplicate` computes on the matrix the pointers stand for. -/
theorem ptrDuplicate_refines {h g : Heap} {A B : sparIntP} (hwf : WF (deref h A))
    (hinv : DupInv h A (A.mx * A.my * A.mz) (g, B.blockValue, B.blockData))
    (hf : B.nx = A.nx ∧ B.ny = A.ny ∧ B.nz = A.nz ∧ B.bs = A.bs ∧ B.bs3 = A.bs3 ∧
      B.mx = A.mx ∧ B.my = A.my ∧ B.mz = A.mz ∧ B.def_ = A.def_) :
    sparIntDuplicate (deref h A) = some (deref g B) := by
  obtain ⟨r, hr, rwf, rs, rbd, rv1, rv2⟩ := sparIntDuplicate_spec hwf
  obtain ⟨a1, a2, a3, a4, a5, a6⟩ := hinv
  simp only at a1 a2 a3 a4 a5 a6
  obtain ⟨f1, f2, f3, f4, f5, f6, f7, f8, f9⟩ := hf
  obtain ⟨s1, s2, s3, s4, s5, s6, s7, s8, s9⟩ := rs
  obtain ⟨l1, l2⟩ := rwf.lengths
  rw [s6, s7, s8] at l1 l2
  have hB : (deref h A).mx * (deref h A).my * (deref h A).mz = A.mx * A.my * A.mz := rfl
  rw [hB] at l1 l2 rv1 rv2
  have e1 : r.blockValue = B.blockValue := by
    apply ext_valueAt (by rw [l1, a3])
    intro t ht
    rw [l1] at ht
    cases hd : ptrAt A.blockData t with
    | none =>
      rw [rv1 t ht (by show dataAt (deref h A).blockData t = none
                       simp only [deref]; rw [dataAt_deref, hd]; rfl),
        (((a6 t ht).1 ht).1 hd).2]
      rfl
    | some a =>
      obtain ⟨b, _, _, q3⟩ := ((a6 t ht).1 ht).2 a hd
      rw [rv2 t ht (by show dataAt (deref h A).blockData t ≠ none
                       simp only [deref]; rw [dataAt_deref, hd]; simp), q3]
      rfl
  have hA : A.blockData.length = A.mx * A.my * A.mz := by
    rw [rbd] at l2
    simpa [deref] using l2
  have e2 : r.blockData = B.blockData.map (fun o => o.map (payloadAt g)) := by
    rw [rbd]
    simp only [deref]
    apply ext_dataAt (by rw [List.length_map, List.length_map, a4, hA])
    intro t ht
    have ht2 : t < A.mx * A.my * A.mz := by
      rw [List.length_map, hA] at ht; exact ht
    rw [dataAt_deref, dataAt_deref]
    cases hd : ptrAt A.blockData t with
    | none => rw [(((a6 t ht2).1 ht2).1 hd).1]; rfl
    | some a =>
      obtain ⟨b, q1, q2, _⟩ := ((a6 t ht2).1 ht2).2 a hd
      rw [q1]
      simp only [Option.map_some', q2]
  rw [hr]
  congr 1
  cases r
  simp only [deref, sparInt.mk.injEq] at *
  exact ⟨s1.trans f1.symm, s2.trans f2.symm, s3.trans f3.symm, s4.trans f4.symm,
    s5.trans f5.symm, s6.trans f6.symm, s7.trans f7.symm, s8.trans f8.symm, e1, e2,
    s9.trans f9.symm⟩

/-! ## Selection of the block size -/

theorem candidates_getD (t : Nat) (ht : t < 6) :
    ([2, 3, 4, 6, 8, 10, 0, 0, 0, 0] : List Nat).getD t 0 =
      ([2, 3, 4, 6, 8, 10] : List Nat).getD t 0 := by
  interval_cases t <;> rfl

/-- The selection loop of `sparIntOptimizeBs` for an arbitrary cost `f`: the
selected candidate is the first candidate of least cost. -/
theorem select_spec (f : Nat → Nat) :
    ∃ i, i < 6 ∧
      forLoop 1 6 (([2, 3, 4, 6, 8, 10, 0, 0, 0, 0] : List Nat).getD 0 0,
          f (([2, 3, 4, 6, 8, 10, 0, 0, 0, 0] : List Nat).getD 0 0))
        (fun r t =>
          if f (([2, 3, 4, 6, 8, 10, 0, 0, 0, 0] : List Nat).getD t 0) < r.2 then
            (([2, 3, 4, 6, 8, 10, 0, 0, 0, 0] : List Nat).getD t 0,
              f (([2, 3, 4, 6, 8, 10, 0, 0, 0, 0] : List Nat).getD t 0))
          else r) =
        (([2, 3, 4, 6, 8, 10] : List Nat).getD i 0,
          f (([2, 3, 4, 6, 8, 10] : List Nat).getD i 0)) ∧
      (∀ j, j < 6 → f (([2, 3, 4, 6, 8, 10] : List Nat).getD i 0) ≤
        f (([2, 3, 4, 6, 8, 10] : List Nat).getD j 0)) ∧
      (∀ j, j < i → f (([2, 3, 4, 6, 8, 10] : List Nat).getD i 0) <
        f (([2, 3, 4, 6, 8, 10] : List Nat).getD j 0)) := by
  have hinv := forLoop_inv
    (fun n (r : Nat × Nat) => ∃ i, i < n ∧
      r = (([2, 3, 4, 6, 8, 10] : List Nat).getD i 0,
        f (([2, 3, 4, 6, 8, 10] : List Nat).getD i 0)) ∧
      (∀ j, j < n → f (([2, 3, 4, 6, 8, 10] : List Nat).getD i 0) ≤
        f (([2, 3, 4, 6, 8, 10] : List Nat).getD j 0)) ∧
      (∀ j, j < i → f (([2, 3, 4, 6, 8, 10] : List Nat).getD i 0) <
        f (([2, 3, 4, 6, 8, 10] : List Nat).getD j 0)))
    1 6 (([2, 3, 4, 6, 8, 10, 0, 0, 0, 0] : List Nat).getD 0 0,
          f (([2, 3, 4, 6, 8, 10, 0, 0, 0, 0] : List Nat).getD 0 0))
    (fun r t =>
          if f (([2, 3, 4, 6, 8, 10, 0, 0, 0, 0] : List Nat).getD t 0) < r.2 then
            (([2, 3, 4, 6, 8, 10, 0, 0, 0, 0] : List Nat).getD t 0,
              f (([2, 3, 4, 6, 8, 10, 0, 0, 0, 0] : List Nat).getD t 0))
          else r)
    (by decide)
    ⟨0, by decide, rfl, fun j hj => by
      have : j = 0 := by omega
      subst this; exact le_refl _, fun j hj => absurd hj (Nat.not_lt_zero _)⟩
    (by
      rintro t r h1 h2 ⟨i, hi, rfl, hmin, hfirst⟩
      simp only
      rw [candidates_getD t h2]
      by_cases hlt : f (([2, 3, 4, 6, 8, 10] : List Nat).getD t 0) <
          f (([2, 3, 4, 6, 8, 10] : List Nat).getD i 0)
      · rw [if_pos hlt]
        refine ⟨t, by omega, rfl, fun j hj => ?_, fun j hj => ?_⟩
        · by_cases e : j = t
          · subst e; exact le_refl _
          · exact le_of_lt (lt_of_lt_of_le hlt (hmin j (by omega)))
        · exact lt_of_lt_of_le hlt (hmin j hj)
      · rw [if_neg hlt]
        refine ⟨i, by omega, rfl, fun j hj => ?_, hfirst⟩
        by_cases e : j = t
        · subst e; exact Nat.le_of_not_lt hlt
        · exact hmin j (by omega))
  obtain ⟨i, hi, he, hmin, hfirst⟩ := hinv
  exact ⟨i, hi, he, hmin, hfirst⟩

theorem candidates_gt_one (i : Nat) (hi : i < 6) :
    1 < ([2, 3, 4, 6, 8, 10] : List Nat).getD i 0 := by
  interval_cases i <;> decide

/-- What `sparIntOptimizeBs` returns on a well-formed matrix: the result of
`sparIntChangeBs` for the first candidate of least `sparIntMemoryBs`. -/
theorem sparIntOptimizeBs_spec (sz : Sizeof) {m : sparInt} (hm : WF m) :
    ∃ i, i < 6 ∧
      sparIntOptimizeBs sz m =
        sparIntChangeBs m (([2, 3, 4, 6, 8, 10] : List Nat).getD i 0) ∧
      (∀ j, j < 6 → sparIntMemoryBs sz m (([2, 3, 4, 6, 8, 10] : List Nat).getD i 0) ≤
        sparIntMemoryBs sz m (([2, 3, 4, 6, 8, 10] : List Nat).getD j 0)) ∧
      (∀ j, j < i → sparIntMemoryBs sz m (([2, 3, 4, 6, 8, 10] : List Nat).getD i 0) <
        sparIntMemoryBs sz m (([2, 3, 4, 6, 8, 10] : List Nat).getD j 0)) ∧
      ∃ r, sparIntOptimizeBs sz m = some r ∧ WF r ∧
        r.nx = m.nx ∧ r.ny = m.ny ∧ r.nz = m.nz ∧ r.def_ = m.def_ ∧
        r.bs = ([2, 3, 4, 6, 8, 10] : List Nat).getD i 0 ∧
        ∀ x y z, InRange m x y z → sparIntGet r x y z = sparIntGet m x y z := by
  obtain ⟨i, hi, he, hmin, hfirst⟩ := select_spec (sparIntMemoryBs sz m)
  have e : sparIntOptimizeBs sz m =
      sparIntChangeBs m (([2, 3, 4, 6, 8, 10] : List Nat).getD i 0) := by
    unfold sparIntOptimizeBs
    simp only
    rw [he]
  obtain ⟨r, h1, h2⟩ := sparIntChangeBs_spec hm _ (candidates_gt_one i hi)
  exact ⟨i, hi, e, hmin, hfirst, r, by rw [e, h1], h2⟩

/-! ## Memory -/

/-- The loop of `sparIntMemory` adds `K` for every heterogeneous block among
the first `n` blocks. -/
theorem memLoop_count (l : List (Option (List Int))) (K s : Nat) :
    ∀ n, n ≤ l.length →
      forLoop 0 n s (fun t i => if dataAt l i ≠ none then t + K else t) =
        s + ((l.take n).filter (fun o => o.isSome)).length * K := by
  intro n
  induction n with
  | zero => intro _; rw [forLoop_empty _ _ _ _ (le_refl _)]; simp
  | succ n ih =>
    intro hn
    have hlt : n < l.length := by omega
    rw [forLoop_succ _ _ _ _ (Nat.zero_le _), ih (by omega), List.take_succ,
      List.filter_append, List.length_append, List.getElem?_eq_getElem hlt]
    have hd : dataAt l n = l[n] := by
      unfold dataAt
      rw [List.getD_eq_getElem?_getD, List.getElem?_eq_getElem hlt]; rfl
    simp only [hd, Option.toList_some]
    cases l[n] with
    | none => simp
    | some p => simp [Nat.add_mul, Nat.add_assoc]

/-- The value of `sparIntMemory` on a matrix whose `blockData` has one entry
per block. -/
theorem sparIntMemory_eq (sz : Sizeof) (m : sparInt)
    (hl : m.blockData.length = m.mx * m.my * m.mz) :
    sparIntMemory sz m =
      sz.szStruct + m.mx * m.my * m.mz * sz.szInt + m.mx * m.my * m.mz * sz.szPtr +
        (m.blockData.filter (fun o => o.isSome)).length * (sz.szInt * m.bs3) := by
  unfold sparIntMemory
  simp only
  rw [memLoop_count _ _ _ _ (le_of_eq hl.symm), ← hl, List.take_length]

theorem sparIntMemoryBs_eq (sz : Sizeof) (m : sparInt) (bs : Nat) :
    sparIntMemoryBs sz m bs =
      if bs = m.bs then sparIntMemory sz m
      else costBs sz m.nx m.ny m.nz bs (sparIntGet m) := rfl

theorem forLoop_congr {σ : Type} (lo hi : Nat) (s : σ) (f g : σ → Nat → σ)
    (h : ∀ i t, lo ≤ i → i < hi → f t i = g t i) : forLoop lo hi s f = forLoop lo hi s g := by
  by_cases hle : lo ≤ hi
  · exact forLoop_inv (fun n t => t = forLoop lo n s g) lo hi s f hle
      (by simp only; rw [forLoop_empty _ _ _ _ (le_refl _)])
      (by
        intro i t h1 h2 h3
        subst h3
        rw [forLoop_succ _ _ _ _ h1, h i _ h1 h2])
  · rw [forLoop_empty _ _ _ _ (by omega), forLoop_empty _ _ _ _ (by omega)]

theorem ceil_origin {i n bs : Nat} (hbs : 0 < bs) (h : i < (n + bs - 1) / bs) : i * bs < n := by
  have h1 : (i + 1) * bs ≤ n + bs - 1 := (Nat.le_div_iff_mul_le hbs).mp h
  rw [Nat.add_mul, Nat.one_mul] at h1
  omega

/-- The virtual block test of `sparIntMemoryBs` answers 1 exactly when every
position of the block inside the sizes reads like the first position of the
block. -/
theorem virtualUniform_iff (g : Nat → Nat → Nat → Int) (nx ny nz bs i1 j1 k1 : Nat) :
    virtualUniform g nx ny nz bs i1 j1 k1 = true ↔
      ∀ i j k, i < bs → j < bs → k < bs →
        i1 * bs + i < nx → j1 * bs + j < ny → k1 * bs + k < nz →
        g (i1 * bs + i) (j1 * bs + j) (k1 * bs + k) = g (i1 * bs) (j1 * bs) (k1 * bs) := by
  unfold virtualUniform
  simp only [List.all_eq_true, List.mem_range'_1]
  constructor
  · intro h i j k hi hj hk hx hy hz
    have h1 := h (k1 * bs + k) ⟨by omega, by omega⟩
    rw [if_pos hz, List.all_eq_true] at h1
    have h2 := h1 (j1 * bs + j) (List.mem_range'_1.mpr ⟨by omega, by omega⟩)
    rw [if_pos hy, List.all_eq_true] at h2
    have h3 := h2 (i1 * bs + i) (List.mem_range'_1.mpr ⟨by omega, by omega⟩)
    rw [if_pos hx] at h3
    simpa using h3
  · intro h k hk
    split
    · rename_i hz
      rw [List.all_eq_true]
      intro j hj
      rw [List.mem_range'_1] at hj
      split
      · rename_i hy
        rw [List.all_eq_true]
        intro i hi
        rw [List.mem_range'_1] at hi
        split
        · rename_i hx
          have := h (i - i1 * bs) (j - j1 * bs) (k - k1 * bs) (by omega) (by omega) (by omega)
            (by omega) (by omega) (by omega)
          rw [show i1 * bs + (i - i1 * bs) = i by omega,
            show j1 * bs + (j - j1 * bs) = j by omega,
            show k1 * bs + (k - k1 * bs) = k by omega] at this
          simpa using this
        · rfl
      · rfl
    · rfl

/-- The cost under another block size only depends on the reads inside the
sizes. -/
theorem costBs_congr (sz : Sizeof) (nx ny nz bs : Nat) (g g2 : Nat → Nat → Nat → Int)
    (hbs : 0 < bs) (h : ∀ x y z, x < nx → y < ny → z < nz → g x y z = g2 x y z) :
    costBs sz nx ny nz bs g = costBs sz nx ny nz bs g2 := by
  unfold costBs
  apply forLoop_congr
  intro k1 s _ hk
  apply forLoop_congr
  intro j1 s _ hj
  apply forLoop_congr
  intro i1 s _ hi
  have hx := ceil_origin hbs hi
  have hy := ceil_origin hbs hj
  have hz := ceil_origin hbs hk
  have e : virtualUniform g nx ny nz bs i1 j1 k1 = virtualUniform g2 nx ny nz bs i1 j1 k1 := by
    rw [Bool.eq_iff_iff, virtualUniform_iff, virtualUniform_iff]
    constructor
    · intro h1 i j k a1 a2 a3 a4 a5 a6
      rw [← h _ _ _ a4 a5 a6, ← h _ _ _ hx hy hz]
      exact h1 i j k a1 a2 a3 a4 a5 a6
    · intro h1 i j k a1 a2 a3 a4 a5 a6
      rw [h _ _ _ a4 a5 a6, h _ _ _ hx hy hz]
      exact h1 i j k a1 a2 a3 a4 a5 a6
  rw [e]

theorem forLoop_shift (lo hi : Nat) (f : Nat → Nat → Nat) (s c : Nat)
    (hf : ∀ t i, f (t + c) i = f t i + c) :
    forLoop lo hi (s + c) f = forLoop lo hi s f + c := by
  by_cases hle : lo ≤ hi
  · exact forLoop_inv (fun n t => t = forLoop lo n s f + c) lo hi (s + c) f hle
      (by simp only; rw [forLoop_empty _ _ _ _ (le_refl _)])
      (by
        intro i t h1 h2 h3
        subst h3
        rw [forLoop_succ _ _ _ _ h1, hf])
  · rw [forLoop_empty _ _ _ _ (by omega), forLoop_empty _ _ _ _ (by omega)]

/-- The header size is a summand of the cost. -/
theorem costBs_header (hdr a b nx ny nz bs : Nat) (g : Nat → Nat → Nat → Int) :
    costBs ⟨hdr, a, b⟩ nx ny nz bs g = costBs ⟨0, a, b⟩ nx ny nz bs g + hdr := by
  unfold costBs
  simp only
  rw [show hdr + (nx + bs - 1) / bs * ((ny + bs - 1) / bs) * ((nz + bs - 1) / bs) * a +
      (nx + bs - 1) / bs * ((ny + bs - 1) / bs) * ((nz + bs - 1) / bs) * b =
      (0 + (nx + bs - 1) / bs * ((ny + bs - 1) / bs) * ((nz + bs - 1) / bs) * a +
      (nx + bs - 1) / bs * ((ny + bs - 1) / bs) * ((nz + bs - 1) / bs) * b) + hdr by omega]
  apply forLoop_shift
  intro t k1
  apply forLoop_shift
  intro t j1
  apply forLoop_shift
  intro t i1
  split <;> omega

theorem optScene_WF : WF optScene :=
  sparIntSet_WF (initMatrix_WF 12 12 12 8 0 (by decide) (by decide) (by decide) (by decide))
    5 5 5 1

theorem optScene_get (x y z : Nat) (hx : x < 12) (hy : y < 12) (hz : z < 12) :
    sparIntGet optScene x y z = onePoint x y z := by
  have hwf := initMatrix_WF 12 12 12 8 0 (by decide) (by decide) (by decide) (by decide)
  unfold optScene onePoint
  rw [get_set hwf 1 (show InRange (initMatrix 12 12 12 8 0) 5 5 5 by decide)
    (show InRange (initMatrix 12 12 12 8 0) x y z from ⟨hx, hy, hz⟩)]
  by_cases e : x = 5 ∧ y = 5 ∧ z = 5
  · rw [if_pos e, if_pos e]
  · rw [if_neg e, if_neg e]
    exact get_all_uniform hwf 0 rfl rfl ⟨hx, hy, hz⟩

set_option maxRecDepth 1000000 in
theorem onePoint_costs :
    costBs ⟨0, 4, 8⟩ 12 12 12 2 onePoint = 2624 ∧
    costBs ⟨0, 4, 8⟩ 12 12 12 3 onePoint = 876 ∧
    costBs ⟨0, 4, 8⟩ 12 12 12 4 onePoint = 580 ∧
    costBs ⟨0, 4, 8⟩ 12 12 12 6 onePoint = 960 ∧
    costBs ⟨0, 4, 8⟩ 12 12 12 10 onePoint = 4096 := by
  refine ⟨by decide, by decide, by decide, by decide, by decide⟩

/-- The values of `sparIntMemoryBs` in the scenario `OptimizeBs reduces`, for
`sizeof(int) = 4`, pointers of 8 bytes and any header size. -/
theorem optScene_costs (hdr : Nat) :
    sparIntMemoryBs ⟨hdr, 4, 8⟩ optScene 2 = hdr + 2624 ∧
    sparIntMemoryBs ⟨hdr, 4, 8⟩ optScene 3 = hdr + 876 ∧
    sparIntMemoryBs ⟨hdr, 4, 8⟩ optScene 4 = hdr + 580 ∧
    sparIntMemoryBs ⟨hdr, 4, 8⟩ optScene 6 = hdr + 960 ∧
    sparIntMemoryBs ⟨hdr, 4, 8⟩ optScene 8 = hdr + 2144 ∧
    sparIntMemoryBs ⟨hdr, 4, 8⟩ optScene 10 = hdr + 4096 := by
  have hbs : optScene.bs = 8 := by decide
  have hx : optScene.nx = 12 := by decide
  have hy : optScene.ny = 12 := by decide
  have hz : optScene.nz = 12 := by decide
  have key : ∀ c, c ≠ 8 → 0 < c →
      sparIntMemoryBs ⟨hdr, 4, 8⟩ optScene c = costBs ⟨0, 4, 8⟩ 12 12 12 c onePoint + hdr := by
    intro c hc hpos
    rw [sparIntMemoryBs_eq, hbs, if_neg hc, hx, hy, hz, costBs_header,
      costBs_congr _ _ _ _ _ _ onePoint hpos optScene_get]
  obtain ⟨c2, c3, c4, c6, c10⟩ := onePoint_costs
  refine ⟨?_, ?_, ?_, ?_, ?_, ?_⟩
  · rw [key 2 (by decide) (by decide), c2]; omega
  · rw [key 3 (by decide) (by decide), c3]; omega
  · rw [key 4 (by decide) (by decide), c4]; omega
  · rw [key 6 (by decide) (by decide), c6]; omega
  · rw [sparIntMemoryBs_eq, hbs, if_pos rfl, sparIntMemory_eq _ _ optScene_WF.lengths.2]
    have h1 : optScene.mx * optScene.my * optScene.mz = 8 := by decide
    have h2 : (optScene.blockData.filter (fun o => o.isSome)).length = 1 := by decide
    have h3 : optScene.bs3 = 512 := by decide
    rw [h1, h2, h3]
    show hdr + 8 * 4 + 8 * 8 + 1 * (4 * 512) = hdr + 2144
    omega
  · rw [key 10 (by decide) (by decide), c10]; omega

/-- In the scenario `OptimizeBs reduces` the selected block size is 4. -/
theorem optScene_selected (hdr : Nat) :
    ∃ r, sparIntOptimizeBs ⟨hdr, 4, 8⟩ optScene = some r ∧ r.bs = 4 := by
  obtain ⟨c2, c3, c4, c6, c8, c10⟩ := optScene_costs hdr
  obtain ⟨i, hi, _, hmin, _, r, h1, _, _, _, _, _, h2, _⟩ :=
    sparIntOptimizeBs_spec ⟨hdr, 4, 8⟩ optScene_WF
  refine ⟨r, h1, ?_⟩
  rw [h2]
  have h4 := hmin 2 (by decide)
  have e4 : ([2, 3, 4, 6, 8, 10] : List Nat).getD 2 0 = 4 := rfl
  rw [e4, c4] at h4
  interval_cases i
  · rw [show ([2, 3, 4, 6, 8, 10] : List Nat).getD 0 0 = 2 from rfl, c2] at h4; omega
  · rw [show ([2, 3, 4, 6, 8, 10] : List Nat).getD 1 0 = 3 from rfl, c3] at h4; omega
  · rfl
  · rw [show ([2, 3, 4, 6, 8, 10] : List Nat).getD 3 0 = 6 from rfl, c6] at h4; omega
  · rw [show ([2, 3, 4, 6, 8, 10] : List Nat).getD 4 0 = 8 from rfl, c8] at h4; omega
  · rw [show ([2, 3, 4, 6, 8, 10] : List Nat).getD 5 0 = 10 from rfl, c10] at h4; omega

theorem optScene_built :
    (sparIntInit 12 12 12 8 0).map (fun m => sparIntSet m 5 5 5 1) = some optScene := by
  have e := sparIntInit_eq 12 12 12 8 0 (by decide) (by decide) (by decide) (by decide)
  simp only [Nat.cast_ofNat] at e
  rw [e]
  rfl

/-! ## Completeness of the uniformity test -/

theorem sparIntUniformBlock_eq (m : sparInt) (x y z : Nat) :
    sparIntUniformBlock m x y z =
      match dataAt m.blockData (x + m.mx * (y + m.my * z)) with
      | none => true
      | some p =>
        if x < m.mx - 1 ∧ y < m.my - 1 ∧ z < m.mz - 1 then uniformInner m.bs3 p
        else uniformBoundary m x y z p := rfl

theorem uniformInner_iff (bs3 : Nat) (p : List Int) :
    uniformInner bs3 p = true ↔ ∀ t, t < bs3 → p.getD t 0 = p.getD (bs3 - 1) 0 := by
  unfold uniformInner
  simp only [List.all_eq_true, List.mem_range, beq_iff_eq]

theorem uniformBoundary_iff (m : sparInt) (x y z : Nat) (p : List Int) :
    uniformBoundary m x y z p = true ↔
      ∀ i j k, i < m.bs → j < m.bs → k < m.bs → posInside m x y z i j k →
        p.getD (i + m.bs * (j + m.bs * k)) 0 = p.getD 0 0 := by
  unfold uniformBoundary posInside
  simp only [List.all_eq_true, List.mem_range]
  constructor
  · intro h i j k hi hj hk ⟨hx, hy, hz⟩
    have h1 := h k hk
    rw [if_pos hz, List.all_eq_true] at h1
    have h2 := h1 j (List.mem_range.mpr hj)
    rw [if_pos hy, List.all_eq_true] at h2
    have h3 := h2 i (List.mem_range.mpr hi)
    rw [if_pos hx] at h3
    simpa using h3
  · intro h k hk
    split
    · rename_i hz
      rw [List.all_eq_true]
      intro j hj
      split
      · rename_i hy
        rw [List.all_eq_true]
        intro i hi
        split
        · rename_i hx
          simpa using h i j k (List.mem_range.mp hi) (List.mem_range.mp hj) hk ⟨hx, hy, hz⟩
        · rfl
      · rfl
    · rfl

theorem offset_decompose {bs t : Nat} (ht : t < bs * bs * bs) :
    ∃ i j k, i < bs ∧ j < bs ∧ k < bs ∧ t = i + bs * (j + bs * k) := by
  have hbs : 0 < bs := by
    rcases Nat.eq_zero_or_pos bs with h | h
    · subst h; simp at ht
    · exact h
  refine ⟨t % bs, t / bs % bs, t / bs / bs, Nat.mod_lt _ hbs, Nat.mod_lt _ hbs, ?_, ?_⟩
  · rw [Nat.div_div_eq_div_mul, Nat.div_lt_iff_lt_mul (Nat.mul_pos hbs hbs)]
    rw [← Nat.mul_assoc]; exact ht
  · have h1 := Nat.div_add_mod t bs
    have h2 := Nat.div_add_mod (t / bs) bs
    rw [Nat.add_comm (t / bs % bs), h2]
    omega

/-- The positions of a block before the last block row of every axis are all
inside the matrix. -/
theorem inner_all_inside {m : sparInt} (hm : WF m) {i1 j1 k1 : Nat}
    (hin : i1 < m.mx - 1 ∧ j1 < m.my - 1 ∧ k1 < m.mz - 1) (i j k : Nat)
    (hi : i < m.bs) (hj : j < m.bs) (hk : k < m.bs) : posInside m i1 j1 k1 i j k := by
  have hbs := hm.bs_pos
  unfold WF at hm
  obtain ⟨_, _, _, _, _, hx, hy, hz, _⟩ := hm
  have a1 : (i1 + 1) * m.bs < m.nx := ceil_origin hbs (by rw [← hx]; omega)
  have a2 : (j1 + 1) * m.bs < m.ny := ceil_origin hbs (by rw [← hy]; omega)
  have a3 : (k1 + 1) * m.bs < m.nz := ceil_origin hbs (by rw [← hz]; omega)
  rw [Nat.add_mul, Nat.one_mul] at a1 a2 a3
  unfold posInside
  omega

theorem uniformInner_allEq {m : sparInt} (hm : WF m) {i1 j1 k1 : Nat} (p : List Int)
    (hall : ∀ i j k, i < m.bs → j < m.bs → k < m.bs → posInside m i1 j1 k1 i j k) :
    uniformInner m.bs3 p = true ↔ AllEq m i1 j1 k1 p := by
  have hbs := hm.bs_pos
  have hbs3 : m.bs3 = m.bs * m.bs * m.bs := by unfold WF at hm; exact hm.2.2.2.2.1
  rw [uniformInner_iff]
  constructor
  · intro h i j k i' j' k' hi hj hk hi' hj' hk' _ _
    have e1 := h _ (by rw [hbs3]; exact lin3_lt hi hj hk)
    have e2 := h _ (by rw [hbs3]; exact lin3_lt hi' hj' hk')
    rw [e1, e2]
  · intro h t ht
    have hpos : 0 < m.bs3 := by omega
    obtain ⟨i, j, k, hi, hj, hk, rfl⟩ := offset_decompose (hbs3 ▸ ht)
    obtain ⟨i', j', k', hi', hj', hk', e⟩ :=
      offset_decompose (show m.bs3 - 1 < m.bs * m.bs * m.bs by omega)
    rw [e]
    exact h i j k i' j' k' hi hj hk hi' hj' hk' (hall i j k hi hj hk) (hall i' j' k' hi' hj' hk')

theorem uniformBoundary_allEq {m : sparInt} (hm : WF m) {i1 j1 k1 : Nat} (p : List Int)
    (h0 : posInside m i1 j1 k1 0 0 0) :
    uniformBoundary m i1 j1 k1 p = true ↔ AllEq m i1 j1 k1 p := by
  have hbs := hm.bs_pos
  rw [uniformBoundary_iff]
  constructor
  · intro h i j k i' j' k' hi hj hk hi' hj' hk' a b
    rw [h i j k hi hj hk a, h i' j' k' hi' hj' hk' b]
  · intro h i j k hi hj hk a
    have := h i j k 0 0 0 hi hj hk hbs hbs hbs a h0
    simpa using this

theorem origin_inside {m : sparInt} (hm : WF m) {i1 j1 k1 : Nat}
    (hi : i1 < m.mx) (hj : j1 < m.my) (hk : k1 < m.mz) : posInside m i1 j1 k1 0 0 0 := by
  have hbs := hm.bs_pos
  unfold WF at hm
  obtain ⟨_, _, _, _, _, hx, hy, hz, _⟩ := hm
  rw [hx] at hi; rw [hy] at hj; rw [hz] at hk
  exact ⟨by simpa using ceil_origin hbs hi, by simpa using ceil_origin hbs hj,
    by simpa using ceil_origin hbs hk⟩

/-- On a heterogeneous block of the grid `sparIntUniformBlock` answers 1
exactly when the positions of the block inside the matrix hold one value. -/
theorem uniformBlock_iff {m : sparInt} (hm : WF m) {i1 j1 k1 : Nat}
    (hi : i1 < m.mx) (hj : j1 < m.my) (hk : k1 < m.mz) {p : List Int}
    (hd : dataAt m.blockData (i1 + m.mx * (j1 + m.my * k1)) = some p) :
    sparIntUniformBlock m i1 j1 k1 = true ↔ AllEq m i1 j1 k1 p := by
  rw [sparIntUniformBlock_eq, hd]
  simp only
  split
  · rename_i hin
    exact uniformInner_allEq hm p (inner_all_inside hm hin)
  · exact uniformBoundary_allEq hm p (origin_inside hm hi hj hk)

theorem mixedBlock_iff_not_allEq (m : sparInt) (i1 j1 k1 : Nat) (p : List Int) :
    mixedBlock m i1 j1 k1 p ↔ ¬ AllEq m i1 j1 k1 p := by
  unfold mixedBlock AllEq
  constructor
  · rintro ⟨i, hi, j, hj, k, hk, i', hi', j', hj', k', hk', a, b, c⟩ h
    exact c (h i j k i' j' k' hi hj hk hi' hj' hk' a b)
  · intro h
    by_contra hc
    apply h
    intro i j k i' j' k' hi hj hk hi' hj' hk' a b
    by_contra c
    exact hc ⟨i, hi, j, hj, k, hk, i', hi', j', hj', k', hk', a, b, c⟩

/-! ## Storage after a write -/

theorem set_dataAt_self (bd : List (Option (List Int))) (n : Nat) :
    bd.set n (dataAt bd n) = bd := by
  apply List.ext_getElem?
  intro t
  rw [List.getElem?_set]
  by_cases e : n = t
  · subst e
    by_cases h : n < bd.length
    · rw [if_pos rfl, if_pos h]
      unfold dataAt
      rw [List.getD_eq_getElem?_getD, List.getElem?_eq_getElem h]
      rfl
    · rw [if_pos rfl, if_neg h, List.getElem?_eq_none (Nat.le_of_not_lt h)]
  · rw [if_neg e]

theorem set_valueAt_self (bv : List Int) (n : Nat) (h : n < bv.length) :
    bv.set n (valueAt bv n) = bv := by
  apply List.ext_getElem?
  intro t
  rw [List.getElem?_set]
  by_cases e : n = t
  · subst e
    rw [if_pos rfl, if_pos h]
    unfold valueAt
    rw [List.getD_eq_getElem?_getD, List.getElem?_eq_getElem h]
    rfl
  · rw [if_neg e]

theorem replicate_set_self (k o : Nat) (u : Int) :
    (List.replicate k u).set o u = List.replicate k u := by
  apply List.ext_getElem?
  intro t
  rw [List.getElem?_set, List.getElem?_replicate, List.length_replicate]
  by_cases e : o = t
  · subst e
    rw [if_pos rfl]
  · rw [if_neg e]

theorem getD_replicate (k t : Nat) (u : Int) (h : t < k) :
    (List.replicate k u).getD t 0 = u := valueAt_replicate k t u h

/-- The position of a coordinate inside the matrix lies inside the matrix. -/
theorem posInside_of_inRange {m : sparInt} (hm : WF m) {x y z : Nat} (hr : InRange m x y z) :
    x % m.bs < m.bs ∧ y % m.bs < m.bs ∧ z % m.bs < m.bs ∧
    posInside m (x / m.bs) (y / m.bs) (z / m.bs) (x % m.bs) (y % m.bs) (z % m.bs) := by
  have hb := hm.bs_pos
  unfold InRange at hr
  refine ⟨Nat.mod_lt _ hb, Nat.mod_lt _ hb, Nat.mod_lt _ hb, ?_, ?_, ?_⟩
  · rw [Nat.mul_comm, Nat.div_add_mod]; exact hr.1
  · rw [Nat.mul_comm, Nat.div_add_mod]; exact hr.2.1
  · rw [Nat.mul_comm, Nat.div_add_mod]; exact hr.2.2

/-- The result of `sparIntSet` on a heterogeneous block, with the test of
`sparIntUniformBlock` replaced by its meaning. -/
theorem sparIntSet_dense_cases {m : sparInt} (hm : WF m) {x y z : Nat} (hr : InRange m x y z)
    (w : Int) {p : List Int} (hd : dataAt m.blockData (blockIndex m x y z) = some p) :
    (AllEq m (x / m.bs) (y / m.bs) (z / m.bs) (p.set (blockOffset m x y z) w) →
      sparIntSet m x y z w =
        { m with
          blockValue := m.blockValue.set (blockIndex m x y z) w,
          blockData := m.blockData.set (blockIndex m x y z) none }) ∧
    (¬ AllEq m (x / m.bs) (y / m.bs) (z / m.bs) (p.set (blockOffset m x y z) w) →
      sparIntSet m x y z w =
        { m with
          blockData := m.blockData.set (blockIndex m x y z)
            (some (p.set (blockOffset m x y z) w)) }) := by
  have hn := blockIndex_lt hm hr
  obtain ⟨hlv, hld⟩ := hm.lengths
  obtain ⟨b1, b2, b3⟩ := hm.block_lt hr
  have hp := hm.payload hd
  have hwf1 : WF { m with
      blockData := m.blockData.set (blockIndex m x y z)
        (some (p.set (blockOffset m x y z) w)) } := by
    refine hm.update m.blockValue _ rfl (by simp) (payload_set hm.payloads ?_)
    intro q hq
    simp only [Option.mem_def, Option.some.injEq] at hq
    subst hq
    simpa using hp
  have hd1 : dataAt (m.blockData.set (blockIndex m x y z)
      (some (p.set (blockOffset m x y z) w))) (blockIndex m x y z) =
      some (p.set (blockOffset m x y z) w) := by
    rw [dataAt_set, if_pos ⟨rfl, by rw [hld]; exact hn⟩]
  have hiff := @uniformBlock_iff _ hwf1 (x / m.bs) (y / m.bs) (z / m.bs) b1 b2 b3 _ hd1
  rw [sparIntSet_dense m x y z w p hd]
  constructor
  · intro h
    rw [if_pos (hiff.mpr h), List.set_set]
  · intro h
    rw [if_neg (fun c => h (hiff.mp c))]

/-! ## Counting loops -/

/-- A loop that adds `f i` in round `i` adds the sum of the `f i`. -/
theorem forLoop_sum (n s : Nat) (f : Nat → Nat) :
    forLoop 0 n s (fun t i => t + f i) = s + ∑ i in Finset.range n, f i := by
  induction n with
  | zero => rw [forLoop_empty _ _ _ _ (le_refl _)]; simp
  | succ n ih =>
    rw [forLoop_succ _ _ _ _ (Nat.zero_le _), ih, Finset.sum_range_succ]
    omega

/-- Three nested loops that add `K` at the triples selected by `P` add `K`
times the number of selected triples. -/
theorem forLoop_count3 (a b c s K : Nat) (P : Nat → Nat → Nat → Prop)
    [∀ i j k, Decidable (P i j k)] :
    forLoop 0 c s (fun s k => forLoop 0 b s (fun s j => forLoop 0 a s (fun s i =>
      if P i j k then s + K else s))) =
    s + K * ((Finset.range a ×ˢ Finset.range b ×ˢ Finset.range c).filter
      (fun t => P t.1 t.2.1 t.2.2)).card := by
  have e1 : ∀ (s k j : Nat), forLoop 0 a s (fun s i => if P i j k then s + K else s) =
      s + ∑ i in Finset.range a, if P i j k then K else 0 := by
    intro s k j
    rw [← forLoop_sum]
    apply forLoop_congr
    intro i t _ _
    split <;> rfl
  have e2 : ∀ (s k : Nat), forLoop 0 b s (fun s j => forLoop 0 a s (fun s i =>
      if P i j k then s + K else s)) =
      s + ∑ j in Finset.range b, ∑ i in Finset.range a, if P i j k then K else 0 := by
    intro s k
    rw [← forLoop_sum]
    apply forLoop_congr
    intro j t _ _
    exact e1 t k j
  have e3 : forLoop 0 c s (fun s k => forLoop 0 b s (fun s j => forLoop 0 a s (fun s i =>
      if P i j k then s + K else s))) =
      s + ∑ k in Finset.range c, ∑ j in Finset.range b, ∑ i in Finset.range a,
        if P i j k then K else 0 := by
    rw [← forLoop_sum]
    apply forLoop_congr
    intro k t _ _
    exact e2 t k
  have hR : ((Finset.range a ×ˢ Finset.range b ×ˢ Finset.range c).filter
      (fun t => P t.1 t.2.1 t.2.2)).card =
      ∑ i in Finset.range a, ∑ j in Finset.range b, ∑ k in Finset.range c,
        if P i j k then 1 else 0 := by
    rw [Finset.card_filter, Finset.sum_product]
    apply Finset.sum_congr rfl
    intro i _
    rw [Finset.sum_product]
  have hL : (∑ k in Finset.range c, ∑ j in Finset.range b, ∑ i in Finset.range a,
        if P i j k then K else 0) =
      ∑ i in Finset.range a, ∑ j in Finset.range b, ∑ k in Finset.range c,
        if P i j k then K else 0 := by
    rw [Finset.sum_comm]
    rw [Finset.sum_congr rfl (fun j _ => Finset.sum_comm)]
    rw [Finset.sum_comm]
  rw [e3, hR, hL]
  congr 1
  simp only [Finset.mul_sum]
  apply Finset.sum_congr rfl
  intro i _
  apply Finset.sum_congr rfl
  intro j _
  apply Finset.sum_congr rfl
  intro k _
  split <;> simp

/-- The virtual block test of `sparIntMemoryBs` fails on a block of the grid
exactly when the block holds two coordinates inside the matrix with different
values. -/
theorem virtualUniform_false_iff (m : sparInt) (bs i1 j1 k1 : Nat) (hbs : 0 < bs)
    (hi : i1 < (m.nx + bs - 1) / bs) (hj : j1 < (m.ny + bs - 1) / bs)
    (hk : k1 < (m.nz + bs - 1) / bs) :
    virtualUniform (sparIntGet m) m.nx m.ny m.nz bs i1 j1 k1 = false ↔
      virtualMixed m bs i1 j1 k1 := by
  have hx := ceil_origin hbs hi
  have hy := ceil_origin hbs hj
  have hz := ceil_origin hbs hk
  have dm : ∀ x, x / bs * bs + x % bs = x := fun x => by
    rw [Nat.mul_comm]; exact Nat.div_add_mod x bs
  rw [← Bool.not_eq_true, virtualUniform_iff]
  unfold virtualMixed
  constructor
  · intro h
    push_neg at h
    obtain ⟨i, j, k, a1, a2, a3, a4, a5, a6, hne⟩ := h
    refine ⟨i1 * bs + i, a4, j1 * bs + j, a5, k1 * bs + k, a6, i1 * bs, hx, j1 * bs, hy,
      k1 * bs, hz, ⟨?_, ?_, ?_⟩, ⟨?_, ?_, ?_⟩, hne⟩
    · rw [Nat.mul_comm, Nat.mul_add_div hbs, Nat.div_eq_of_lt a1]; rfl
    · rw [Nat.mul_comm, Nat.mul_add_div hbs, Nat.div_eq_of_lt a2]; rfl
    · rw [Nat.mul_comm, Nat.mul_add_div hbs, Nat.div_eq_of_lt a3]; rfl
    · exact Nat.mul_div_cancel _ hbs
    · exact Nat.mul_div_cancel _ hbs
    · exact Nat.mul_div_cancel _ hbs
  · rintro ⟨x, hx1, y, hy1, z, hz1, x', hx2, y', hy2, z', hz2, ⟨b1, b2, b3⟩, ⟨c1, c2, c3⟩, hne⟩ h
    have g1 := h (x % bs) (y % bs) (z % bs) (Nat.mod_lt _ hbs) (Nat.mod_lt _ hbs)
      (Nat.mod_lt _ hbs) (by rw [← b1, dm]; exact hx1) (by rw [← b2, dm]; exact hy1)
      (by rw [← b3, dm]; exact hz1)
    have g2 := h (x' % bs) (y' % bs) (z' % bs) (Nat.mod_lt _ hbs) (Nat.mod_lt _ hbs)
      (Nat.mod_lt _ hbs) (by rw [← c1, dm]; exact hx2) (by rw [← c2, dm]; exact hy2)
      (by rw [← c3, dm]; exact hz2)
    rw [← b1, ← b2, ← b3, dm, dm, dm, b1, b2, b3] at g1
    rw [← c1, ← c2, ← c3, dm, dm, dm, c1, c2, c3] at g2
    exact hne (g1.trans g2.symm)

/-- The cost under another block size as a count of virtual blocks. -/
theorem costBs_count (sz : Sizeof) (m : sparInt) (bs : Nat) (hbs : 0 < bs) :
    costBs sz m.nx m.ny m.nz bs (sparIntGet m) =
      sz.szStruct +
        (m.nx + bs - 1) / bs * ((m.ny + bs - 1) / bs) * ((m.nz + bs - 1) / bs) * sz.szInt +
        (m.nx + bs - 1) / bs * ((m.ny + bs - 1) / bs) * ((m.nz + bs - 1) / bs) * sz.szPtr +
        sz.szInt * (bs * bs * bs) * heteroCount m bs := by
  unfold costBs heteroCount
  rw [forLoop_count3]
  congr 3
  apply Finset.filter_congr
  intro t ht
  simp only [Finset.mem_product, Finset.mem_range] at ht
  exact virtualUniform_false_iff m bs t.1 t.2.1 t.2.2 hbs ht.1 ht.2.1 ht.2.2

/-! ## Invariant I2 under a write -/

theorem mixedBlock_shape {a b : sparInt} (h : SameShape a b) (i1 j1 k1 : Nat) (p : List Int) :
    mixedBlock a i1 j1 k1 p ↔ mixedBlock b i1 j1 k1 p := by
  unfold SameShape at h
  obtain ⟨h1, h2, h3, h4, _⟩ := h
  unfold mixedBlock posInside
  rw [h1, h2, h3, h4]

/-- The block array after `sparIntSet`: only the slot of the coordinate is
written, and a payload left there is either mixed or the fresh payload of a
uniform block with one value changed. -/
theorem sparIntSet_slot {m : sparInt} (hm : WF m) {x y z : Nat} (hr : InRange m x y z)
    (v : Int) :
    (∀ t, t ≠ blockIndex m x y z →
      dataAt (sparIntSet m x y z v).blockData t = dataAt m.blockData t) ∧
    ∀ q, dataAt (sparIntSet m x y z v).blockData (blockIndex m x y z) = some q →
      mixedBlock m (x / m.bs) (y / m.bs) (z / m.bs) q ∨
      (dataAt m.blockData (blockIndex m x y z) = none ∧
        v ≠ valueAt m.blockValue (blockIndex m x y z) ∧
        q = (List.replicate m.bs3 (valueAt m.blockValue (blockIndex m x y z))).set
          (blockOffset m x y z) v) := by
  have hn := blockIndex_lt hm hr
  obtain ⟨hlv, hld⟩ := hm.lengths
  cases hd : dataAt m.blockData (blockIndex m x y z) with
  | none =>
    rw [sparIntSet_uniform m x y z v hd]
    by_cases e : v ≠ valueAt m.blockValue (blockIndex m x y z)
    · rw [if_pos e]
      simp only
      constructor
      · intro t ht
        rw [dataAt_set, if_neg (fun c => ht c.1.symm)]
      · intro q hq
        rw [dataAt_set, if_pos ⟨rfl, by rw [hld]; exact hn⟩] at hq
        simp only [Option.some.injEq] at hq
        exact Or.inr ⟨trivial, e, hq.symm⟩
    · rw [if_neg e]
      refine ⟨fun _ _ => rfl, fun q hq => ?_⟩
      rw [hd] at hq
      exact absurd hq (by simp)
  | some p =>
    obtain ⟨c1, c2⟩ := sparIntSet_dense_cases hm hr v hd
    by_cases hA : AllEq m (x / m.bs) (y / m.bs) (z / m.bs) (p.set (blockOffset m x y z) v)
    · rw [c1 hA]
      simp only
      constructor
      · intro t ht
        rw [dataAt_set, if_neg (fun c => ht c.1.symm)]
      · intro q hq
        rw [dataAt_set, if_pos ⟨rfl, by rw [hld]; exact hn⟩] at hq
        exact absurd hq (by simp)
    · rw [c2 hA]
      simp only
      constructor
      · intro t ht
        rw [dataAt_set, if_neg (fun c => ht c.1.symm)]
      · intro q hq
        rw [dataAt_set, if_pos ⟨rfl, by rw [hld]; exact hn⟩] at hq
        simp only [Option.some.injEq] at hq
        subst hq
        exact Or.inl ((mixedBlock_iff_not_allEq _ _ _ _ _).mpr hA)

/-- A fresh payload with one value changed is mixed when the block holds a
second position inside the matrix. -/
theorem fresh_mixed {m : sparInt} (hm : WF m) {x y z : Nat} (hr : InRange m x y z)
    (h2 : hasSecond m x y z) {u v : Int} (hne : v ≠ u) :
    mixedBlock m (x / m.bs) (y / m.bs) (z / m.bs)
      ((List.replicate m.bs3 u).set (blockOffset m x y z) v) := by
  have hb := hm.bs_pos
  have ho := blockOffset_lt hm x y z
  have hbs3 : m.bs3 = m.bs * m.bs * m.bs := by unfold WF at hm; exact hm.2.2.2.2.1
  obtain ⟨q1, q2, q3, q4⟩ := posInside_of_inRange hm hr
  obtain ⟨i, hi, j, hj, k, hk, hin, hdiff⟩ := h2
  refine ⟨x % m.bs, q1, y % m.bs, q2, z % m.bs, q3, i, hi, j, hj, k, hk, q4, hin, ?_⟩
  have e1 : ((List.replicate m.bs3 u).set (blockOffset m x y z) v).getD
      (x % m.bs + m.bs * (y % m.bs + m.bs * (z % m.bs))) 0 = v := by
    rw [getD_set, if_pos ⟨rfl, by rw [List.length_replicate]; exact ho⟩]
  have e2 : ((List.replicate m.bs3 u).set (blockOffset m x y z) v).getD
      (i + m.bs * (j + m.bs * k)) 0 = u := by
    rw [getD_set, if_neg, getD_replicate _ _ _ (by rw [hbs3]; exact lin3_lt hi hj hk)]
    intro c
    obtain ⟨f1, f2, f3⟩ := lin3_inj q1 hi q2 hj c.1
    exact hdiff ⟨f1.symm, f2.symm, f3.symm⟩
  rw [e1, e2]
  exact hne

/-- Writing an element keeps invariant I2 when the block of the element holds
a second position inside the matrix. -/
theorem sparIntSet_I2 {m : sparInt} (hm : WF m) {x y z : Nat} (hr : InRange m x y z)
    (v : Int) (h2 : hasSecond m x y z) (hI : I2 m) : I2 (sparIntSet m x y z v) := by
  obtain ⟨s1, s2⟩ := sparIntSet_slot hm hr v
  have hs := sparIntSet_shape m x y z v
  obtain ⟨b1, b2, b3⟩ := hm.block_lt hr
  intro i1 hi j1 hj k1 hk p hp
  rw [hs.2.2.2.2.2.1] at hi
  rw [hs.2.2.2.2.2.2.1] at hj
  rw [hs.2.2.2.2.2.2.2.1] at hk
  rw [hs.2.2.2.2.2.1, hs.2.2.2.2.2.2.1] at hp
  rw [mixedBlock_shape hs]
  by_cases e : i1 + m.mx * (j1 + m.my * k1) = blockIndex m x y z
  · obtain ⟨f1, f2, f3⟩ := lin3_inj hi b1 hj b2 e
    subst f1 f2 f3
    rw [Option.mem_def, e] at hp
    rcases s2 p hp with h | ⟨_, hne, hq⟩
    · exact h
    · rw [hq]
      exact fresh_mixed hm hr h2 hne
  · rw [Option.mem_def, s1 _ e] at hp
    exact hI i1 hi j1 hj k1 hk p hp

/-! ## Invariant I2 after a change of the block size -/

theorem hasSecond_shape {a b : sparInt} (h : SameShape a b) (x y z : Nat) :
    hasSecond a x y z ↔ hasSecond b x y z := by
  unfold SameShape at h
  obtain ⟨h1, h2, h3, h4, _⟩ := h
  unfold hasSecond posInside
  rw [h1, h2, h3, h4]

theorem mixedBlock_mono {a b : sparInt} (hbs : a.bs = b.bs) (hx : a.nx ≤ b.nx)
    (hy : a.ny ≤ b.ny) (hz : a.nz ≤ b.nz) (i1 j1 k1 : Nat) (p : List Int)
    (h : mixedBlock a i1 j1 k1 p) : mixedBlock b i1 j1 k1 p := by
  unfold mixedBlock posInside at *
  rw [← hbs]
  obtain ⟨i, hi, j, hj, k, hk, i', hi', j', hj', k', hk', h1, h2, hne⟩ := h
  exact ⟨i, hi, j, hj, k, hk, i', hi', j', hj', k', hk',
    ⟨by omega, by omega, by omega⟩, ⟨by omega, by omega, by omega⟩, hne⟩

/-- New block arrays whose payloads are payloads of the old blocks at the
same grid positions keep invariant I2 when no size shrinks. -/
theorem regrid_I2 {m : sparInt} (hI : I2 m) (nx ny nz mx my mz : Nat)
    (bv : List Int) (bd : List (Option (List Int)))
    (hx : m.nx ≤ nx) (hy : m.ny ≤ ny) (hz : m.nz ≤ nz)
    (hc : ∀ i j k, i < mx → j < my → k < mz →
      ∀ p, dataAt bd (i + mx * (j + my * k)) = some p →
        i < m.mx ∧ j < m.my ∧ k < m.mz ∧
        dataAt m.blockData (i + m.mx * (j + m.my * k)) = some p) :
    I2 { m with nx := nx, ny := ny, nz := nz, mx := mx, my := my, mz := mz,
                blockValue := bv, blockData := bd } := by
  intro i hi j hj k hk p hp
  simp only at hi hj hk hp
  obtain ⟨a1, a2, a3, a4⟩ := hc i j k hi hj hk p hp
  exact mixedBlock_mono (a := m)
    (b := { m with nx := nx, ny := ny, nz := nz, mx := mx, my := my, mz := mz,
                   blockValue := bv, blockData := bd })
    rfl hx hy hz i j k p (hI i a1 j a2 k a3 p a4)

/-- Three nested loops of `sparIntSet` keep invariant I2 when the block of
every coordinate of the box holds a second position inside the matrix. -/
theorem setBox_I2 {m : sparInt} (hm : WF m) (hI : I2 m) (d : Int) (i0 i1 j0 j1 k0 k1 : Nat)
    (h : ∀ i j k, i0 ≤ i → i < i1 → j0 ≤ j → j < j1 → k0 ≤ k → k < k1 →
      InRange m i j k ∧ hasSecond m i j k) :
    I2 (forLoop k0 k1 m (fun s k =>
      forLoop j0 j1 s (fun s j =>
        forLoop i0 i1 s (fun s i => sparIntSet s i j k d)))) := by
  have key := forLoop_keep (fun s : sparInt => WF s ∧ SameShape s m ∧ I2 s)
    k0 k1 m (fun s k =>
      forLoop j0 j1 s (fun s j =>
        forLoop i0 i1 s (fun s i => sparIntSet s i j k d)))
    ⟨hm, SameShape.refl _, hI⟩ (by
      intro k s hk0 hk hs1
      refine forLoop_keep (fun s : sparInt => WF s ∧ SameShape s m ∧ I2 s)
        j0 j1 s _ hs1 ?_
      intro j s hj0 hj hs2
      refine forLoop_keep (fun s : sparInt => WF s ∧ SameShape s m ∧ I2 s)
        i0 i1 s _ hs2 ?_
      intro i s hi0 hi ⟨a1, a2, a3⟩
      obtain ⟨b1, b2⟩ := h i j k hi0 hi hj0 hj hk0 hk
      exact ⟨sparIntSet_WF a1 _ _ _ _, (sparIntSet_shape _ _ _ _ _).trans a2,
        sparIntSet_I2 a1 ((a2.inRange _ _ _).mpr b1) _ ((hasSecond_shape a2 _ _ _).mpr b2) a3⟩)
  exact key.2.2

/-- A coordinate that is not the first of its block on some axis has a
second position of its block inside the matrix. -/
theorem sliver_second {m : sparInt} (hm : WF m) {x y z : Nat} (hr : InRange m x y z)
    (h : x % m.bs ≠ 0 ∨ y % m.bs ≠ 0 ∨ z % m.bs ≠ 0) : hasSecond m x y z := by
  obtain ⟨q1, q2, q3, q4, q5, q6⟩ := posInside_of_inRange hm hr
  unfold hasSecond posInside
  rcases h with h | h | h
  · exact ⟨x % m.bs - 1, by omega, y % m.bs, q2, z % m.bs, q3,
      ⟨by omega, q5, q6⟩, fun c => by omega⟩
  · exact ⟨x % m.bs, q1, y % m.bs - 1, by omega, z % m.bs, q3,
      ⟨q4, by omega, q6⟩, fun c => by omega⟩
  · exact ⟨x % m.bs, q1, y % m.bs, q2, z % m.bs - 1, by omega,
      ⟨q4, q5, by omega⟩, fun c => by omega⟩

/-- A coordinate between the old size and the end of the old block grid is
not the first of its block. -/
theorem sliver_mod {n bs i : Nat} (hb : 0 < bs) (h1 : n ≤ i)
    (h2 : i < bs * ((n + bs - 1) / bs)) : i % bs ≠ 0 := by
  intro hc
  have hd := Nat.div_add_mod i bs
  rw [hc, Nat.add_zero] at hd
  rw [← hd] at h2
  have h3 : i / bs < (n + bs - 1) / bs := Nat.lt_of_mul_lt_mul_left h2
  have h4 : (i / bs + 1) * bs ≤ n + bs - 1 := (Nat.le_div_iff_mul_le hb).mp h3
  rw [Nat.add_mul, Nat.one_mul, Nat.mul_comm] at h4
  omega

/-- The x axis of `sparIntResize` keeps invariant I2 when the size in x does
not shrink. -/
theorem resizeX_I2 {m : sparInt} (hm : WF m) (hI : I2 m) (d : Int) (nx : Nat)
    (hge : m.nx ≤ nx) : I2 (resizeX m m.bs d nx) := by
  have hwf := hm
  unfold WF at hwf
  obtain ⟨w1, w2, w3, w4, w5, w6, w7, w8, w9, w10, w11⟩ := hwf
  have hnx : 0 < nx := by omega
  unfold resizeX
  by_cases h1 : nx > m.nx
  · rw [if_pos h1]
    have hmono : m.mx ≤ (nx + m.bs - 1) / m.bs := by
      rw [w6]; exact ceil_mono (le_of_lt h1)
    obtain ⟨r1, r2, r3, r4⟩ := rebuilt_spec m d ((nx + m.bs - 1) / m.bs) m.my m.mz
      m.mx m.my m.mz m.mx ((nx + m.bs - 1) / m.bs) 0 m.my 0 m.mz
      hmono (le_refl _) (le_refl _) (le_refl _) _ rfl
    obtain ⟨g1, g2⟩ := regrid hm nx m.ny m.nz ((nx + m.bs - 1) / m.bs) m.my m.mz _ _
      hnx w2 w3 rfl w7 w8 r1 r2 (r3 w11)
      (fun i j k a1 a2 a3 a4 a5 a6 => (r4 i j k a1 a2 a3).2 (by omega) a4 a5 a6)
    have gI := regrid_I2 hI nx m.ny m.nz ((nx + m.bs - 1) / m.bs) m.my m.mz
      (createBlocks d ((nx + m.bs - 1) / m.bs) m.my m.mx ((nx + m.bs - 1) / m.bs) 0 m.my 0 m.mz
        (copyBlocks m ((nx + m.bs - 1) / m.bs) m.my m.mx m.my m.mz
          (List.replicate ((nx + m.bs - 1) / m.bs * m.my * m.mz) 0,
           List.replicate ((nx + m.bs - 1) / m.bs * m.my * m.mz) none))).1
      (createBlocks d ((nx + m.bs - 1) / m.bs) m.my m.mx ((nx + m.bs - 1) / m.bs) 0 m.my 0 m.mz
        (copyBlocks m ((nx + m.bs - 1) / m.bs) m.my m.mx m.my m.mz
          (List.replicate ((nx + m.bs - 1) / m.bs * m.my * m.mz) 0,
           List.replicate ((nx + m.bs - 1) / m.bs * m.my * m.mz) none))).2
      (le_of_lt h1) (le_refl _) (le_refl _) (by
        intro i j k a1 a2 a3 p hp
        by_cases hB : m.mx ≤ i ∧ i < (nx + m.bs - 1) / m.bs ∧ 0 ≤ j ∧ j < m.my ∧ 0 ≤ k ∧ k < m.mz
        · rw [((r4 i j k a1 a2 a3).1 hB).2] at hp
          exact absurd hp (by simp)
        · have hi : i < m.mx := by omega
          rw [((r4 i j k a1 a2 a3).2 hB hi a2 a3).2] at hp
          exact ⟨hi, a2, a3, hp⟩)
    refine setBox_I2 g1 gI d m.nx
      (if m.bs * m.mx ≥ nx then nx - 1 else m.bs * m.mx) 0 m.ny 0 m.nz ?_
    intro i j k a1 a2 _ a4 _ a6
    have hb2 : i < m.bs * m.mx ∧ i < nx := by
      by_cases hc : m.bs * m.mx ≥ nx
      · rw [if_pos hc] at a2
        omega
      · rw [if_neg hc] at a2
        omega
    have hlt : i < m.bs * ((m.nx + m.bs - 1) / m.bs) := by
      rw [← w6]; exact hb2.1
    have hi : i < nx := hb2.2
    exact ⟨⟨hi, a4, a6⟩,
      sliver_second g1 ⟨hi, a4, a6⟩ (Or.inl (sliver_mod hm.bs_pos a1 hlt))⟩
  · rw [if_neg h1, if_neg (by omega)]
    exact hI

/-- The y axis of `sparIntResize` keeps invariant I2 when the size in y does
not shrink. -/
theorem resizeY_I2 {m : sparInt} (hm : WF m) (hI : I2 m) (d : Int) (ny : Nat)
    (hge : m.ny ≤ ny) : I2 (resizeY m m.bs d ny) := by
  have hwf := hm
  unfold WF at hwf
  obtain ⟨w1, w2, w3, w4, w5, w6, w7, w8, w9, w10, w11⟩ := hwf
  have hny : 0 < ny := by omega
  unfold resizeY
  by_cases h1 : ny > m.ny
  · rw [if_pos h1]
    have hmono : m.my ≤ (ny + m.bs - 1) / m.bs := by
      rw [w7]; exact ceil_mono (le_of_lt h1)
    obtain ⟨r1, r2, r3, r4⟩ := rebuilt_spec m d m.mx ((ny + m.bs - 1) / m.bs) m.mz
      m.mx m.my m.mz 0 m.mx m.my ((ny + m.bs - 1) / m.bs) 0 m.mz
      (le_refl _) hmono (le_refl _) (le_refl _) _ rfl
    obtain ⟨g1, g2⟩ := regrid hm m.nx ny m.nz m.mx ((ny + m.bs - 1) / m.bs) m.mz _ _
      w1 hny w3 w6 rfl w8 r1 r2 (r3 w11)
      (fun i j k a1 a2 a3 a4 a5 a6 => (r4 i j k a1 a2 a3).2 (by omega) a4 a5 a6)
    refine setBox_I2 g1
      (regrid_I2 hI m.nx ny m.nz m.mx ((ny + m.bs - 1) / m.bs) m.mz _ _
        (le_refl _) (le_of_lt h1) (le_refl _) ?_) d 0 m.nx m.ny
      (if m.bs * m.my ≥ ny then ny - 1 else m.bs * m.my) 0 m.nz ?_
    · intro i j k a1 a2 a3 p hp
      by_cases hB : 0 ≤ i ∧ i < m.mx ∧ m.my ≤ j ∧ j < (ny + m.bs - 1) / m.bs ∧ 0 ≤ k ∧ k < m.mz
      · rw [((r4 i j k a1 a2 a3).1 hB).2] at hp
        exact absurd hp (by simp)
      · have hj : j < m.my := by omega
        rw [((r4 i j k a1 a2 a3).2 hB a1 hj a3).2] at hp
        exact ⟨a1, hj, a3, hp⟩
    · intro i j k _ a2 a3 a4 _ a6
      have hb2 : j < m.bs * m.my ∧ j < ny := by
        by_cases hc : m.bs * m.my ≥ ny
        · rw [if_pos hc] at a4
          omega
        · rw [if_neg hc] at a4
          omega
      have hlt : j < m.bs * ((m.ny + m.bs - 1) / m.bs) := by
        rw [← w7]; exact hb2.1
      exact ⟨⟨a2, hb2.2, a6⟩,
        sliver_second g1 ⟨a2, hb2.2, a6⟩ (Or.inr (Or.inl (sliver_mod hm.bs_pos a3 hlt)))⟩
  · rw [if_neg h1, if_neg (by omega)]
    exact hI

/-- The z axis of `sparIntResize` keeps invariant I2 when the size in z does
not shrink. -/
theorem resizeZ_I2 {m : sparInt} (hm : WF m) (hI : I2 m) (d : Int) (nz : Nat)
    (hge : m.nz ≤ nz) : I2 (resizeZ m m.bs d nz) := by
  have hwf := hm
  unfold WF at hwf
  obtain ⟨w1, w2, w3, w4, w5, w6, w7, w8, w9, w10, w11⟩ := hwf
  have hnz : 0 < nz := by omega
  unfold resizeZ
  by_cases h1 : nz > m.nz
  · rw [if_pos h1]
    have hmono : m.mz ≤ (nz + m.bs - 1) / m.bs := by
      rw [w8]; exact ceil_mono (le_of_lt h1)
    obtain ⟨r1, r2, r3, r4⟩ := rebuilt_spec m d m.mx m.my ((nz + m.bs - 1) / m.bs)
      m.mx m.my m.mz 0 m.mx 0 m.my m.mz ((nz + m.bs - 1) / m.bs)
      (le_refl _) (le_refl _) (le_refl _) (le_refl _) _ rfl
    obtain ⟨g1, g2⟩ := regrid hm m.nx m.ny nz m.mx m.my ((nz + m.bs - 1) / m.bs) _ _
      w1 w2 hnz w6 w7 rfl r1 r2 (r3 w11)
      (fun i j k a1 a2 a3 a4 a5 a6 => (r4 i j k a1 a2 a3).2 (by omega) a4 a5 a6)
    refine setBox_I2 g1
      (regrid_I2 hI m.nx m.ny nz m.mx m.my ((nz + m.bs - 1) / m.bs) _ _
        (le_refl _) (le_refl _) (le_of_lt h1) ?_) d 0 m.nx 0 m.ny m.nz
      (if m.bs * m.mz ≥ nz then nz - 1 else m.bs * m.mz) ?_
    · intro i j k a1 a2 a3 p hp
      by_cases hB : 0 ≤ i ∧ i < m.mx ∧ 0 ≤ j ∧ j < m.my ∧ m.mz ≤ k ∧ k < (nz + m.bs - 1) / m.bs
      · rw [((r4 i j k a1 a2 a3).1 hB).2] at hp
        exact absurd hp (by simp)
      · have hk : k < m.mz := by omega
        rw [((r4 i j k a1 a2 a3).2 hB a1 a2 hk).2] at hp
        exact ⟨a1, a2, hk, hp⟩
    · intro i j k _ a2 _ a4 a5 a6
      have hb2 : k < m.bs * m.mz ∧ k < nz := by
        by_cases hc : m.bs * m.mz ≥ nz
        · rw [if_pos hc] at a6
          omega
        · rw [if_neg hc] at a6
          omega
      have hlt : k < m.bs * ((m.nz + m.bs - 1) / m.bs) := by
        rw [← w8]; exact hb2.1
      exact ⟨⟨a2, a4, hb2.2⟩,
        sliver_second g1 ⟨a2, a4, hb2.2⟩ (Or.inr (Or.inr (sliver_mod hm.bs_pos a5 hlt)))⟩
  · rw [if_neg h1, if_neg (by omega)]
    exact hI

/-- The result of `sparIntResize` satisfies invariant I2 when the matrix does
and no size shrinks. -/
theorem sparIntResize_I2 {m : sparInt} (hm : WF m) (hI : I2 m) (nx ny nz : Nat)
    (hx : m.nx ≤ nx) (hy : m.ny ≤ ny) (hz : m.nz ≤ nz) :
    ∃ r, sparIntResize m nx ny nz = some r ∧ WF r ∧ I2 r ∧
      r.nx = nx ∧ r.ny = ny ∧ r.nz = nz := by
  have hwf := hm
  unfold WF at hwf
  obtain ⟨w1, w2, w3, _⟩ := hwf
  unfold sparIntResize
  have hpos : ((nx : Int) > 0 ∧ (ny : Int) > 0 ∧ (nz : Int) > 0) := by omega
  rw [if_neg (not_not.mpr hpos)]
  simp only [Int.toNat_natCast]
  obtain ⟨a1, a2, a3, a4, a5, a6, a7⟩ := resizeX_spec hm m.def_ nx (by omega)
  have aI := resizeX_I2 hm hI m.def_ nx hx
  generalize resizeX m m.bs m.def_ nx = mX at a1 a2 a3 a4 a5 a6 a7 aI
  obtain ⟨b1, b2, b3, b4, b5, b6, b7⟩ := resizeY_spec a1 m.def_ ny (by omega)
  have bI := resizeY_I2 a1 aI m.def_ ny (by rw [a3]; exact hy)
  rw [a5] at b1 b2 b3 b4 b5 b6 b7 bI
  generalize resizeY mX m.bs m.def_ ny = mY at b1 b2 b3 b4 b5 b6 b7 bI
  obtain ⟨c1, c2, c3, c4, c5, c6, c7⟩ := resizeZ_spec b1 m.def_ nz (by omega)
  have cI := resizeZ_I2 b1 bI m.def_ nz (by rw [b4, a4]; exact hz)
  rw [b5] at c1 c2 c3 c4 c5 c6 c7 cI
  generalize resizeZ mY m.bs m.def_ nz = mZ at c1 c2 c3 c4 c5 c6 c7 cI
  exact ⟨mZ, rfl, c1, cI, by rw [c2, b2, a2], by rw [c3, b3], c4⟩

/-! ## New coordinates after a resize past the block grid -/

theorem le_mul_ceil {n bs : Nat} (hb : 0 < bs) : n ≤ bs * ((n + bs - 1) / bs) := by
  have h1 := Nat.div_add_mod (n + bs - 1) bs
  have h2 := Nat.mod_lt (n + bs - 1) hb
  omega

/-- A coordinate whose block is uniform in the new block arrays reads the
value of that block. -/
theorem regrid_fresh (m : sparInt) (nx ny nz mx my mz : Nat)
    (bv : List Int) (bd : List (Option (List Int))) (x y z : Nat) (d : Int)
    (hv : valueAt bv (x / m.bs + mx * (y / m.bs + my * (z / m.bs))) = d)
    (hd : dataAt bd (x / m.bs + mx * (y / m.bs + my * (z / m.bs))) = none) :
    sparIntGet { m with nx := nx, ny := ny, nz := nz, mx := mx, my := my, mz := mz,
                        blockValue := bv, blockData := bd } x y z = d := by
  show (match dataAt bd (x / m.bs + mx * (y / m.bs + my * (z / m.bs))) with
    | none => valueAt bv (x / m.bs + mx * (y / m.bs + my * (z / m.bs)))
    | some p => p.getD (blockOffset m x y z) 0) = _
  rw [hd]
  exact hv

/-- The x axis of `sparIntResize` grown past the old block grid: every new
coordinate reads `d`. -/
theorem resizeX_fresh {m : sparInt} (hm : WF m) (d : Int) (nx : Nat)
    (hgt : m.bs * m.mx < nx) (x y z : Nat) (hx0 : m.nx ≤ x) (hx : x < nx)
    (hy : y < m.ny) (hz : z < m.nz) :
    sparIntGet (resizeX m m.bs d nx) x y z = d := by
  have hb := hm.bs_pos
  have hwf := hm
  unfold WF at hwf
  obtain ⟨w1, w2, w3, w4, w5, w6, w7, w8, w9, w10, w11⟩ := hwf
  have hle : m.nx ≤ m.bs * m.mx := by rw [w6]; exact le_mul_ceil hb
  have h1 : nx > m.nx := by omega
  have hnx : 0 < nx := by omega
  unfold resizeX
  rw [if_pos h1]
  have hmono : m.mx ≤ (nx + m.bs - 1) / m.bs := by
    rw [w6]; exact ceil_mono (le_of_lt h1)
  obtain ⟨r1, r2, r3, r4⟩ := rebuilt_spec m d ((nx + m.bs - 1) / m.bs) m.my m.mz
    m.mx m.my m.mz m.mx ((nx + m.bs - 1) / m.bs) 0 m.my 0 m.mz
    hmono (le_refl _) (le_refl _) (le_refl _) _ rfl
  obtain ⟨g1, g2⟩ := regrid hm nx m.ny m.nz ((nx + m.bs - 1) / m.bs) m.my m.mz _ _
    hnx w2 w3 rfl w7 w8 r1 r2 (r3 w11)
    (fun i j k a1 a2 a3 a4 a5 a6 => (r4 i j k a1 a2 a3).2 (by omega) a4 a5 a6)
  have hxf : (if m.bs * m.mx ≥ nx then nx - 1 else m.bs * m.mx) ≤ nx := by
    split <;> omega
  obtain ⟨s1, s2, s3⟩ := setBox_spec g1 d m.nx
    (if m.bs * m.mx ≥ nx then nx - 1 else m.bs * m.mx) 0 m.ny 0 m.nz
    hxf (le_refl _) (le_refl _)
  have hxe : (if m.bs * m.mx ≥ nx then nx - 1 else m.bs * m.mx) = m.bs * m.mx :=
    if_neg (by omega)
  obtain ⟨t1, t2⟩ := s3 x y z ⟨hx, hy, hz⟩
  by_cases hin : x < m.bs * m.mx
  · exact t1 ⟨hx0, by rw [hxe]; exact hin, Nat.zero_le _, hy, Nat.zero_le _, hz⟩
  · have c1 : x / m.bs < (nx + m.bs - 1) / m.bs := div_lt_ceil hb hx
    have c2 : y / m.bs < m.my := by rw [w7]; exact div_lt_ceil hb hy
    have c3 : z / m.bs < m.mz := by rw [w8]; exact div_lt_ceil hb hz
    have c0 : m.mx ≤ x / m.bs := by
      rw [Nat.le_div_iff_mul_le hb, Nat.mul_comm]; omega
    obtain ⟨e1, e2⟩ := (r4 _ _ _ c1 c2 c3).1 ⟨c0, c1, Nat.zero_le _, c2, Nat.zero_le _, c3⟩
    rw [t2 (fun c => hin (by rw [← hxe]; exact c.2.1))]
    exact regrid_fresh m nx m.ny m.nz _ m.my m.mz _ _ x y z d e1 e2

/-- The y axis of `sparIntResize` grown past the old block grid: every new
coordinate reads `d`. -/
theorem resizeY_fresh {m : sparInt} (hm : WF m) (d : Int) (ny : Nat)
    (hgt : m.bs * m.my < ny) (x y z : Nat) (hx : x < m.nx) (hy0 : m.ny ≤ y) (hy : y < ny)
    (hz : z < m.nz) :
    sparIntGet (resizeY m m.bs d ny) x y z = d := by
  have hb := hm.bs_pos
  have hwf := hm
  unfold WF at hwf
  obtain ⟨w1, w2, w3, w4, w5, w6, w7, w8, w9, w10, w11⟩ := hwf
  have hle : m.ny ≤ m.bs * m.my := by rw [w7]; exact le_mul_ceil hb
  have h1 : ny > m.ny := by omega
  have hny : 0 < ny := by omega
  unfold resizeY
  rw [if_pos h1]
  have hmono : m.my ≤ (ny + m.bs - 1) / m.bs := by
    rw [w7]; exact ceil_mono (le_of_lt h1)
  obtain ⟨r1, r2, r3, r4⟩ := rebuilt_spec m d m.mx ((ny + m.bs - 1) / m.bs) m.mz
    m.mx m.my m.mz 0 m.mx m.my ((ny + m.bs - 1) / m.bs) 0 m.mz
    (le_refl _) hmono (le_refl _) (le_refl _) _ rfl
  obtain ⟨g1, g2⟩ := regrid hm m.nx ny m.nz m.mx ((ny + m.bs - 1) / m.bs) m.mz _ _
    w1 hny w3 w6 rfl w8 r1 r2 (r3 w11)
    (fun i j k a1 a2 a3 a4 a5 a6 => (r4 i j k a1 a2 a3).2 (by omega) a4 a5 a6)
  have hyf : (if m.bs * m.my ≥ ny then ny - 1 else m.bs * m.my) ≤ ny := by
    split <;> omega
  obtain ⟨s1, s2, s3⟩ := setBox_spec g1 d 0 m.nx m.ny
    (if m.bs * m.my ≥ ny then ny - 1 else m.bs * m.my) 0 m.nz
    (le_refl _) hyf (le_refl _)
  have hye : (if m.bs * m.my ≥ ny then ny - 1 else m.bs * m.my) = m.bs * m.my :=
    if_neg (by omega)
  obtain ⟨t1, t2⟩ := s3 x y z ⟨hx, hy, hz⟩
  by_cases hin : y < m.bs * m.my
  · exact t1 ⟨Nat.zero_le _, hx, hy0, by rw [hye]; exact hin, Nat.zero_le _, hz⟩
  · have c1 : x / m.bs < m.mx := by rw [w6]; exact div_lt_ceil hb hx
    have c2 : y / m.bs < (ny + m.bs - 1) / m.bs := div_lt_ceil hb hy
    have c3 : z / m.bs < m.mz := by rw [w8]; exact div_lt_ceil hb hz
    have c0 : m.my ≤ y / m.bs := by
      rw [Nat.le_div_iff_mul_le hb, Nat.mul_comm]; omega
    obtain ⟨e1, e2⟩ := (r4 _ _ _ c1 c2 c3).1 ⟨Nat.zero_le _, c1, c0, c2, Nat.zero_le _, c3⟩
    rw [t2 (fun c => hin (by rw [← hye]; exact c.2.2.2.1))]
    exact regrid_fresh m m.nx ny m.nz m.mx _ m.mz _ _ x y z d e1 e2

/-- The z axis of `sparIntResize` grown past the old block grid: every new
coordinate reads `d`. -/
theorem resizeZ_fresh {m : sparInt} (hm : WF m) (d : Int) (nz : Nat)
    (hgt : m.bs * m.mz < nz) (x y z : Nat) (hx : x < m.nx) (hy : y < m.ny)
    (hz0 : m.nz ≤ z) (hz : z < nz) :
    sparIntGet (resizeZ m m.bs d nz) x y z = d := by
  have hb := hm.bs_pos
  have hwf := hm
  unfold WF at hwf
  obtain ⟨w1, w2, w3, w4, w5, w6, w7, w8, w9, w10, w11⟩ := hwf
  have hle : m.nz ≤ m.bs * m.mz := by rw [w8]; exact le_mul_ceil hb
  have h1 : nz > m.nz := by omega
  have hnz : 0 < nz := by omega
  unfold resizeZ
  rw [if_pos h1]
  have hmono : m.mz ≤ (nz + m.bs - 1) / m.bs := by
    rw [w8]; exact ceil_mono (le_of_lt h1)
  obtain ⟨r1, r2, r3, r4⟩ := rebuilt_spec m d m.mx m.my ((nz + m.bs - 1) / m.bs)
    m.mx m.my m.mz 0 m.mx 0 m.my m.mz ((nz + m.bs - 1) / m.bs)
    (le_refl _) (le_refl _) (le_refl _) (le_refl _) _ rfl
  obtain ⟨g1, g2⟩ := regrid hm m.nx m.ny nz m.mx m.my ((nz + m.bs - 1) / m.bs) _ _
    w1 w2 hnz w6 w7 rfl r1 r2 (r3 w11)
    (fun i j k a1 a2 a3 a4 a5 a6 => (r4 i j k a1 a2 a3).2 (by omega) a4 a5 a6)
  have hzf : (if m.bs * m.mz ≥ nz then nz - 1 else m.bs * m.mz) ≤ nz := by
    split <;> omega
  obtain ⟨s1, s2, s3⟩ := setBox_spec g1 d 0 m.nx 0 m.ny m.nz
    (if m.bs * m.mz ≥ nz then nz - 1 else m.bs * m.mz)
    (le_refl _) (le_refl _) hzf
  have hze : (if m.bs * m.mz ≥ nz then nz - 1 else m.bs * m.mz) = m.bs * m.mz :=
    if_neg (by omega)
  obtain ⟨t1, t2⟩ := s3 x y z ⟨hx, hy, hz⟩
  by_cases hin : z < m.bs * m.mz
  · exact t1 ⟨Nat.zero_le _, hx, Nat.zero_le _, hy, hz0, by rw [hze]; exact hin⟩
  · have c1 : x / m.bs < m.mx := by rw [w6]; exact div_lt_ceil hb hx
    have c2 : y / m.bs < m.my := by rw [w7]; exact div_lt_ceil hb hy
    have c3 : z / m.bs < (nz + m.bs - 1) / m.bs := div_lt_ceil hb hz
    have c0 : m.mz ≤ z / m.bs := by
      rw [Nat.le_div_iff_mul_le hb, Nat.mul_comm]; omega
    obtain ⟨e1, e2⟩ := (r4 _ _ _ c1 c2 c3).1 ⟨Nat.zero_le _, c1, Nat.zero_le _, c2, c0, c3⟩
    rw [t2 (fun c => hin (by rw [← hze]; exact c.2.2.2.2.2))]
    exact regrid_fresh m m.nx m.ny nz m.mx m.my _ _ _ x y z d e1 e2

theorem WF.grid {m : sparInt} (h : WF m) :
    m.mx = (m.nx + m.bs - 1) / m.bs ∧ m.my = (m.ny + m.bs - 1) / m.bs ∧
    m.mz = (m.nz + m.bs - 1) / m.bs := by
  unfold WF at h
  exact ⟨h.2.2.2.2.2.1, h.2.2.2.2.2.2.1, h.2.2.2.2.2.2.2.1⟩

/-- After `sparIntResize` in which every growing axis grows past the old
block grid, every coordinate of the new sizes that was outside the old sizes
reads the default value. -/
theorem sparIntResize_fresh {m : sparInt} (hm : WF m) (nx ny nz : Nat)
    (hx : 0 < nx) (hy : 0 < ny) (hz : 0 < nz)
    (gx : m.nx < nx → m.bs * m.mx < nx) (gy : m.ny < ny → m.bs * m.my < ny)
    (gz : m.nz < nz → m.bs * m.mz < nz) :
    ∃ r, sparIntResize m nx ny nz = some r ∧ WF r ∧
      r.nx = nx ∧ r.ny = ny ∧ r.nz = nz ∧ r.def_ = m.def_ ∧
      ∀ x y z, x < nx → y < ny → z < nz → ¬ InRange m x y z →
        sparIntGet r x y z = m.def_ := by
  obtain ⟨_, gm2, gm3⟩ := hm.grid
  unfold sparIntResize
  have hpos : ((nx : Int) > 0 ∧ (ny : Int) > 0 ∧ (nz : Int) > 0) := by omega
  rw [if_neg (not_not.mpr hpos)]
  simp only [Int.toNat_natCast]
  obtain ⟨a1, a2, a3, a4, a5, a6, a7⟩ := resizeX_spec hm m.def_ nx hx
  have aF := resizeX_fresh hm m.def_ nx
  generalize resizeX m m.bs m.def_ nx = mX at a1 a2 a3 a4 a5 a6 a7 aF
  have amy : mX.my = m.my := by rw [a1.grid.2.1, a3, a5, ← gm2]
  have amz : mX.mz = m.mz := by rw [a1.grid.2.2, a4, a5, ← gm3]
  obtain ⟨b1, b2, b3, b4, b5, b6, b7⟩ := resizeY_spec a1 m.def_ ny hy
  have bF := resizeY_fresh a1 m.def_ ny
  rw [a5] at b1 b2 b3 b4 b5 b6 b7 bF
  generalize resizeY mX m.bs m.def_ ny = mY at b1 b2 b3 b4 b5 b6 b7 bF
  have bmz : mY.mz = m.mz := by rw [b1.grid.2.2, b4, b5, a4, ← gm3]
  obtain ⟨c1, c2, c3, c4, c5, c6, c7⟩ := resizeZ_spec b1 m.def_ nz hz
  have cF := resizeZ_fresh b1 m.def_ nz
  rw [b5] at c1 c2 c3 c4 c5 c6 c7 cF
  generalize resizeZ mY m.bs m.def_ nz = mZ at c1 c2 c3 c4 c5 c6 c7 cF
  refine ⟨mZ, rfl, c1, by rw [c2, b2, a2], by rw [c3, b3], c4, by rw [c6, b6, a6], ?_⟩
  intro x y z h1 h2 h3 hout
  by_cases hz0 : z < m.nz
  · have rY : ∀ y', y' < ny → InRange mY x y' z := by
      intro y' hy'
      unfold InRange; rw [b2, b3, b4, a2, a4]; exact ⟨h1, hy', hz0⟩
    by_cases hy0 : y < m.ny
    · have hx0 : m.nx ≤ x := by
        by_contra hc
        exact hout ⟨by omega, hy0, hz0⟩
      have rX : InRange mX x y z := by
        unfold InRange; rw [a2, a3, a4]; exact ⟨h1, hy0, hz0⟩
      rw [c7 x y z (rY y h2) h3, b7 x y z rX h2]
      exact aF (gx (by omega)) x y z hx0 h1 hy0 hz0
    · rw [c7 x y z (rY y h2) h3]
      have hg : m.bs * mX.my < ny := by rw [amy]; exact gy (by omega)
      exact bF hg x y z (by rw [a2]; exact h1) (by rw [a3]; omega) h2 (by rw [a4]; exact hz0)
  · have hg : m.bs * mY.mz < nz := by rw [bmz]; exact gz (by omega)
    exact cF hg x y z (by rw [b2, a2]; exact h1) (by rw [b3]; exact h2)
      (by rw [b4, a4]; omega) h3

/-! ## The reads of `sparIntMemoryBs` -/

/-- The number of blocks of a grid, as an integer. -/
theorem grid_cast (nx ny nz bs : Nat) (hb : 0 < bs) :
    (((nx + bs - 1) / bs * ((ny + bs - 1) / bs) * ((nz + bs - 1) / bs) : Nat) : Int) =
      ((nx : Int) + bs - 1) / bs * (((ny : Int) + bs - 1) / bs) *
        (((nz : Int) + bs - 1) / bs) := by
  have c : ∀ n : Nat, ((n + bs - 1 : Nat) : Int) = (n : Int) + (bs : Int) - 1 := by
    intro n; omega
  push_cast
  rw [c, c, c]

/-- The number of blocks of a well-formed matrix, as an integer. -/
theorem WF.blocks_cast {r : sparInt} (h : WF r) :
    ((r.mx * r.my * r.mz : Nat) : Int) =
      ((r.nx : Int) + r.bs - 1) / r.bs * (((r.ny : Int) + r.bs - 1) / r.bs) *
        (((r.nz : Int) + r.bs - 1) / r.bs) := by
  obtain ⟨g1, g2, g3⟩ := h.grid
  rw [g1, g2, g3]
  exact grid_cast _ _ _ _ h.bs_pos

/-- A well-formed matrix whose sizes and block size satisfy `initFits` has a
`bs3` and a number of blocks within `INT_MAX`. -/
theorem WF.fits {r : sparInt} (h : WF r) {nx ny nz bs : Int}
    (e1 : (r.nx : Int) = nx) (e2 : (r.ny : Int) = ny) (e3 : (r.nz : Int) = nz)
    (e4 : (r.bs : Int) = bs) (hf : initFits nx ny nz bs) :
    (r.bs3 : Int) ≤ INT_MAX ∧ ((r.mx * r.my * r.mz : Nat) : Int) ≤ INT_MAX := by
  subst e1 e2 e3 e4
  unfold initFits at hf
  have h3 : r.bs3 = r.bs * r.bs * r.bs := by unfold WF at h; exact h.2.2.2.2.1
  constructor
  · rw [h3]; push_cast; exact hf.1
  · rw [h.blocks_cast]; exact hf.2.2.2.2

/-- The result of a resize under `resizeFits` has a number of blocks within
`INT_MAX`. -/
theorem WF.resized_fits {r m : sparInt} (h : WF r) {nx ny nz : Int}
    (e1 : (r.nx : Int) = nx) (e2 : (r.ny : Int) = ny) (e3 : (r.nz : Int) = nz)
    (e4 : r.bs = m.bs) (hf : resizeFits m nx ny nz) :
    ((r.mx * r.my * r.mz : Nat) : Int) ≤ INT_MAX := by
  subst e1 e2 e3
  unfold resizeFits at hf
  rw [h.blocks_cast, e4]
  exact hf.2.2.2.2.2

/-- No matrix with block size 1291 and a `bs3` within `INT_MAX` is well
formed: `1291 * 1291 * 1291 = 2151685171`. -/
theorem no_int_bs3 (q : sparInt) (hb : q.bs = 1291) (h3 : (q.bs3 : Int) ≤ INT_MAX) :
    ¬ WF q := by
  intro h
  have e : q.bs3 = q.bs * q.bs * q.bs := by unfold WF at h; exact h.2.2.2.2.1
  rw [e, hb] at h3
  unfold INT_MAX at h3
  omega

/-! ## The claims -/

/-- C1 (set then get).  On a well-formed matrix, reading a coordinate inside
the matrix right after `sparIntSet` wrote `v` there returns `v`; the statement
covers the four paths of `sparIntSet` (uniform block with the same value,
expansion of a uniform block, write to a heterogeneous block without and with
reduction). -/
theorem C1_set_then_get (m : sparInt) (x y z : Nat) (v : Int)
    (hm : WF m) (hr : InRange m x y z) :
    sparIntGet (sparIntSet m x y z v) x y z = v := by
  rw [get_set hm v hr hr, if_pos ⟨rfl, rfl, rfl⟩]

/-- Witness of C1: a write into a heterogeneous boundary block that is reduced
to a uniform block by the write. -/
theorem C1_set_then_get_witness :
    WF (sparIntSet corner0 2 2 2 7) ∧ InRange (sparIntSet corner0 2 2 2 7) 2 2 2 ∧
    sparIntGet (sparIntSet (sparIntSet corner0 2 2 2 7) 2 2 2 9) 2 2 2 = 9 :=
  ⟨by decide, by decide,
    C1_set_then_get (sparIntSet corner0 2 2 2 7) 2 2 2 9 (by decide) (by decide)⟩

/-- C2 (construction), arguments on which `sparIntInit` overflows.  The
sizes `2147483647, 1, 1` and the block size `2` pass both checks of
`sparIntInit`, but the `int` sum `nx + bs` of `( nx + bs - 1 ) / bs` is
`INT_MAX + 2`: the expression is outside the range of `int`, which is
undefined behaviour in C, so the call has no defined result. -/
theorem C2_init_overflows :
    ((0 : Int) < 2147483647 ∧ (0 : Int) < 1 ∧ (1 : Int) < 2) ∧
    (2147483647 : Int) + 2 = INT_MAX + 2 ∧
    ¬ initFits 2147483647 1 1 2 := by
  refine ⟨by decide, by decide, ?_⟩
  unfold initFits INT_MAX
  omega

/-- C2 (construction), amended.  For positive sizes and a block size above
one for which the `int` expressions of `sparIntInit` stay within `INT_MAX`
(`initFits`), `sparIntInit` returns a matrix with the given sizes whose
`mx * my * mz` blocks are all uniform (`blockData` is `NULL`) with value `d`,
`sparIntGet` returns `d` at every coordinate inside the matrix, and `bs3` and
the number of blocks are values of `int`. -/
theorem C2_init_all_default (nx ny nz bs d : Int)
    (hx : 0 < nx) (hy : 0 < ny) (hz : 0 < nz) (hb : 1 < bs) (hf : initFits nx ny nz bs) :
    ∃ m, sparIntInit nx ny nz bs d = some m ∧
      (m.nx : Int) = nx ∧ (m.ny : Int) = ny ∧ (m.nz : Int) = nz ∧ (m.bs : Int) = bs ∧
      m.def_ = d ∧
      m.blockData = List.replicate (m.mx * m.my * m.mz) none ∧
      m.blockValue = List.replicate (m.mx * m.my * m.mz) d ∧
      (∀ x y z : Nat, (x : Int) < nx → (y : Int) < ny → (z : Int) < nz →
        sparIntGet m x y z = d) ∧
      (m.bs3 : Int) ≤ INT_MAX ∧ ((m.mx * m.my * m.mz : Nat) : Int) ≤ INT_MAX := by
  obtain ⟨a, rfl⟩ := Int.eq_ofNat_of_zero_le (le_of_lt hx)
  obtain ⟨b, rfl⟩ := Int.eq_ofNat_of_zero_le (le_of_lt hy)
  obtain ⟨c, rfl⟩ := Int.eq_ofNat_of_zero_le (le_of_lt hz)
  obtain ⟨s, rfl⟩ := Int.eq_ofNat_of_zero_le (le_of_lt (lt_trans Int.zero_lt_one hb))
  have ha : 0 < a := by omega
  have hb2 : 0 < b := by omega
  have hc : 0 < c := by omega
  have hs : 1 < s := by omega
  have hw := initMatrix_WF a b c s d ha hb2 hc hs
  refine ⟨initMatrix a b c s d, sparIntInit_eq a b c s d ha hb2 hc hs,
    rfl, rfl, rfl, rfl, rfl, rfl, rfl, ?_, hw.fits rfl rfl rfl rfl hf⟩
  intro x y z h1 h2 h3
  exact get_all_uniform hw d rfl rfl
    (show x < a ∧ y < b ∧ z < c from ⟨by omega, by omega, by omega⟩)

/-- Witness of C2: `sparIntInit(4,4,4,2,0)`. -/
theorem C2_init_all_default_witness :
    initFits 4 4 4 2 ∧
    ∃ m, sparIntInit 4 4 4 2 0 = some m ∧
      (m.nx : Int) = 4 ∧ (m.ny : Int) = 4 ∧ (m.nz : Int) = 4 ∧ (m.bs : Int) = 2 ∧
      m.def_ = 0 ∧
      m.blockData = List.replicate (m.mx * m.my * m.mz) none ∧
      m.blockValue = List.replicate (m.mx * m.my * m.mz) 0 ∧
      (∀ x y z : Nat, (x : Int) < 4 → (y : Int) < 4 → (z : Int) < 4 →
        sparIntGet m x y z = 0) ∧
      (m.bs3 : Int) ≤ INT_MAX ∧ ((m.mx * m.my * m.mz : Nat) : Int) ≤ INT_MAX :=
  ⟨by decide, C2_init_all_default 4 4 4 2 0 (by decide) (by decide) (by decide) (by decide)
    (by decide)⟩

/-- C3 (resize keeps the surviving data), a new shape on which
`sparIntResize` overflows.  The matrix of the boundary scenario is well
formed and the new sizes `2147483647, 3, 3` are positive, but in `Expand x`
the `int` sum `nx + bs` of `( nx + bs - 1 ) / bs` is `INT_MAX + 2`. -/
theorem C3_resize_overflows :
    WF corner0 ∧ ((0 : Int) < 2147483647 ∧ (0 : Int) < 3) ∧
    (2147483647 : Int) + corner0.bs = INT_MAX + 2 ∧
    ¬ resizeFits corner0 2147483647 3 3 := by
  refine ⟨by decide, by decide, by decide, ?_⟩
  unfold resizeFits INT_MAX
  have e : corner0.bs = 2 := rfl
  rw [e]
  omega

/-- C3 (resize keeps the surviving data), amended.  For a well-formed matrix
and positive new sizes for which the `int` expressions of `sparIntResize`
stay within `INT_MAX` (`resizeFits`), `sparIntResize` returns a matrix with a
number of blocks within `INT_MAX`, and every coordinate inside both the old
and the new matrix reads after the resize what it read before, whichever
axes grow, shrink or stay. -/
theorem C3_resize_keeps_data (m : sparInt) (nx ny nz : Int) (hm : WF m)
    (hx : 0 < nx) (hy : 0 < ny) (hz : 0 < nz) (hf : resizeFits m nx ny nz) :
    ∃ r, sparIntResize m nx ny nz = some r ∧
      ((r.mx * r.my * r.mz : Nat) : Int) ≤ INT_MAX ∧
      ∀ x y z : Nat, x < m.nx → y < m.ny → z < m.nz →
        (x : Int) < nx → (y : Int) < ny → (z : Int) < nz →
        sparIntGet r x y z = sparIntGet m x y z := by
  obtain ⟨a, rfl⟩ := Int.eq_ofNat_of_zero_le (le_of_lt hx)
  obtain ⟨b, rfl⟩ := Int.eq_ofNat_of_zero_le (le_of_lt hy)
  obtain ⟨c, rfl⟩ := Int.eq_ofNat_of_zero_le (le_of_lt hz)
  obtain ⟨r, h1, hw, e1, e2, e3, e4, _, h2⟩ :=
    sparIntResize_spec hm a b c (by omega) (by omega) (by omega)
  refine ⟨r, h1, hw.resized_fits (by rw [e1]) (by rw [e2]) (by rw [e3]) e4 hf,
    fun x y z a1 a2 a3 a4 a5 a6 => ?_⟩
  exact h2 x y z ⟨a1, a2, a3⟩ (by omega) (by omega) (by omega)

/-- Witness of C3: a resize of the boundary scenario that grows x, shrinks
y and keeps z. -/
theorem C3_resize_keeps_data_witness :
    WF (sparIntSet corner0 1 1 1 9) ∧ resizeFits (sparIntSet corner0 1 1 1 9) 5 2 3 ∧
    ∃ r, sparIntResize (sparIntSet corner0 1 1 1 9) 5 2 3 = some r ∧
      ((r.mx * r.my * r.mz : Nat) : Int) ≤ INT_MAX ∧
      ∀ x y z : Nat, x < (sparIntSet corner0 1 1 1 9).nx →
        y < (sparIntSet corner0 1 1 1 9).ny → z < (sparIntSet corner0 1 1 1 9).nz →
        (x : Int) < 5 → (y : Int) < 2 → (z : Int) < 3 →
        sparIntGet r x y z = sparIntGet (sparIntSet corner0 1 1 1 9) x y z :=
  ⟨by decide, by decide, C3_resize_keeps_data (sparIntSet corner0 1 1 1 9) 5 2 3 (by decide)
    (by decide) (by decide) (by decide) (by decide)⟩

/-- C4 (new regions after resize), evaluation at a failing input.  The
matrix `stale0` is reached by `sparIntInit(2,1,1,2,0)`, `sparIntSet(1,0,0,5)`,
`sparIntResize(1,1,1)`.  `sparIntResize(2,1,1)` then grows x from 1 to 2 inside
the existing block: the fill loop runs over `xi = 1 ≤ i < xf = nx - 1 = 1`,
writes nothing, and the new coordinate `(1,0,0)` reads the stale 5 instead of
the default 0. -/
theorem C4_resize_new_region_stale :
    ((sparIntInit 2 1 1 2 0).bind
      (fun m => sparIntResize (sparIntSet m 1 0 0 5) 1 1 1) = some stale0) ∧
    WF stale0 ∧
    ∃ r, sparIntResize stale0 2 1 1 = some r ∧ r.nx = 2 ∧ r.def_ = 0 ∧
      sparIntGet r 1 0 0 = 5 := by
  refine ⟨by decide, by decide, ?_⟩
  exact ⟨⟨2, 1, 1, 2, 8, 1, 1, 1, [0], [some [0, 5, 0, 0, 0, 0, 0, 0]], 0⟩,
    by decide, rfl, rfl, by decide⟩

/-- C5 (change of the block size keeps the content), a block size on which
`sparIntChangeBs` overflows.  The matrix of the boundary scenario is well
formed and `1291 > 1`, so the `sparIntInit` call inside `sparIntChangeBs`
passes its checks; its `int` product `bs * bs * bs` is `2151685171`, above
`INT_MAX`, and no matrix with block size 1291 and a `bs3` within `INT_MAX`
has payloads of `bs^3` values. -/
theorem C5_changeBs_overflows :
    WF corner0 ∧ (1 : Int) < 1291 ∧
    (1291 : Int) * 1291 * 1291 = 2151685171 ∧ INT_MAX < (1291 : Int) * 1291 * 1291 ∧
    ¬ initFits corner0.nx corner0.ny corner0.nz 1291 ∧
    (∃ r, sparIntChangeBs corner0 1291 = some r ∧ r.bs = 1291 ∧ INT_MAX < (r.bs3 : Int)) := by
  refine ⟨by decide, by decide, by decide, by decide, by decide, ?_⟩
  obtain ⟨r, h1, h2, _, _, _, _, h3, _⟩ :=
    sparIntChangeBs_spec (m := corner0) (by decide) 1291 (by decide)
  refine ⟨r, h1, h3, ?_⟩
  by_contra hc
  exact no_int_bs3 r h3 (not_lt.mp hc) h2

/-- C5 (change of the block size keeps the content), amended.  For a
well-formed matrix and a new block size above one for which the `int`
expressions of the `sparIntInit` call stay within `INT_MAX` (`initFits`),
`sparIntChangeBs` returns a matrix with the same `nx, ny, nz, def` and the new
block size, with `bs3` and the number of blocks within `INT_MAX`, that reads
at every coordinate inside the matrix what the old one read; changing back to
the old block size again gives a matrix with the old block size that reads
like the original. -/
theorem C5_changeBs_keeps_content (m : sparInt) (bs : Int) (hm : WF m) (hb : 1 < bs)
    (hf : initFits m.nx m.ny m.nz bs) :
    ∃ r, sparIntChangeBs m bs = some r ∧
      r.nx = m.nx ∧ r.ny = m.ny ∧ r.nz = m.nz ∧ r.def_ = m.def_ ∧ (r.bs : Int) = bs ∧
      (r.bs3 : Int) ≤ INT_MAX ∧ ((r.mx * r.my * r.mz : Nat) : Int) ≤ INT_MAX ∧
      (∀ x y z, InRange m x y z → sparIntGet r x y z = sparIntGet m x y z) ∧
      ∃ r2, sparIntChangeBs r m.bs = some r2 ∧
        r2.nx = m.nx ∧ r2.ny = m.ny ∧ r2.nz = m.nz ∧ r2.def_ = m.def_ ∧ r2.bs = m.bs ∧
        ∀ x y z, InRange m x y z → sparIntGet r2 x y z = sparIntGet m x y z := by
  obtain ⟨s, rfl⟩ := Int.eq_ofNat_of_zero_le (le_of_lt (lt_trans Int.zero_lt_one hb))
  obtain ⟨r, h1, h2, h3, h4, h5, h6, h7, h8⟩ := sparIntChangeBs_spec hm s (by omega)
  have hmb : 1 < m.bs := by unfold WF at hm; exact hm.2.2.2.1
  obtain ⟨r2, g1, g2, g3, g4, g5, g6, g7, g8⟩ := sparIntChangeBs_spec h2 m.bs hmb
  obtain ⟨f1, f2⟩ := h2.fits (by rw [h3]) (by rw [h4]) (by rw [h5]) (by rw [h7]) hf
  refine ⟨r, h1, h3, h4, h5, h6, by rw [h7], f1, f2, h8, r2, g1, g3.trans h3, g4.trans h4,
    g5.trans h5, g6.trans h6, g7, ?_⟩
  intro x y z hr
  rw [g8 x y z (by unfold InRange at hr ⊢; rw [h3, h4, h5]; exact hr), h8 x y z hr]

/-- Witness of C5: the boundary scenario with one written element, changed
from block size 2 to block size 3. -/
theorem C5_changeBs_keeps_content_witness :
    WF (sparIntSet corner0 1 1 1 9) ∧
    initFits (sparIntSet corner0 1 1 1 9).nx (sparIntSet corner0 1 1 1 9).ny
      (sparIntSet corner0 1 1 1 9).nz 3 ∧
    ∃ r, sparIntChangeBs (sparIntSet corner0 1 1 1 9) 3 = some r ∧
      r.nx = (sparIntSet corner0 1 1 1 9).nx ∧ r.ny = (sparIntSet corner0 1 1 1 9).ny ∧
      r.nz = (sparIntSet corner0 1 1 1 9).nz ∧ r.def_ = (sparIntSet corner0 1 1 1 9).def_ ∧
      (r.bs : Int) = 3 ∧
      (r.bs3 : Int) ≤ INT_MAX ∧ ((r.mx * r.my * r.mz : Nat) : Int) ≤ INT_MAX ∧
      (∀ x y z, InRange (sparIntSet corner0 1 1 1 9) x y z →
        sparIntGet r x y z = sparIntGet (sparIntSet corner0 1 1 1 9) x y z) ∧
      ∃ r2, sparIntChangeBs r (sparIntSet corner0 1 1 1 9).bs = some r2 ∧
        r2.nx = (sparIntSet corner0 1 1 1 9).nx ∧ r2.ny = (sparIntSet corner0 1 1 1 9).ny ∧
        r2.nz = (sparIntSet corner0 1 1 1 9).nz ∧
        r2.def_ = (sparIntSet corner0 1 1 1 9).def_ ∧
        r2.bs = (sparIntSet corner0 1 1 1 9).bs ∧
        ∀ x y z, InRange (sparIntSet corner0 1 1 1 9) x y z →
          sparIntGet r2 x y z = sparIntGet (sparIntSet corner0 1 1 1 9) x y z :=
  ⟨by decide, by decide, C5_changeBs_keeps_content (sparIntSet corner0 1 1 1 9) 3 (by decide)
    (by decide) (by decide)⟩

/-- C6 (duplicate is a faithful independent clone).  The payloads live on a
heap and `blockData` holds their addresses.  For a matrix `A` that is well
formed and whose pointers are addresses of the heap, the pointer-level
`sparIntDuplicate` returns a heap `g` and a matrix `B` such that: `B` is the
copy that `sparIntDuplicate` computes on the matrix `A` stands for, and `A`
still stands for the same matrix; `B` has the `nx, ny, nz, bs, def` of `A`;
slot `i` of `B` is heterogeneous exactly when slot `i` of `A` is, then at
another address and with the same payload; no payload is shared; `sparIntGet`
agrees on `A` and `B` inside the matrix; `sparIntMemory` agrees; and after any
sequence of `sparIntSet` calls on `A` every `sparIntGet` on `B` returns what
it returned before. -/
theorem C6_duplicate_independent_clone (sz : Sizeof) (h : Heap) (A : sparIntP)
    (hwf : WF (deref h A)) (hv : ValidPtrs h A) :
    ∃ g B, Ptr.sparIntDuplicate h A = some (g, B) ∧
      sparIntDuplicate (deref h A) = some (deref g B) ∧
      deref g A = deref h A ∧
      (B.nx = A.nx ∧ B.ny = A.ny ∧ B.nz = A.nz ∧ B.bs = A.bs ∧ B.def_ = A.def_) ∧
      (∀ i, i < A.mx * A.my * A.mz →
        (ptrAt B.blockData i = none ↔ ptrAt A.blockData i = none) ∧
        ∀ a b, ptrAt A.blockData i = some a → ptrAt B.blockData i = some b →
          a ≠ b ∧ payloadAt g b = payloadAt g a) ∧
      (∀ a, some a ∈ A.blockData → some a ∉ B.blockData) ∧
      (∀ x y z, x < A.nx → y < A.ny → z < A.nz →
        Ptr.sparIntGet g B x y z = Ptr.sparIntGet g A x y z) ∧
      sparIntMemory sz (deref g B) = sparIntMemory sz (deref g A) ∧
      ∀ (ops : List (Nat × Nat × Nat × Int)) (x y z : Nat),
        Ptr.sparIntGet (Ptr.setAll g A ops).1 B x y z = Ptr.sparIntGet g B x y z := by
  have hv2 : ∀ a, some a ∈ A.blockData → a < h.length := fun a ha => hv (some a) ha a rfl
  obtain ⟨g, B, hdup, hinv, f1, f2, f3, f4, f5, f6, f7, f8, f9⟩ :=
    ptrDuplicate_spec h A hwf hv2
  have hlink := ptrDuplicate_refines hwf hinv ⟨f1, f2, f3, f4, f5, f6, f7, f8, f9⟩
  have horig := hinv.original hv2
  obtain ⟨r, hr, _, rs, rbd, rv1, _⟩ := sparIntDuplicate_spec hwf
  rw [hlink] at hr
  simp only [Option.some.injEq] at hr
  subst hr
  obtain ⟨a1, a2, a3, a4, a5, a6⟩ := hinv
  simp only at a1 a2 a3 a4 a5 a6
  refine ⟨g, B, hdup, hlink, horig, ⟨f1, f2, f3, f4, f9⟩, ?_, ?_, ?_, ?_, ?_⟩
  · intro i hi
    obtain ⟨p1, p2⟩ := (a6 i hi).1 hi
    constructor
    · constructor
      · intro hn
        cases hd : ptrAt A.blockData i with
        | none => rfl
        | some a =>
          obtain ⟨b, q1, _⟩ := p2 a hd
          rw [hn] at q1
          simp at q1
      · intro hn
        exact (p1 hn).1
    · intro a b ha hb
      obtain ⟨b', q1, q2, _⟩ := p2 a ha
      rw [hb] at q1
      simp only [Option.some.injEq] at q1
      subst q1
      have hb2 := a5 b (ptrAt_mem hb)
      have ha2 := hv2 a (ptrAt_mem ha)
      exact ⟨by omega, by rw [q2, a2 a ha2]⟩
  · intro a ha hb
    have := a5 a hb
    have := hv2 a ha
    omega
  · intro x y z hx hy hz
    rw [ptrGet_deref, ptrGet_deref, horig]
    exact get_congr_blocks hwf rs rbd rv1 (show InRange (deref h A) x y z from ⟨hx, hy, hz⟩)
  · rw [horig]
    exact memory_congr_blocks sz rs rbd
  · intro ops x y z
    rw [ptrGet_deref, ptrGet_deref]
    congr 1
    apply deref_congr
    intro b hb
    have := a5 b hb
    exact setAll_frame h.length g.length ops g A (le_refl _)
      (fun a ha => Or.inl (hv2 a ha)) b this.1 this.2

/-- Witness of C6: the boundary scenario with one heterogeneous block, its
payload at address 0 of a heap with one payload. -/
theorem C6_duplicate_independent_clone_witness :
    WF (deref cornerHeap cornerP) ∧ ValidPtrs cornerHeap cornerP ∧
    ∃ g B, Ptr.sparIntDuplicate cornerHeap cornerP = some (g, B) ∧
      sparIntDuplicate (deref cornerHeap cornerP) = some (deref g B) ∧
      deref g cornerP = deref cornerHeap cornerP ∧
      (B.nx = cornerP.nx ∧ B.ny = cornerP.ny ∧ B.nz = cornerP.nz ∧ B.bs = cornerP.bs ∧
        B.def_ = cornerP.def_) ∧
      (∀ i, i < cornerP.mx * cornerP.my * cornerP.mz →
        (ptrAt B.blockData i = none ↔ ptrAt cornerP.blockData i = none) ∧
        ∀ a b, ptrAt cornerP.blockData i = some a → ptrAt B.blockData i = some b →
          a ≠ b ∧ payloadAt g b = payloadAt g a) ∧
      (∀ a, some a ∈ cornerP.blockData → some a ∉ B.blockData) ∧
      (∀ x y z, x < cornerP.nx → y < cornerP.ny → z < cornerP.nz →
        Ptr.sparIntGet g B x y z = Ptr.sparIntGet g cornerP x y z) ∧
      sparIntMemory ⟨56, 4, 8⟩ (deref g B) = sparIntMemory ⟨56, 4, 8⟩ (deref g cornerP) ∧
      ∀ (ops : List (Nat × Nat × Nat × Int)) (x y z : Nat),
        Ptr.sparIntGet (Ptr.setAll g cornerP ops).1 B x y z = Ptr.sparIntGet g B x y z :=
  ⟨by decide, by decide,
    C6_duplicate_independent_clone ⟨56, 4, 8⟩ cornerHeap cornerP (by decide) (by decide)⟩

/-- C7 (reset).  After `sparIntReset` on a well-formed matrix every block is
uniform with the default value (no payload is left), `sparIntGet` returns the
default value at every coordinate inside the matrix, and
`nx, ny, nz, bs, mx, my, mz, def` are not changed. -/
theorem C7_reset_all_default (m : sparInt) (hm : WF m) :
    (sparIntReset m).blockData = List.replicate (m.mx * m.my * m.mz) none ∧
    (sparIntReset m).blockValue = List.replicate (m.mx * m.my * m.mz) m.def_ ∧
    (∀ x y z, InRange m x y z → sparIntGet (sparIntReset m) x y z = m.def_) ∧
    (sparIntReset m).nx = m.nx ∧ (sparIntReset m).ny = m.ny ∧ (sparIntReset m).nz = m.nz ∧
    (sparIntReset m).bs = m.bs ∧ (sparIntReset m).mx = m.mx ∧ (sparIntReset m).my = m.my ∧
    (sparIntReset m).mz = m.mz ∧ (sparIntReset m).def_ = m.def_ := by
  rw [sparIntReset_eq hm]
  refine ⟨rfl, rfl, ?_, rfl, rfl, rfl, rfl, rfl, rfl, rfl, rfl⟩
  intro x y z hr
  exact get_all_uniform
    (hm.update _ _ (by rw [List.length_replicate, hm.lengths.1])
      (by rw [List.length_replicate, hm.lengths.2])
      (by
        intro p hp q hq
        rw [(List.mem_replicate.mp hp).2] at hq
        simp at hq))
    m.def_ rfl rfl hr

/-- Witness of C7: reset of a matrix with one heterogeneous block. -/
theorem C7_reset_all_default_witness :
    WF (sparIntSet corner0 1 1 1 9) ∧
    (sparIntReset (sparIntSet corner0 1 1 1 9)).blockData = List.replicate 8 none :=
  ⟨by decide, (C7_reset_all_default (sparIntSet corner0 1 1 1 9) (by decide)).1⟩

/-- C8 (compaction on homogeneity), evaluation at the failing input of the
specification.  After `sparIntInit(3,3,3,2,1)` the corner block `(1,1,1)` (slot
7) has the single position `(0,0,0)` inside the matrix, coordinate `(2,2,2)`.
`sparIntSet(2,2,2,7)` writes 7 to it; the block is then heterogeneous with
payload `[7,1,1,1,1,1,1,1]` and not uniform with value 7. -/
theorem C8_corner_block_stays_dense :
    sparIntInit 3 3 3 2 1 = some corner0 ∧
    blockIndex corner0 2 2 2 = 7 ∧
    (∀ i < 2, ∀ j < 2, ∀ k < 2, posInside corner0 1 1 1 i j k ↔ (i = 0 ∧ j = 0 ∧ k = 0)) ∧
    dataAt (sparIntSet corner0 2 2 2 7).blockData 7 = some [7, 1, 1, 1, 1, 1, 1, 1] ∧
    valueAt (sparIntSet corner0 2 2 2 7).blockValue 7 = 1 := by
  refine ⟨by decide, by decide, by decide, by decide, by decide⟩

/-- C9 (set is idempotent on storage), evaluation at a failing input.  On
`sparIntInit(3,3,3,2,1)` the first `sparIntSet(2,2,2,7)` expands the corner
block to the payload `[7,1,1,1,1,1,1,1]`, the second one reduces it to a
uniform block with value 7: the two storage states differ. -/
theorem C9_set_twice_differs :
    WF corner0 ∧ InRange corner0 2 2 2 ∧
    (sparIntSet corner0 2 2 2 7).blockData =
      [none, none, none, none, none, none, none, some [7, 1, 1, 1, 1, 1, 1, 1]] ∧
    (sparIntSet (sparIntSet corner0 2 2 2 7) 2 2 2 7).blockData =
      [none, none, none, none, none, none, none, none] ∧
    (sparIntSet (sparIntSet corner0 2 2 2 7) 2 2 2 7).blockValue = [1, 1, 1, 1, 1, 1, 1, 7] ∧
    sparIntSet (sparIntSet corner0 2 2 2 7) 2 2 2 7 ≠ sparIntSet corner0 2 2 2 7 := by
  refine ⟨by decide, by decide, by decide, by decide, by decide, by decide⟩

/-- C10 (invariant I2 under point writes), evaluation at a failing input.
The state reached from `sparIntInit(3,3,3,2,1)` by the single call
`sparIntSet(2,2,2,7)` inside the matrix has a heterogeneous block whose
positions inside the matrix are all equal: I2 does not hold. -/
theorem C10_I2_broken_after_set :
    sparIntInit 3 3 3 2 1 = some corner0 ∧ I2 corner0 ∧ InRange corner0 2 2 2 ∧
    ¬ I2 (setAll corner0 [(2, 2, 2, 7)]) := by
  refine ⟨by decide, by decide, by decide, by decide⟩

/-- C13 (memory formula).  On a well-formed matrix with `B = mx*my*mz` slots
of which `D` are heterogeneous, `sparIntMemory` is
`sizeof(struct) + B*sizeof(int) + B*sizeof(pointer) + D*(sizeof(int)*bs^3)`,
an exact integer for any fixed `sizeof` values; for the matrix of
`sparIntInit(4,4,4,2,0)` it is `sizeof(struct) + 8*sizeof(int) + 8*sizeof(pointer)`. -/
theorem C13_memory_formula (sz : Sizeof) (m : sparInt) (hm : WF m) :
    sparIntMemory sz m =
      sz.szStruct + m.mx * m.my * m.mz * sz.szInt + m.mx * m.my * m.mz * sz.szPtr +
        (m.blockData.filter (fun o => o.isSome)).length * (sz.szInt * m.bs ^ 3) ∧
    m.blockData.length = m.mx * m.my * m.mz ∧
    ∀ r, sparIntInit 4 4 4 2 0 = some r →
      sparIntMemory sz r = sz.szStruct + 8 * sz.szInt + 8 * sz.szPtr := by
  refine ⟨?_, hm.lengths.2, ?_⟩
  · rw [sparIntMemory_eq sz m hm.lengths.2]
    have : m.bs3 = m.bs ^ 3 := by
      unfold WF at hm
      rw [hm.2.2.2.2.1]; ring
    rw [this]
  · intro r hr
    have e := sparIntInit_eq 4 4 4 2 0 (by decide) (by decide) (by decide) (by decide)
    simp only [Nat.cast_ofNat] at e
    rw [e] at hr
    simp only [Option.some.injEq] at hr
    subst hr
    rw [sparIntMemory_eq sz _ (by decide)]
    have h1 : (initMatrix 4 4 4 2 0).mx * (initMatrix 4 4 4 2 0).my *
        (initMatrix 4 4 4 2 0).mz = 8 := by decide
    have h2 : ((initMatrix 4 4 4 2 0).blockData.filter (fun o => o.isSome)).length = 0 := by
      decide
    rw [h1, h2]
    omega

/-- Witness of C13: the boundary scenario after `sparIntSet(1,1,1,9)`, with
one heterogeneous block, for `sizeof` values 56, 4 and 8. -/
theorem C13_memory_formula_witness :
    WF (sparIntSet corner0 1 1 1 9) ∧
    sparIntMemory ⟨56, 4, 8⟩ (sparIntSet corner0 1 1 1 9) = 56 + 8 * 4 + 8 * 8 + 1 * (4 * 2 ^ 3) :=
  ⟨by decide, (C13_memory_formula ⟨56, 4, 8⟩ (sparIntSet corner0 1 1 1 9) (by decide)).1⟩

/-- C14 (memoryBs at the current block size).  `sparIntMemoryBs` called with
the block size of the matrix returns `sparIntMemory` of the matrix. -/
theorem C14_memoryBs_same_bs (sz : Sizeof) (m : sparInt) :
    sparIntMemoryBs sz m m.bs = sparIntMemory sz m := by
  unfold sparIntMemoryBs
  rw [if_pos rfl]

set_option maxRecDepth 100000 in
/-- C15 (memoryBs is the cost after reclustering), evaluation at a failing
input.  For the matrix of `sparIntInit(3,3,3,3,0)`, `sparIntSet(2,2,2,7)` and
the block size 2, `sparIntMemoryBs` counts no heterogeneous block (the virtual
corner block has the single position `(2,2,2)` inside the matrix), but
`sparIntChangeBs` leaves the corner block heterogeneous, so `sparIntMemory`
of its result is larger by one payload. -/
theorem C15_memoryBs_underestimates :
    ((sparIntInit 3 3 3 3 0).map (fun m => sparIntSet m 2 2 2 7) = some recl0) ∧
    WF recl0 ∧
    sparIntMemoryBs ⟨56, 4, 8⟩ recl0 2 = 56 + 8 * 4 + 8 * 8 ∧
    ∃ r, sparIntChangeBs recl0 2 = some r ∧
      r.blockData = [none, none, none, none, none, none, none, some [7, 0, 0, 0, 0, 0, 0, 0]] ∧
      sparIntMemory ⟨56, 4, 8⟩ r = 56 + 8 * 4 + 8 * 8 + 4 * 8 := by
  refine ⟨by decide, by decide, by decide, ?_⟩
  exact ⟨⟨3, 3, 3, 2, 8, 2, 2, 2, [0, 0, 0, 0, 0, 0, 0, 0],
    [none, none, none, none, none, none, none, some [7, 0, 0, 0, 0, 0, 0, 0]], 0⟩,
    by decide, rfl, by decide⟩

/-- C18 (scenario `OptimizeBs reduces`), the statement fails.  For
`sparIntInit(12,12,12,8,0)`, `sparIntSet(5,5,5,1)` with `sizeof(int) = 4`,
pointers of 8 bytes and a header of 56 bytes, `sparIntMemoryBs(2)` is not
below `sparIntMemoryBs(8)`, and the block size after `sparIntOptimizeBs` is
not 2. -/
theorem C18_scenario_fails :
    (sparIntInit 12 12 12 8 0).map (fun m => sparIntSet m 5 5 5 1) = some optScene ∧
    ¬ (sparIntMemoryBs ⟨56, 4, 8⟩ optScene 2 < sparIntMemoryBs ⟨56, 4, 8⟩ optScene 8) ∧
    ¬ (∃ r, sparIntOptimizeBs ⟨56, 4, 8⟩ optScene = some r ∧ r.bs = 2) := by
  obtain ⟨c2, _, _, _, c8, _⟩ := optScene_costs 56
  obtain ⟨r, h1, h2⟩ := optScene_selected 56
  refine ⟨optScene_built, by rw [c2, c8]; decide, ?_⟩
  rintro ⟨r2, g1, g2⟩
  rw [h1] at g1
  simp only [Option.some.injEq] at g1
  subst g1
  rw [h2] at g2
  exact absurd g2 (by decide)

/-- C18 (scenario `OptimizeBs reduces`), as amended.  For
`sparIntInit(12,12,12,8,0)`, `sparIntSet(5,5,5,1)` with `sizeof(int) = 4`,
pointers of 8 bytes and any header size `hdr`: `sparIntMemoryBs` is
`hdr + 2624, 876, 580, 960, 2144, 4096` for the block sizes 2, 3, 4, 6, 8, 10,
so `sparIntMemoryBs(8) < sparIntMemoryBs(2)`, the least value is at block size
4, and after `sparIntOptimizeBs` the block size is 4. -/
theorem C18_scenario_selects_four (hdr : Nat) :
    (sparIntInit 12 12 12 8 0).map (fun m => sparIntSet m 5 5 5 1) = some optScene ∧
    sparIntMemoryBs ⟨hdr, 4, 8⟩ optScene 2 = hdr + 2624 ∧
    sparIntMemoryBs ⟨hdr, 4, 8⟩ optScene 3 = hdr + 876 ∧
    sparIntMemoryBs ⟨hdr, 4, 8⟩ optScene 4 = hdr + 580 ∧
    sparIntMemoryBs ⟨hdr, 4, 8⟩ optScene 6 = hdr + 960 ∧
    sparIntMemoryBs ⟨hdr, 4, 8⟩ optScene 8 = hdr + 2144 ∧
    sparIntMemoryBs ⟨hdr, 4, 8⟩ optScene 10 = hdr + 4096 ∧
    sparIntMemoryBs ⟨hdr, 4, 8⟩ optScene 8 < sparIntMemoryBs ⟨hdr, 4, 8⟩ optScene 2 ∧
    ∃ r, sparIntOptimizeBs ⟨hdr, 4, 8⟩ optScene = some r ∧ r.bs = 4 := by
  obtain ⟨c2, c3, c4, c6, c8, c10⟩ := optScene_costs hdr
  exact ⟨optScene_built, c2, c3, c4, c6, c8, c10, by rw [c2, c8]; omega,
    optScene_selected hdr⟩

/-- C19 (resize to the current shape).  On a well-formed matrix
`sparIntResize` with the current `nx, ny, nz` returns the matrix itself, every
field and the whole storage unchanged; and each axis of `sparIntResize`
returns its input when the new size of that axis equals the old one. -/
theorem C19_resize_same_shape (m : sparInt) (hm : WF m) :
    sparIntResize m m.nx m.ny m.nz = some m ∧
    ∀ (bs : Nat) (d : Int),
      resizeX m bs d m.nx = m ∧ resizeY m bs d m.ny = m ∧ resizeZ m bs d m.nz = m := by
  have hax : ∀ (bs : Nat) (d : Int),
      resizeX m bs d m.nx = m ∧ resizeY m bs d m.ny = m ∧ resizeZ m bs d m.nz = m := by
    intro bs d
    refine ⟨?_, ?_, ?_⟩
    · unfold resizeX
      rw [if_neg (Nat.lt_irrefl _), if_neg (Nat.lt_irrefl _)]
    · unfold resizeY
      rw [if_neg (Nat.lt_irrefl _), if_neg (Nat.lt_irrefl _)]
    · unfold resizeZ
      rw [if_neg (Nat.lt_irrefl _), if_neg (Nat.lt_irrefl _)]
  refine ⟨?_, hax⟩
  unfold WF at hm
  unfold sparIntResize
  have hpos : ((m.nx : Int) > 0 ∧ (m.ny : Int) > 0 ∧ (m.nz : Int) > 0) := by omega
  rw [if_neg (not_not.mpr hpos)]
  simp only [Int.toNat_natCast]
  rw [(hax m.bs m.def_).1, (hax m.bs m.def_).2.1, (hax m.bs m.def_).2.2]

/-- Witness of C19: the boundary scenario with one written element. -/
theorem C19_resize_same_shape_witness :
    WF (sparIntSet corner0 1 1 1 9) ∧
    sparIntResize (sparIntSet corner0 1 1 1 9) (sparIntSet corner0 1 1 1 9).nx
      (sparIntSet corner0 1 1 1 9).ny (sparIntSet corner0 1 1 1 9).nz =
      some (sparIntSet corner0 1 1 1 9) :=
  ⟨by decide, (C19_resize_same_shape (sparIntSet corner0 1 1 1 9) (by decide)).1⟩

/-- C21 (expand then compact restores the state).  On a well-formed matrix,
for a coordinate inside the matrix whose slot is uniform with value `u` and
any value `w`, `sparIntSet(p,w)` followed by `sparIntSet(p,u)` gives back the
matrix itself, block arrays included.  Instance: after
`sparIntInit(4,4,4,2,0)`, `sparIntSet(0,0,0,5)`, `sparIntSet(0,0,0,0)` no slot
is heterogeneous. -/
theorem C21_expand_then_compact (m : sparInt) (x y z : Nat) (w : Int) (hm : WF m)
    (hr : InRange m x y z) (hd : dataAt m.blockData (blockIndex m x y z) = none) :
    sparIntSet (sparIntSet m x y z w) x y z (valueAt m.blockValue (blockIndex m x y z)) = m ∧
    ∃ r, sparIntInit 4 4 4 2 0 = some r ∧
      (sparIntSet (sparIntSet r 0 0 0 5) 0 0 0 0).blockData = List.replicate 8 none := by
  constructor
  · have hn := blockIndex_lt hm hr
    have ho := blockOffset_lt hm x y z
    obtain ⟨hlv, hld⟩ := hm.lengths
    by_cases e : w = valueAt m.blockValue (blockIndex m x y z)
    · have h1 : sparIntSet m x y z w = m := by
        rw [sparIntSet_uniform m x y z w hd, if_neg (not_not.mpr e)]
      rw [← e, h1, h1]
    · have h1 := sparIntSet_uniform m x y z w hd
      rw [if_pos e] at h1
      rw [h1]
      have hwf1 := sparIntSet_WF hm x y z w
      rw [h1] at hwf1
      have hd1 : dataAt (m.blockData.set (blockIndex m x y z)
          (some ((List.replicate m.bs3 (valueAt m.blockValue (blockIndex m x y z))).set
            (blockOffset m x y z) w))) (blockIndex m x y z) =
          some ((List.replicate m.bs3 (valueAt m.blockValue (blockIndex m x y z))).set
            (blockOffset m x y z) w) := by
        rw [dataAt_set, if_pos ⟨rfl, by rw [hld]; exact hn⟩]
      obtain ⟨c1, _⟩ := sparIntSet_dense_cases hwf1 (x := x) (y := y) (z := z) hr
        (valueAt m.blockValue (blockIndex m x y z)) hd1
      have c2 : AllEq m (x / m.bs) (y / m.bs) (z / m.bs)
          (((List.replicate m.bs3 (valueAt m.blockValue (blockIndex m x y z))).set
            (blockOffset m x y z) w).set (blockOffset m x y z)
            (valueAt m.blockValue (blockIndex m x y z))) →
          sparIntSet
            { m with
              blockData := m.blockData.set (blockIndex m x y z)
                (some ((List.replicate m.bs3 (valueAt m.blockValue (blockIndex m x y z))).set
                  (blockOffset m x y z) w)) } x y z
            (valueAt m.blockValue (blockIndex m x y z)) =
          { m with
            blockValue := m.blockValue.set (blockIndex m x y z)
              (valueAt m.blockValue (blockIndex m x y z)),
            blockData := (m.blockData.set (blockIndex m x y z)
              (some ((List.replicate m.bs3 (valueAt m.blockValue (blockIndex m x y z))).set
                (blockOffset m x y z) w))).set (blockIndex m x y z) none } := c1
      rw [List.set_set, replicate_set_self, List.set_set] at c2
      have e1 : m.blockData.set (blockIndex m x y z) none = m.blockData := by
        have := set_dataAt_self m.blockData (blockIndex m x y z)
        rw [hd] at this; exact this
      have e2 := set_valueAt_self m.blockValue (blockIndex m x y z) (by rw [hlv]; exact hn)
      rw [e1, e2] at c2
      apply c2
      intro i j k i' j' k' hi hj hk hi' hj' hk' _ _
      have hbs3 : m.bs3 = m.bs * m.bs * m.bs := by unfold WF at hm; exact hm.2.2.2.2.1
      rw [getD_replicate _ _ _ (by rw [hbs3]; exact lin3_lt hi hj hk),
        getD_replicate _ _ _ (by rw [hbs3]; exact lin3_lt hi' hj' hk')]
  · have e := sparIntInit_eq 4 4 4 2 0 (by decide) (by decide) (by decide) (by decide)
    simp only [Nat.cast_ofNat] at e
    exact ⟨initMatrix 4 4 4 2 0, e, by decide⟩

/-- Witness of C21: the corner block of the boundary scenario. -/
theorem C21_expand_then_compact_witness :
    WF corner0 ∧ InRange corner0 2 2 2 ∧
    dataAt corner0.blockData (blockIndex corner0 2 2 2) = none ∧
    sparIntSet (sparIntSet corner0 2 2 2 7) 2 2 2
      (valueAt corner0.blockValue (blockIndex corner0 2 2 2)) = corner0 :=
  ⟨by decide, by decide, by decide,
    (C21_expand_then_compact corner0 2 2 2 7 (by decide) (by decide) (by decide)).1⟩

/-- C25 (set changes only the addressed element).  On a well-formed matrix,
for coordinates `p` and `q ≠ p` inside the matrix, `sparIntGet(q)` after
`sparIntSet(p,v)` is `sparIntGet(q)` before it, whichever path `sparIntSet`
takes and also for `q` in the block of `p`; `nx, ny, nz, bs, mx, my, mz, def`
are not changed. -/
theorem C25_set_frame (m : sparInt) (x y z x' y' z' : Nat) (v : Int) (hm : WF m)
    (hp : InRange m x y z) (hq : InRange m x' y' z') (hne : ¬ (x' = x ∧ y' = y ∧ z' = z)) :
    sparIntGet (sparIntSet m x y z v) x' y' z' = sparIntGet m x' y' z' ∧
    (sparIntSet m x y z v).nx = m.nx ∧ (sparIntSet m x y z v).ny = m.ny ∧
    (sparIntSet m x y z v).nz = m.nz ∧ (sparIntSet m x y z v).bs = m.bs ∧
    (sparIntSet m x y z v).mx = m.mx ∧ (sparIntSet m x y z v).my = m.my ∧
    (sparIntSet m x y z v).mz = m.mz ∧ (sparIntSet m x y z v).def_ = m.def_ := by
  obtain ⟨f1, f2, f3, f4, _, f6, f7, f8, f9⟩ := sparIntSet_fields m x y z v
  refine ⟨?_, f1, f2, f3, f4, f6, f7, f8, f9⟩
  rw [get_set hm v hp hq, if_neg hne]

/-- Witness of C25: a write into the corner block of the boundary scenario
that reduces the block, read at another coordinate. -/
theorem C25_set_frame_witness :
    WF (sparIntSet corner0 2 2 2 7) ∧
    sparIntGet (sparIntSet (sparIntSet corner0 2 2 2 7) 2 2 2 9) 1 2 2 =
      sparIntGet (sparIntSet corner0 2 2 2 7) 1 2 2 :=
  ⟨by decide, (C25_set_frame (sparIntSet corner0 2 2 2 7) 2 2 2 1 2 2 9 (by decide)
    (by decide) (by decide) (by decide)).1⟩

/-- C26 (set on a uniform slot).  On a well-formed matrix, for a coordinate
inside the matrix whose slot `n` is uniform with value `v`: if `w = v`,
`sparIntSet` returns the matrix unchanged; if `w ≠ v`, slot `n` becomes
heterogeneous with a payload of `bs^3` values that holds `w` at the offset
`o = i2 + bs*(j2 + bs*k2)` and `v` at every other offset, and every other
slot, `blockValue` and all other fields are unchanged. -/
theorem C26_set_on_uniform_slot (m : sparInt) (x y z : Nat) (w : Int) (hm : WF m)
    (hr : InRange m x y z) (hd : dataAt m.blockData (blockIndex m x y z) = none) :
    (w = valueAt m.blockValue (blockIndex m x y z) → sparIntSet m x y z w = m) ∧
    (w ≠ valueAt m.blockValue (blockIndex m x y z) →
      ∃ q, dataAt (sparIntSet m x y z w).blockData (blockIndex m x y z) = some q ∧
        q.length = m.bs ^ 3 ∧
        blockOffset m x y z = x % m.bs + m.bs * (y % m.bs + m.bs * (z % m.bs)) ∧
        q.getD (blockOffset m x y z) 0 = w ∧
        (∀ t, t < m.bs ^ 3 → t ≠ blockOffset m x y z →
          q.getD t 0 = valueAt m.blockValue (blockIndex m x y z)) ∧
        (∀ t, t ≠ blockIndex m x y z →
          dataAt (sparIntSet m x y z w).blockData t = dataAt m.blockData t) ∧
        (sparIntSet m x y z w).blockValue = m.blockValue ∧
        SameShape (sparIntSet m x y z w) m) := by
  have hn := blockIndex_lt hm hr
  have ho := blockOffset_lt hm x y z
  obtain ⟨hlv, hld⟩ := hm.lengths
  have hbs3 : m.bs3 = m.bs ^ 3 := by
    unfold WF at hm
    rw [hm.2.2.2.2.1]; ring
  constructor
  · intro e
    rw [sparIntSet_uniform m x y z w hd, if_neg (not_not.mpr e)]
  · intro e
    refine ⟨(List.replicate m.bs3 (valueAt m.blockValue (blockIndex m x y z))).set
      (blockOffset m x y z) w, ?_, by simp [hbs3], rfl, ?_, ?_, ?_, ?_,
      sparIntSet_shape m x y z w⟩
    · rw [sparIntSet_uniform m x y z w hd, if_pos e]
      simp only
      rw [dataAt_set, if_pos ⟨rfl, by rw [hld]; exact hn⟩]
    · rw [getD_set, if_pos ⟨rfl, by rw [List.length_replicate]; exact ho⟩]
    · intro t ht hne
      rw [getD_set, if_neg (fun c => hne c.1.symm), getD_replicate _ _ _ (by rw [hbs3]; exact ht)]
    · intro t hne
      rw [sparIntSet_uniform m x y z w hd, if_pos e]
      simp only
      rw [dataAt_set, if_neg (fun c => hne c.1.symm)]
    · rw [sparIntSet_uniform m x y z w hd, if_pos e]

/-- Witness of C26: the corner block of the boundary scenario. -/
theorem C26_set_on_uniform_slot_witness :
    WF corner0 ∧ InRange corner0 2 2 2 ∧
    dataAt corner0.blockData (blockIndex corner0 2 2 2) = none ∧
    (1 = valueAt corner0.blockValue (blockIndex corner0 2 2 2) →
      sparIntSet corner0 2 2 2 1 = corner0) :=
  ⟨by decide, by decide, by decide,
    (C26_set_on_uniform_slot corner0 2 2 2 1 (by decide) (by decide) (by decide)).1⟩

/-- C27 (set on a heterogeneous slot).  On a well-formed matrix, for a
coordinate inside the matrix whose slot `n` is heterogeneous with payload `p`:
after `sparIntSet(x,y,z,w)` the slot is uniform with value `w` exactly when
every position of the block inside the matrix holds `w` in `p` with `p[o]`
replaced by `w`; otherwise the slot is heterogeneous with that payload
(`p[o] = w`, the other entries unchanged).  So the slot is never left
heterogeneous with all positions inside the matrix equal. -/
theorem C27_set_on_dense_slot (m : sparInt) (x y z : Nat) (w : Int) (p : List Int)
    (hm : WF m) (hr : InRange m x y z)
    (hd : dataAt m.blockData (blockIndex m x y z) = some p) :
    ((dataAt (sparIntSet m x y z w).blockData (blockIndex m x y z) = none ∧
        valueAt (sparIntSet m x y z w).blockValue (blockIndex m x y z) = w) ↔
      ∀ i j k, i < m.bs → j < m.bs → k < m.bs →
        posInside m (x / m.bs) (y / m.bs) (z / m.bs) i j k →
        (p.set (blockOffset m x y z) w).getD (i + m.bs * (j + m.bs * k)) 0 = w) ∧
    (¬ (∀ i j k, i < m.bs → j < m.bs → k < m.bs →
        posInside m (x / m.bs) (y / m.bs) (z / m.bs) i j k →
        (p.set (blockOffset m x y z) w).getD (i + m.bs * (j + m.bs * k)) 0 = w) →
      dataAt (sparIntSet m x y z w).blockData (blockIndex m x y z) =
        some (p.set (blockOffset m x y z) w) ∧
      (p.set (blockOffset m x y z) w).getD (blockOffset m x y z) 0 = w ∧
      ∀ t, t ≠ blockOffset m x y z →
        (p.set (blockOffset m x y z) w).getD t 0 = p.getD t 0) ∧
    (∀ q, dataAt (sparIntSet m x y z w).blockData (blockIndex m x y z) = some q →
      ¬ AllEq m (x / m.bs) (y / m.bs) (z / m.bs) q) := by
  have hn := blockIndex_lt hm hr
  have ho := blockOffset_lt hm x y z
  obtain ⟨hlv, hld⟩ := hm.lengths
  have hp := hm.payload hd
  obtain ⟨q1, q2, q3, q4⟩ := posInside_of_inRange hm hr
  have hself : (p.set (blockOffset m x y z) w).getD (blockOffset m x y z) 0 = w := by
    rw [getD_set, if_pos ⟨rfl, by rw [hp]; exact ho⟩]
  have hAB : AllEq m (x / m.bs) (y / m.bs) (z / m.bs) (p.set (blockOffset m x y z) w) ↔
      ∀ i j k, i < m.bs → j < m.bs → k < m.bs →
        posInside m (x / m.bs) (y / m.bs) (z / m.bs) i j k →
        (p.set (blockOffset m x y z) w).getD (i + m.bs * (j + m.bs * k)) 0 = w := by
    constructor
    · intro h i j k hi hj hk a
      rw [h i j k (x % m.bs) (y % m.bs) (z % m.bs) hi hj hk q1 q2 q3 a q4]
      exact hself
    · intro h i j k i' j' k' hi hj hk hi' hj' hk' a b
      rw [h i j k hi hj hk a, h i' j' k' hi' hj' hk' b]
  obtain ⟨c1, c2⟩ := sparIntSet_dense_cases hm hr w hd
  by_cases hA : AllEq m (x / m.bs) (y / m.bs) (z / m.bs) (p.set (blockOffset m x y z) w)
  · rw [c1 hA]
    simp only
    have e1 : dataAt (m.blockData.set (blockIndex m x y z) none) (blockIndex m x y z) =
        none := by
      rw [dataAt_set, if_pos ⟨rfl, by rw [hld]; exact hn⟩]
    have e2 : valueAt (m.blockValue.set (blockIndex m x y z) w) (blockIndex m x y z) = w := by
      rw [valueAt_set, if_pos ⟨rfl, by rw [hlv]; exact hn⟩]
    refine ⟨⟨fun _ => hAB.mp hA, fun _ => ⟨e1, e2⟩⟩, fun h => absurd (hAB.mp hA) h, ?_⟩
    intro q hq
    rw [e1] at hq
    exact absurd hq (by simp)
  · rw [c2 hA]
    simp only
    have e1 : dataAt (m.blockData.set (blockIndex m x y z)
        (some (p.set (blockOffset m x y z) w))) (blockIndex m x y z) =
        some (p.set (blockOffset m x y z) w) := by
      rw [dataAt_set, if_pos ⟨rfl, by rw [hld]; exact hn⟩]
    refine ⟨⟨fun h => ?_, fun h => absurd (hAB.mpr h) hA⟩, fun _ => ⟨e1, hself, ?_⟩, ?_⟩
    · rw [e1] at h
      exact absurd h.1 (by simp)
    · intro t hne
      rw [getD_set, if_neg (fun c => hne c.1.symm)]
    · intro q hq
      rw [e1] at hq
      simp only [Option.some.injEq] at hq
      subst hq
      exact hA

/-- Witness of C27: the second write of 7 into the heterogeneous corner block
of the boundary scenario. -/
theorem C27_set_on_dense_slot_witness :
    WF (sparIntSet corner0 2 2 2 7) ∧ InRange (sparIntSet corner0 2 2 2 7) 2 2 2 ∧
    dataAt (sparIntSet corner0 2 2 2 7).blockData
      (blockIndex (sparIntSet corner0 2 2 2 7) 2 2 2) = some [7, 1, 1, 1, 1, 1, 1, 1] ∧
    ∀ q, dataAt (sparIntSet (sparIntSet corner0 2 2 2 7) 2 2 2 7).blockData
        (blockIndex (sparIntSet corner0 2 2 2 7) 2 2 2) = some q →
      ¬ AllEq (sparIntSet corner0 2 2 2 7) (2 / (sparIntSet corner0 2 2 2 7).bs)
        (2 / (sparIntSet corner0 2 2 2 7).bs) (2 / (sparIntSet corner0 2 2 2 7).bs) q :=
  ⟨by decide, by decide, by decide,
    (C27_set_on_dense_slot (sparIntSet corner0 2 2 2 7) 2 2 2 7 [7, 1, 1, 1, 1, 1, 1, 1]
      (by decide) (by decide) (by decide)).2.2⟩

/-- C28 (uniformity test).  On a well-formed matrix, for a block `(i1,j1,k1)`
of the grid, `sparIntUniformBlock` returns 1 exactly when the slot is uniform
or all positions of its payload inside the matrix hold one value.  For a
heterogeneous slot, the branch `Inner block` (all `bs3` values against the
last one) and the branch `Boundary block` (the values inside the matrix
against the first one) each decide exactly that, and on a block without
positions outside the matrix the two branches give the same result. -/
theorem C28_uniform_block_correct (m : sparInt) (i1 j1 k1 : Nat) (hm : WF m)
    (hi : i1 < m.mx) (hj : j1 < m.my) (hk : k1 < m.mz) :
    (sparIntUniformBlock m i1 j1 k1 = true ↔
      (dataAt m.blockData (i1 + m.mx * (j1 + m.my * k1)) = none ∨
        ∃ p, dataAt m.blockData (i1 + m.mx * (j1 + m.my * k1)) = some p ∧
          AllEq m i1 j1 k1 p)) ∧
    ∀ p, dataAt m.blockData (i1 + m.mx * (j1 + m.my * k1)) = some p →
      ((i1 < m.mx - 1 ∧ j1 < m.my - 1 ∧ k1 < m.mz - 1) →
        sparIntUniformBlock m i1 j1 k1 = uniformInner m.bs3 p ∧
        (uniformInner m.bs3 p = true ↔ AllEq m i1 j1 k1 p)) ∧
      (¬ (i1 < m.mx - 1 ∧ j1 < m.my - 1 ∧ k1 < m.mz - 1) →
        sparIntUniformBlock m i1 j1 k1 = uniformBoundary m i1 j1 k1 p ∧
        (uniformBoundary m i1 j1 k1 p = true ↔ AllEq m i1 j1 k1 p)) ∧
      ((∀ i j k, i < m.bs → j < m.bs → k < m.bs → posInside m i1 j1 k1 i j k) →
        uniformInner m.bs3 p = uniformBoundary m i1 j1 k1 p) := by
  have h0 := origin_inside hm hi hj hk
  constructor
  · cases hd : dataAt m.blockData (i1 + m.mx * (j1 + m.my * k1)) with
    | none =>
      rw [sparIntUniformBlock_eq, hd]
      simp
    | some p =>
      rw [uniformBlock_iff hm hi hj hk hd]
      constructor
      · intro h; exact Or.inr ⟨p, rfl, h⟩
      · rintro (h | ⟨q, hq, h⟩)
        · exact absurd h (by simp)
        · simp only [Option.some.injEq] at hq
          subst hq; exact h
  · intro p hd
    refine ⟨fun hin => ⟨?_, uniformInner_allEq hm p (inner_all_inside hm hin)⟩,
      fun hin => ⟨?_, uniformBoundary_allEq hm p h0⟩, fun hall => ?_⟩
    · rw [sparIntUniformBlock_eq, hd]
      simp only [hin, and_self, if_true]
    · rw [sparIntUniformBlock_eq, hd]
      simp only [hin, if_false]
    · rw [Bool.eq_iff_iff, uniformInner_allEq hm p hall, uniformBoundary_allEq hm p h0]

/-- Witness of C28: the heterogeneous corner block of the boundary scenario,
whose single position inside the matrix makes the test answer 1. -/
theorem C28_uniform_block_correct_witness :
    WF (sparIntSet corner0 2 2 2 7) ∧
    (sparIntUniformBlock (sparIntSet corner0 2 2 2 7) 1 1 1 = true ↔
      (dataAt (sparIntSet corner0 2 2 2 7).blockData
          (1 + (sparIntSet corner0 2 2 2 7).mx * (1 + (sparIntSet corner0 2 2 2 7).my * 1)) =
          none ∨
        ∃ p, dataAt (sparIntSet corner0 2 2 2 7).blockData
            (1 + (sparIntSet corner0 2 2 2 7).mx *
              (1 + (sparIntSet corner0 2 2 2 7).my * 1)) = some p ∧
          AllEq (sparIntSet corner0 2 2 2 7) 1 1 1 p)) :=
  ⟨by decide, (C28_uniform_block_correct (sparIntSet corner0 2 2 2 7) 1 1 1 (by decide)
    (by decide) (by decide) (by decide)).1⟩

/-- C22 (positions outside the matrix are observable through a resize).  The
matrices `stale0` and `stale1` are well formed, have the same fields and
differ only in the payload value at offset 1, the position `(1,0,0)` outside
their range `1 × 1 × 1`; `sparIntGet` agrees on them at the one coordinate
inside.  After `sparIntResize(2,1,1)` on both, `sparIntGet(1,0,0)` returns 5
on the one and 6 on the other. -/
theorem C22_outside_value_observable :
    WF stale0 ∧ WF stale1 ∧ SameShape stale0 stale1 ∧
    stale0.blockValue = stale1.blockValue ∧
    dataAt stale0.blockData 0 = some [0, 5, 0, 0, 0, 0, 0, 0] ∧
    dataAt stale1.blockData 0 = some [0, 6, 0, 0, 0, 0, 0, 0] ∧
    ¬ posInside stale0 0 0 0 1 0 0 ∧
    sparIntGet stale0 0 0 0 = sparIntGet stale1 0 0 0 ∧
    ∃ r0 r1, sparIntResize stale0 2 1 1 = some r0 ∧ sparIntResize stale1 2 1 1 = some r1 ∧
      InRange r0 1 0 0 ∧ InRange r1 1 0 0 ∧
      sparIntGet r0 1 0 0 = 5 ∧ sparIntGet r1 1 0 0 = 6 := by
  refine ⟨by decide, by decide, by unfold SameShape; decide, by decide, by decide,
    by decide, by decide, by decide, ?_⟩
  exact ⟨_, _, rfl, rfl, by decide, by decide, by decide, by decide⟩

/-- C23 (construction fails exactly on invalid arguments), arguments that
pass the checks and give no well-formed matrix.  `sparIntInit(1,1,1,1291,0)`
passes both checks (it does not call `exit(1)`); the `int` product
`bs * bs * bs` is `2151685171`, above `INT_MAX`, and no matrix with block
size 1291 whose `bs3` is a value of `int` is well formed. -/
theorem C23_init_overflow_not_wellformed :
    ¬ ((1 : Int) ≤ 0 ∨ (1 : Int) ≤ 0 ∨ (1 : Int) ≤ 0 ∨ (1291 : Int) ≤ 1) ∧
    sparIntInit 1 1 1 1291 0 ≠ none ∧
    (1291 : Int) * 1291 * 1291 = 2151685171 ∧
    ¬ initFits 1 1 1 1291 ∧
    (∀ q : sparInt, q.bs = 1291 → (q.bs3 : Int) ≤ INT_MAX → ¬ WF q) := by
  have e := sparIntInit_eq 1 1 1 1291 0 (by decide) (by decide) (by decide) (by decide)
  simp only [Nat.cast_ofNat, Nat.cast_one] at e
  refine ⟨by decide, ?_, by decide, by decide, no_int_bs3⟩
  rw [e]
  exact fun c => absurd c (by simp)

/-- C23 (construction fails exactly on invalid arguments), amended.  The
constructor `sparIntInit(nx,ny,nz,bs,def)` fails exactly when `nx ≤ 0`,
`ny ≤ 0`, `nz ≤ 0` or `bs ≤ 1`; in every other case, when its `int`
expressions stay within `INT_MAX` (`initFits`), it returns a well-formed
matrix whose `bs3` and number of blocks are values of `int`. -/
theorem C23_init_fails_iff_invalid (nx ny nz bs d : Int) :
    (sparIntInit nx ny nz bs d = none ↔ nx ≤ 0 ∨ ny ≤ 0 ∨ nz ≤ 0 ∨ bs ≤ 1) ∧
    (¬ (nx ≤ 0 ∨ ny ≤ 0 ∨ nz ≤ 0 ∨ bs ≤ 1) → initFits nx ny nz bs →
      ∃ m, sparIntInit nx ny nz bs d = some m ∧ WF m ∧
        (m.bs3 : Int) ≤ INT_MAX ∧ ((m.mx * m.my * m.mz : Nat) : Int) ≤ INT_MAX) := by
  have hsome : ¬ (nx ≤ 0 ∨ ny ≤ 0 ∨ nz ≤ 0 ∨ bs ≤ 1) →
      ∃ m, sparIntInit nx ny nz bs d = some m ∧ WF m ∧
        (m.nx : Int) = nx ∧ (m.ny : Int) = ny ∧ (m.nz : Int) = nz ∧ (m.bs : Int) = bs := by
    intro h
    have hx : 0 < nx.toNat := by omega
    have hy : 0 < ny.toNat := by omega
    have hz : 0 < nz.toNat := by omega
    have hb : 1 < bs.toNat := by omega
    have e := sparIntInit_eq nx.toNat ny.toNat nz.toNat bs.toNat d hx hy hz hb
    rw [Int.toNat_of_nonneg (by omega), Int.toNat_of_nonneg (by omega),
      Int.toNat_of_nonneg (by omega), Int.toNat_of_nonneg (by omega)] at e
    exact ⟨_, e, initMatrix_WF _ _ _ _ d hx hy hz hb,
      Int.toNat_of_nonneg (by omega), Int.toNat_of_nonneg (by omega),
      Int.toNat_of_nonneg (by omega), Int.toNat_of_nonneg (by omega)⟩
  refine ⟨⟨fun h => ?_, fun h => ?_⟩, fun h hf => ?_⟩
  · by_contra hc
    obtain ⟨r, hr, _⟩ := hsome hc
    rw [hr] at h
    exact absurd h (by simp)
  · unfold sparIntInit
    by_cases h1 : nx > 0 ∧ ny > 0 ∧ nz > 0
    · have h2 : ¬ bs > 1 := by omega
      rw [if_neg (not_not.mpr h1), if_pos h2]
    · rw [if_pos h1]
  · obtain ⟨r, hr, hw, e1, e2, e3, e4⟩ := hsome h
    obtain ⟨f1, f2⟩ := hw.fits e1 e2 e3 e4 hf
    exact ⟨r, hr, hw, f1, f2⟩

/-- Witness of C23: `sparIntInit(3,3,3,2,1)` returns a well-formed matrix. -/
theorem C23_init_fails_iff_invalid_witness :
    initFits 3 3 3 2 ∧
    ∃ m, sparIntInit 3 3 3 2 1 = some m ∧ WF m ∧
      (m.bs3 : Int) ≤ INT_MAX ∧ ((m.mx * m.my * m.mz : Nat) : Int) ≤ INT_MAX :=
  ⟨by decide, (C23_init_fails_iff_invalid 3 3 3 2 1).2 (by decide) (by decide)⟩

/-- C24 (errors of the mutators come before any mutation).  The function
`sparIntResize` fails exactly when one of the new sizes is `≤ 0`, and the
matrix at that `exit(1)` is the input matrix.  On a well-formed matrix
`sparIntChangeBs` fails exactly when `bs ≤ 1`, the matrix at that `exit(1)`
is the input matrix, and `sparIntOptimizeBs` does not fail.  The traced
functions return the results of `sparIntResize` and `sparIntChangeBs`. -/
theorem C24_mutators_fail_before_mutation (sz : Sizeof) (m : sparInt) (nx ny nz bs : Int) :
    (sparIntResize m nx ny nz = none ↔ nx ≤ 0 ∨ ny ≤ 0 ∨ nz ≤ 0) ∧
    (sparIntResizeTraced m nx ny nz).toOption = sparIntResize m nx ny nz ∧
    (∀ e, sparIntResizeTraced m nx ny nz = Except.error e → e = m) ∧
    (sparIntChangeBsTraced m bs).toOption = sparIntChangeBs m bs ∧
    (∀ e, sparIntChangeBsTraced m bs = Except.error e → e = m) ∧
    (WF m → ((sparIntChangeBs m bs = none ↔ bs ≤ 1) ∧
      ∃ r, sparIntOptimizeBs sz m = some r)) := by
  refine ⟨?_, ?_, ?_, ?_, ?_, ?_⟩
  · unfold sparIntResize
    by_cases h : nx > 0 ∧ ny > 0 ∧ nz > 0
    · rw [if_neg (not_not.mpr h)]
      constructor
      · intro c; exact absurd c (by simp)
      · intro c; omega
    · rw [if_pos h]
      constructor
      · intro _; omega
      · intro _; rfl
  · unfold sparIntResizeTraced sparIntResize
    by_cases h : nx > 0 ∧ ny > 0 ∧ nz > 0
    · rw [if_neg (not_not.mpr h), if_neg (not_not.mpr h)]; rfl
    · rw [if_pos h, if_pos h]; rfl
  · intro e he
    unfold sparIntResizeTraced at he
    by_cases h : nx > 0 ∧ ny > 0 ∧ nz > 0
    · rw [if_neg (not_not.mpr h)] at he
      exact absurd he (by simp)
    · rw [if_pos h] at he
      simp only [Except.error.injEq] at he
      exact he.symm
  · unfold sparIntChangeBsTraced sparIntChangeBs
    cases sparIntInit m.nx m.ny m.nz bs m.def_ <;> rfl
  · intro e he
    unfold sparIntChangeBsTraced at he
    cases h : sparIntInit m.nx m.ny m.nz bs m.def_ with
    | none =>
      rw [h] at he
      simp only [Except.error.injEq] at he
      exact he.symm
    | some m2 =>
      rw [h] at he
      exact absurd he (by simp)
  · intro hm
    constructor
    · constructor
      · intro h
        by_contra hc
        have hb : 1 < bs.toNat := by omega
        obtain ⟨r, hr, _⟩ := sparIntChangeBs_spec hm bs.toNat hb
        rw [Int.toNat_of_nonneg (by omega)] at hr
        rw [hr] at h
        exact absurd h (by simp)
      · intro h
        unfold sparIntChangeBs sparIntInit
        by_cases h1 : (m.nx : Int) > 0 ∧ (m.ny : Int) > 0 ∧ (m.nz : Int) > 0
        · have h2 : ¬ bs > 1 := by omega
          rw [if_neg (not_not.mpr h1), if_pos h2]
        · rw [if_pos h1]
    · obtain ⟨i, _, _, _, _, r, hr, _⟩ := sparIntOptimizeBs_spec sz hm
      exact ⟨r, hr⟩

/-- Witness of C24: on the well-formed matrix of the boundary scenario
`sparIntChangeBs` fails exactly for `bs ≤ 1`, here with `bs = 1`. -/
theorem C24_mutators_fail_before_mutation_witness :
    WF corner0 ∧ (sparIntChangeBs corner0 1 = none ↔ (1 : Int) ≤ 1) :=
  ⟨by decide, ((C24_mutators_fail_before_mutation ⟨56, 4, 8⟩ corner0 1 1 1 1).2.2.2.2.2
    (by decide)).1⟩

/-- C30 (a payload of the old storage outlives the copy loop).  The matrix
`drain0` of `sparIntInit(3,3,3,2,0)`, `sparIntSet(2,2,2,7)`,
`sparIntSet(2,2,2,7)` is well formed; at the end of the copy loop of
`sparIntChangeBs(matrix, 3)` the slot 7 of the old storage is heterogeneous
with payload `[0,7,7,7,7,7,7,7]`. -/
theorem C30_old_payload_survives :
    ((sparIntInit 3 3 3 2 0).map (fun m => sparIntSet (sparIntSet m 2 2 2 7) 2 2 2 7) =
      some drain0) ∧
    WF drain0 ∧
    sparIntInit drain0.nx drain0.ny drain0.nz 3 drain0.def_ = some (initMatrix 3 3 3 3 0) ∧
    dataAt (changeBsLoop drain0 (initMatrix 3 3 3 3 0)).1.blockData 7 =
      some [0, 7, 7, 7, 7, 7, 7, 7] := by
  have e := sparIntInit_eq 3 3 3 2 0 (by decide) (by decide) (by decide) (by decide)
  have e2 := sparIntInit_eq 3 3 3 3 0 (by decide) (by decide) (by decide) (by decide)
  simp only [Nat.cast_ofNat] at e e2
  refine ⟨?_, by decide, e2, by decide⟩
  rw [e]
  decide

/-- C29 (reference definition of `sparIntMemoryBs`), a block size on which
the function overflows.  The matrix of `sparIntInit(2,1,1,2,0)`,
`sparIntSet(1,0,0,5)` is well formed, `1291 > 1` differs from its block size,
and the one virtual block holds 0 and 5, so the reference value adds
`sizeof(int) * 1291^3`; the `int` variable `bs3 = bs * bs * bs` of
`sparIntMemoryBs` cannot hold `1291^3 = 2151685171`. -/
theorem C29_memoryBs_overflows :
    WF (sparIntSet (initMatrix 2 1 1 2 0) 1 0 0 5) ∧
    (1 < 1291 ∧ 1291 ≠ (sparIntSet (initMatrix 2 1 1 2 0) 1 0 0 5).bs) ∧
    heteroCount (sparIntSet (initMatrix 2 1 1 2 0) 1 0 0 5) 1291 = 1 ∧
    (1291 : Int) * 1291 * 1291 = 2151685171 ∧ INT_MAX < (1291 : Int) * 1291 * 1291 ∧
    ¬ initFits (sparIntSet (initMatrix 2 1 1 2 0) 1 0 0 5).nx
      (sparIntSet (initMatrix 2 1 1 2 0) 1 0 0 5).ny
      (sparIntSet (initMatrix 2 1 1 2 0) 1 0 0 5).nz 1291 := by
  refine ⟨by decide, by decide, by decide, by decide, by decide, by decide⟩

/-- C29 (reference definition of `sparIntMemoryBs`), amended.  For a block
size `bs > 1` other than the one of the matrix, for which the `int`
expressions of `sparIntMemoryBs` stay within `INT_MAX` (`initFits` on the
sizes of the matrix and `bs`), `sparIntMemoryBs` returns
`sizeof(struct) + B * (sizeof(int) + sizeof(pointer)) + sizeof(int) * bs^3 * H`
with `B` the number of blocks of the grid of block size `bs` and `H` the
number of its blocks that hold two coordinates inside the matrix at which
`sparIntGet` differs; `bs^3` and `B` are values of `int`. -/
theorem C29_memoryBs_reference (sz : Sizeof) (m : sparInt) (bs : Nat)
    (hb : 1 < bs) (hne : bs ≠ m.bs) (hf : initFits m.nx m.ny m.nz bs) :
    sparIntMemoryBs sz m bs =
      sz.szStruct +
        (m.nx + bs - 1) / bs * ((m.ny + bs - 1) / bs) * ((m.nz + bs - 1) / bs) *
          (sz.szInt + sz.szPtr) +
        sz.szInt * bs ^ 3 * heteroCount m bs ∧
    ((bs ^ 3 : Nat) : Int) ≤ INT_MAX ∧
    (((m.nx + bs - 1) / bs * ((m.ny + bs - 1) / bs) * ((m.nz + bs - 1) / bs) : Nat) : Int) ≤
      INT_MAX := by
  unfold initFits at hf
  refine ⟨?_, ?_, ?_⟩
  · rw [sparIntMemoryBs_eq, if_neg hne, costBs_count sz m bs (by omega)]
    ring
  · have e : ((bs ^ 3 : Nat) : Int) = (bs : Int) * bs * bs := by push_cast; ring
    rw [e]; exact hf.1
  · rw [grid_cast _ _ _ _ (by omega)]; exact hf.2.2.2.2

/-- Witness of C29: the boundary scenario with one written element under
block size 3, where the one virtual block holds 1 and 9. -/
theorem C29_memoryBs_reference_witness :
    (1 < 3) ∧ 3 ≠ (sparIntSet corner0 1 1 1 9).bs ∧
    initFits (sparIntSet corner0 1 1 1 9).nx (sparIntSet corner0 1 1 1 9).ny
      (sparIntSet corner0 1 1 1 9).nz (3 : Nat) ∧
    heteroCount (sparIntSet corner0 1 1 1 9) 3 = 1 ∧
    sparIntMemoryBs ⟨56, 4, 8⟩ (sparIntSet corner0 1 1 1 9) 3 =
      56 + ((sparIntSet corner0 1 1 1 9).nx + 3 - 1) / 3 *
          (((sparIntSet corner0 1 1 1 9).ny + 3 - 1) / 3) *
          (((sparIntSet corner0 1 1 1 9).nz + 3 - 1) / 3) * (4 + 8) +
        4 * 3 ^ 3 * heteroCount (sparIntSet corner0 1 1 1 9) 3 :=
  ⟨by decide, by decide, by decide, by decide,
    (C29_memoryBs_reference ⟨56, 4, 8⟩ (sparIntSet corner0 1 1 1 9) 3 (by decide) (by decide)
      (by decide)).1⟩

/-- C12 (resize preserves I2), a shrink that breaks it.  The matrix of
`sparIntInit(2,1,1,2,0)`, `sparIntSet(1,0,0,5)` is well formed and satisfies
I2 (its block holds 0 and 5 inside the matrix); `sparIntResize(1,1,1)` keeps
the payload, and in the result the block is heterogeneous with a single
position inside the matrix, so I2 fails. -/
theorem C12_shrink_breaks_I2 :
    sparIntInit 2 1 1 2 0 = some (initMatrix 2 1 1 2 0) ∧
    WF (sparIntSet (initMatrix 2 1 1 2 0) 1 0 0 5) ∧
    I2 (sparIntSet (initMatrix 2 1 1 2 0) 1 0 0 5) ∧
    sparIntResize (sparIntSet (initMatrix 2 1 1 2 0) 1 0 0 5) 1 1 1 = some stale0 ∧
    WF stale0 ∧ ¬ I2 stale0 := by
  have e := sparIntInit_eq 2 1 1 2 0 (by decide) (by decide) (by decide) (by decide)
  simp only [Nat.cast_ofNat, Nat.cast_one] at e
  exact ⟨e, by decide, by decide, by decide, by decide, by decide⟩

/-- C12, amended: on a well-formed matrix that satisfies I2, `sparIntResize`
to sizes none of which is smaller than the current one, and for which the
`int` expressions of `sparIntResize` stay within `INT_MAX` (`resizeFits`),
returns a well-formed matrix of the new sizes, with a number of blocks within
`INT_MAX`, that satisfies I2. -/
theorem C12_resize_without_shrink_keeps_I2 (m : sparInt) (nx ny nz : Int) (hm : WF m)
    (hI : I2 m) (hx : (m.nx : Int) ≤ nx) (hy : (m.ny : Int) ≤ ny) (hz : (m.nz : Int) ≤ nz)
    (hf : resizeFits m nx ny nz) :
    ∃ r, sparIntResize m nx ny nz = some r ∧ WF r ∧ I2 r ∧
      (r.nx : Int) = nx ∧ (r.ny : Int) = ny ∧ (r.nz : Int) = nz ∧
      ((r.mx * r.my * r.mz : Nat) : Int) ≤ INT_MAX := by
  obtain ⟨r0, g1, g2, _, _, _, g6, _, _⟩ := sparIntResize_spec hm nx.toNat ny.toNat nz.toNat
    (by unfold WF at hm; omega) (by unfold WF at hm; omega) (by unfold WF at hm; omega)
  obtain ⟨r, h1, h2, h3, h4, h5, h6⟩ := sparIntResize_I2 hm hI nx.toNat ny.toNat nz.toNat
    (by omega) (by omega) (by omega)
  have er : r0 = r := by
    have := g1.symm.trans h1
    simpa using this
  subst er
  rw [Int.toNat_of_nonneg (by omega), Int.toNat_of_nonneg (by omega),
    Int.toNat_of_nonneg (by omega)] at h1
  exact ⟨r0, h1, h2, h3, by omega, by omega, by omega,
    h2.resized_fits (by omega) (by omega) (by omega) g6 hf⟩

/-- Witness of C12: the boundary scenario with one written element, grown
to `4 × 3 × 5`. -/
theorem C12_resize_without_shrink_keeps_I2_witness :
    WF (sparIntSet corner0 1 1 1 9) ∧ I2 (sparIntSet corner0 1 1 1 9) ∧
    resizeFits (sparIntSet corner0 1 1 1 9) 4 3 5 ∧
    ∃ r, sparIntResize (sparIntSet corner0 1 1 1 9) 4 3 5 = some r ∧ WF r ∧ I2 r ∧
      (r.nx : Int) = 4 ∧ (r.ny : Int) = 3 ∧ (r.nz : Int) = 5 ∧
      ((r.mx * r.my * r.mz : Nat) : Int) ≤ INT_MAX :=
  ⟨by decide, by decide, by decide,
    C12_resize_without_shrink_keeps_I2 (sparIntSet corner0 1 1 1 9) 4 3 5 (by decide)
      (by decide) (by decide) (by decide) (by decide) (by decide)⟩

/-- C31 (new coordinates after a resize past the block grid), a new shape
on which `sparIntResize` overflows.  The matrix `stale0` is well formed, the
new sizes `2147483647, 1, 1` are positive, x is the only growing axis and
ends beyond the old block grid of width `bs * mx = 2`; in `Expand x` the
`int` sum `nx + bs` of `( nx + bs - 1 ) / bs` is `INT_MAX + 2`. -/
theorem C31_resize_past_grid_overflows :
    WF stale0 ∧ ((0 : Int) < 2147483647 ∧ (0 : Int) < 1) ∧
    (((stale0.bs * stale0.mx : Nat) : Int) < 2147483647 ∧
      ¬ ((stale0.ny : Int) < 1) ∧ ¬ ((stale0.nz : Int) < 1)) ∧
    (2147483647 : Int) + stale0.bs = INT_MAX + 2 ∧
    ¬ resizeFits stale0 2147483647 1 1 := by
  refine ⟨by decide, by decide, by decide, by decide, ?_⟩
  unfold resizeFits INT_MAX
  have e : stale0.bs = 2 := rfl
  rw [e]
  omega

/-- C31 (new coordinates after a resize past the block grid), amended.  On
a well-formed matrix, for positive new sizes such that every growing axis
ends beyond the old block grid (`n' > bs * m` on that axis; the other axes
may stay or shrink) and the `int` expressions of `sparIntResize` stay within
`INT_MAX` (`resizeFits`), `sparIntResize` returns a well-formed matrix of the
new sizes with the old default value and a number of blocks within `INT_MAX`,
in which every coordinate inside the new sizes and outside the old ones reads
the default value. -/
theorem C31_resize_past_grid_reads_default (m : sparInt) (nx ny nz : Int) (hm : WF m)
    (hx : 0 < nx) (hy : 0 < ny) (hz : 0 < nz)
    (gx : (m.nx : Int) < nx → ((m.bs * m.mx : Nat) : Int) < nx)
    (gy : (m.ny : Int) < ny → ((m.bs * m.my : Nat) : Int) < ny)
    (gz : (m.nz : Int) < nz → ((m.bs * m.mz : Nat) : Int) < nz)
    (hf : resizeFits m nx ny nz) :
    ∃ r, sparIntResize m nx ny nz = some r ∧ WF r ∧
      (r.nx : Int) = nx ∧ (r.ny : Int) = ny ∧ (r.nz : Int) = nz ∧ r.def_ = m.def_ ∧
      ((r.mx * r.my * r.mz : Nat) : Int) ≤ INT_MAX ∧
      ∀ x y z, InRange r x y z → ¬ InRange m x y z → sparIntGet r x y z = m.def_ := by
  obtain ⟨r0, g1, _, _, _, _, g6, _, _⟩ := sparIntResize_spec hm nx.toNat ny.toNat nz.toNat
    (by omega) (by omega) (by omega)
  obtain ⟨r, h1, h2, h3, h4, h5, h6, h7⟩ := sparIntResize_fresh hm nx.toNat ny.toNat nz.toNat
    (by omega) (by omega) (by omega) (fun h => by have := gx (by omega); omega)
    (fun h => by have := gy (by omega); omega) (fun h => by have := gz (by omega); omega)
  have er : r0 = r := by
    have := g1.symm.trans h1
    simpa using this
  subst er
  rw [Int.toNat_of_nonneg (by omega), Int.toNat_of_nonneg (by omega),
    Int.toNat_of_nonneg (by omega)] at h1
  refine ⟨r0, h1, h2, by omega, by omega, by omega, h6,
    h2.resized_fits (by omega) (by omega) (by omega) g6 hf, ?_⟩
  intro x y z hr hout
  unfold InRange at hr
  exact h7 x y z (by omega) (by omega) (by omega) hout

/-- Witness of C31: the matrix `stale0`, which holds a stale 5 at the outside
position `(1,0,0)`, grown to `3 × 1 × 1` past its block grid of width 2. -/
theorem C31_resize_past_grid_reads_default_witness :
    WF stale0 ∧ resizeFits stale0 3 1 1 ∧
    ∃ r, sparIntResize stale0 3 1 1 = some r ∧ WF r ∧
      (r.nx : Int) = 3 ∧ (r.ny : Int) = 1 ∧ (r.nz : Int) = 1 ∧ r.def_ = stale0.def_ ∧
      ((r.mx * r.my * r.mz : Nat) : Int) ≤ INT_MAX ∧
      ∀ x y z, InRange r x y z → ¬ InRange stale0 x y z → sparIntGet r x y z = stale0.def_ :=
  ⟨by decide, by decide, C31_resize_past_grid_reads_default stale0 3 1 1 (by decide)
    (by decide) (by decide) (by decide) (by decide) (by decide) (by decide) (by decide)⟩

end Spar
